import Mathlib

/-!
# mnum: arbitrary-precision signed decimal arithmetic on digit vectors

A shallow embedding of `utils.h`, `imath.h`, `fmath.h` and `mnum.h`.

* `std::vector<udigit>` is `List Nat`, most significant digit first, as in the source.
* `udigit` is `uint_fast8_t`; every store into a `udigit` goes through `u8` (`% 256`).
* In-place functions return the new contents of the vectors they mutate.
* `throw` and a failing `assert` are `Except.error`.
* The `double` accumulators of the long division are values of `Dbl`, IEEE 754 binary64
  with round-to-nearest-even; the signed 8-bit temporary of the subtractions is `i8`.
* The backwards loops (`for (i = max_size - 1; i > -1; --i)`) run on the reversed
  vectors with the loop counter as fuel; an exhausted reverse iterator reads `0`,
  exactly as `xi != x.rend() ? *xi++ : 0` does.
* The exponent loop of `power` has no bound in the source; its model takes one, and
  using it up is `Err.out_of_fuel`. The theorems show which bound is enough.
* A `std::string` is the list of its bytes, `List Char`.
-/

namespace Mnum

/-! ## Errors -/

/-- The failures the library can raise. -/
inductive Err where
  /-- Is `std::domain_error("division by zero")`. -/
  | division_by_zero
  /-- Is `std::domain_error("can't power fractional exponent")`. -/
  | fractional_exponent
  /-- Is `std::invalid_argument("Invalid number")`. -/
  | invalid_number
  /-- Is `std::range_error("value not found")`. -/
  | value_not_found
  /-- A failing `assert(borrow == 0 && ...)`. -/
  | assert_borrow
  /-- Is not a failure of the program: the iteration bound given to the model of an
  unbounded loop was used up. -/
  | out_of_fuel
  /-- Is `pybind11::index_error("index out of range")`. -/
  | index_out_of_range
  deriving DecidableEq, Repr

deriving instance DecidableEq for Except

/-! ## utils.h -/

/-- A store into a `udigit` (`uint_fast8_t`). -/
def u8 (n : Nat) : Nat := n % 256

/-- A store of a signed intermediate into a `udigit`. -/
def u8i (z : Int) : Nat := (z % 256).toNat

/-- The call `vec.front()`; on an empty vector (undefined behaviour in C++) the model reads `0`. -/
def front (vec : List Nat) : Nat := vec.headD 0

/-- The test `v.size() == 1 && v[0] == 0` used all over the source. -/
def is_zero (v : List Nat) : Bool := v.length == 1 && front v == 0

/-- Remove leading zeros; an empty vector becomes `[0]`, an all-zero vector keeps its
last element. -/
def lstrip_zeros (vec : List Nat) : List Nat :=
  match vec with
  | [] => [0]
  | _ :: _ =>
    match vec.dropWhile (fun d => d == 0) with
    | [] => vec.drop (vec.length - 1)
    | r => r

/-- Remove trailing zeros; an empty vector becomes `[0]`, an all-zero vector keeps its
first element. -/
def rstrip_zeros (vec : List Nat) : List Nat :=
  match vec with
  | [] => [0]
  | _ :: _ =>
    match vec.reverse.dropWhile (fun d => d == 0) with
    | [] => vec.take 1
    | r => r.reverse

/-- The digit loop of the two-argument `cmp` (both vectors have the same size). -/
def cmpLoop : List Nat → List Nat → Int
  | vx :: xs, vy :: ys => if vx = vy then cmpLoop xs ys else if vx > vy then 1 else -1
  | _, _ => 0

/-- Two-argument `cmp`: sizes first, then digits left to right. -/
def cmp (x y : List Nat) : Int :=
  if x.length ≠ y.length then (if x.length > y.length then 1 else -1)
  else cmpLoop x y

/-- Fraction compare `fcmp`: digit by digit up to the longer size, a missing digit reads `0`. -/
def fcmpLoop : Nat → List Nat → List Nat → Int
  | 0, _, _ => 0
  | n + 1, x, y =>
    let vx := x.headD 0
    let vy := y.headD 0
    if vx = vy then fcmpLoop n x.tail y.tail else if vx > vy then 1 else -1

/-- Fraction compare `fcmp`. -/
def fcmp (x y : List Nat) : Int := fcmpLoop (max x.length y.length) x y

/-- Four-argument `cmp`: integer parts, then fractions as the tiebreak. -/
def cmp4 (x fx y fy : List Nat) : Int :=
  let icmp := cmp x y
  if icmp = 0 then fcmp fx fy else icmp

/-! ## imath.h -/

/-- One column of the addition loops: `res = nx + ny + carry;
carry = (res < 10) ? 0 : (res -= 10, 1)`. Returns the stored digit and the carry. -/
def addStep (nx ny carry : Nat) : Nat × Nat :=
  let res := u8 (nx + ny + carry)
  if res < 10 then (res, 0) else (u8 (res - 10), 1)

/-- The addition loop, run `n` times from the least significant digit; the arguments
are the reversed vectors. Returns the digits written (least significant first) and the
final carry. -/
def addLoop : Nat → List Nat → List Nat → Nat → List Nat × Nat
  | 0, _, _, carry => ([], carry)
  | n + 1, xr, yr, carry =>
    let s := addStep (xr.headD 0) (yr.headD 0) carry
    let r := addLoop n xr.tail yr.tail s.2
    (s.1 :: r.1, r.2)

/-- A store into an `int_fast8_t`, taken as 8 bits wide: the value modulo 256 in
`-128..127`. -/
def i8 (z : Int) : Int := (z + 128) % 256 - 128

/-- One column of the subtraction loops: `res = nx - ny - borrow` in the signed 8-bit
temporary; `borrow = res >= 0 ? 0 : 1; res = borrow ? res + 10 : res`, then `res` is
stored into the `udigit`. Returns the stored digit and the borrow. -/
def subStep (nx ny borrow : Nat) : Nat × Nat :=
  let res : Int := i8 ((nx : Int) - (ny : Int) - (borrow : Int))
  if 0 ≤ res then (u8i res, 0) else (u8i (res + 10), 1)

/-- The subtraction loop, run `n` times from the least significant digit on the
reversed minuend and subtrahend. Returns the digits written (least significant first)
and the final borrow. -/
def subLoop : Nat → List Nat → List Nat → Nat → List Nat × Nat
  | 0, _, _, borrow => ([], borrow)
  | n + 1, xr, yr, borrow =>
    let s := subStep (xr.headD 0) (yr.headD 0) borrow
    let r := subLoop n xr.tail yr.tail s.2
    (s.1 :: r.1, r.2)

namespace imath

/-- In-place integer addition `iadd(x, y)`: the new contents of `x`. -/
def iadd (x y : List Nat) : List Nat :=
  let r := addLoop (max x.length y.length) x.reverse y.reverse 0
  if r.2 = 0 then r.1.reverse else r.2 :: r.1.reverse

/-- In-place integer subtraction `isub(x, y, comp)`: the new contents of `x`, or the
failed assertion. -/
def isub (x y : List Nat) (comp : Int) : Except Err (List Nat) :=
  if comp = 0 then .ok [0]
  else
    let rev_sub := decide (comp = -1)
    let px := if rev_sub then y else x
    let py := if rev_sub then x else y
    let r := subLoop (max x.length y.length) px.reverse py.reverse 0
    if r.2 ≠ 0 then .error Err.assert_borrow
    else .ok (lstrip_zeros r.1.reverse)

end imath

/-- The inner loop of the schoolbook multiplication for one digit `xd` of the
multiplicand: `prod = xd * yd + carry + *res_it; carry = prod / 10; *res_it = prod % 10`,
then `*res_it += carry`. The result vector is passed from the current offset on,
least significant digit first. -/
def mulRow (xd : Nat) : List Nat → List Nat → Nat → List Nat
  | [], r :: rs, carry => u8 (r + carry) :: rs
  | [], [], _ => []
  | yd :: ys, r :: rs, carry =>
    let prod := u8 (xd * yd + carry + r)
    u8 (prod % 10) :: mulRow xd ys rs (u8 (prod / 10))
  | _ :: _, [], _ => []

/-- The outer loop of the schoolbook multiplication over the reversed multiplicand;
the row of digit `k` works on the result from offset `k` on, so the digit at offset `k`
is final after it. -/
def mulLoop (yr : List Nat) : List Nat → List Nat → List Nat
  | [], res => res
  | xd :: xs, res =>
    match mulRow xd yr res 0 with
    | [] => []
    | r :: rs => r :: mulLoop yr xs rs

/-- The result buffer of size `x.size() + y.size()` after the multiply-accumulate loops
(before any stripping), most significant digit first. -/
def schoolbook (x y : List Nat) : List Nat :=
  (mulLoop y.reverse x.reverse (List.replicate (x.length + y.length) 0)).reverse

namespace imath

/-- Integer multiplication `mul(x, y)`. -/
def mul (x y : List Nat) : List Nat := lstrip_zeros (schoolbook x y)

end imath

/-! ### The type `double`

The accumulators of `divmod` and `true_div` are of type `double`. A finite `double` is
an integer multiple of `2 ^ (-1074)` with at most 53 significant bits and magnitude below
`2 ^ 1024`; every arithmetic operation returns the exact result rounded to the nearest
such value, ties to even. `a * b + c` is two roundings. -/

/-- A value of type `double`: the finite value `n * 2 ^ (-1074)`, an infinity, or a NaN.
The sign of a zero is not kept: no operation of the program tells the two zeros apart. -/
inductive Dbl where
  /-- The finite value `n * 2 ^ (-1074)`. -/
  | fin (n : Int)
  /-- An infinity, negative when `neg` is true. -/
  | inf (neg : Bool)
  /-- A NaN. -/
  | nan
  deriving DecidableEq

namespace Dbl

/-- A step-bounded binary search for the position of the leading bit. -/
def log2Search : Nat → Nat → Nat → Nat
  | 0, lo, _ => lo
  | s + 1, lo, n =>
    if 2 ^ (lo + 2 ^ s) ≤ n then log2Search s (lo + 2 ^ s) n else log2Search s lo n

/-- The position of the leading bit of `n` (`0` for `n = 0`), for `n < 2 ^ 8192`. -/
def ilog2 (n : Nat) : Nat := log2Search 13 0 n

/-- Rounding to nearest, ties to even: the `double` nearest to the exact value
`num / den` counted in units of `2 ^ (-1074)`, for `den > 0`. The spacing of the doubles
around a value whose integer part (in units) has its leading bit at position `p` is
`2 ^ (p - 52)` units, one unit in the subnormal range; a rounded magnitude of
`2 ^ 1024` or more is an infinity. -/
def round (num : Int) (den : Nat) : Dbl :=
  let a := num.natAbs
  let k := ilog2 (a / den) - 52
  let D := den * 2 ^ k
  let q := a / D
  let r := a % D
  let m := if 2 * r < D then q else if D < 2 * r then q + 1 else q + q % 2
  let v := m * 2 ^ k
  if 2 ^ 2098 ≤ v then .inf (decide (num < 0))
  else .fin (if num < 0 then -(v : Int) else (v : Int))

/-- The conversion of an unsigned integer to `double`. -/
def ofNat (n : Nat) : Dbl := round ((n : Int) * 2 ^ 1074) 1

/-- Unary minus. -/
def neg : Dbl → Dbl
  | .fin n => .fin (-n)
  | .inf s => .inf (!s)
  | .nan => .nan

/-- The sum `x + y`. -/
def add : Dbl → Dbl → Dbl
  | .fin a, .fin b => round (a + b) 1
  | .fin _, .inf s => .inf s
  | .inf s, .fin _ => .inf s
  | .inf s, .inf t => if s = t then .inf s else .nan
  | _, _ => .nan

/-- The difference `x - y`. -/
def sub (x y : Dbl) : Dbl := add x (neg y)

/-- The product `x * y`. -/
def mul : Dbl → Dbl → Dbl
  | .fin a, .fin b => round (a * b) (2 ^ 1074)
  | .fin a, .inf s => if a = 0 then .nan else .inf (xor (decide (a < 0)) s)
  | .inf s, .fin b => if b = 0 then .nan else .inf (xor s (decide (b < 0)))
  | .inf s, .inf t => .inf (xor s t)
  | _, _ => .nan

/-- The quotient `x / y`. The program divides by a non-zero divisor only. -/
def div : Dbl → Dbl → Dbl
  | .fin a, .fin b =>
    if b = 0 then (if a = 0 then .nan else .inf (decide (a < 0)))
    else round ((if b < 0 then -a else a) * 2 ^ 1074) b.natAbs
  | .fin _, .inf _ => .fin 0
  | .inf s, .fin b => .inf (xor s (decide (b < 0)))
  | _, _ => .nan

/-- The test `d == 0`; `d != 0` and the conversion of `d` to `bool` are its negation. -/
def isZero : Dbl → Bool
  | .fin n => n == 0
  | _ => false

/-- The conversion `static_cast<udigit>(d)`: truncation toward zero. When the truncated
value is outside `0..255` the conversion is undefined in C++; the model then gives what
the x86-64 conversion instruction gives, the low byte of the 32-bit truncation, and `0`
when the value has no 32-bit truncation (also for an infinity and a NaN). -/
def toUdigit : Dbl → Nat
  | .fin n =>
    let t := n.natAbs / 2 ^ 1074
    if t < 2 ^ 31 then (if n < 0 then (256 - t % 256) % 256 else t % 256) else 0
  | _ => 0

end Dbl

/-- The divisor accumulator `double divisor = y.front();
divisor = divisor * 10 + *it`. -/
def divisorOf (y : List Nat) : Dbl :=
  y.tail.foldl (fun acc d => Dbl.add (Dbl.mul acc (Dbl.ofNat 10)) (Dbl.ofNat d))
    (Dbl.ofNat (front y))

/-- The long-division loop over the digits of the dividend, on `double` accumulators:
`term_minus = rem * 10 + *ix; quot_div = static_cast<udigit>(term_minus / divisor);
minus_term = divisor * quot_div; rem = term_minus - minus_term`. Returns the quotient
digits and the remainder. -/
def divLoop (divisor : Dbl) : List Nat → Dbl → List Nat × Dbl
  | [], rem => ([], rem)
  | d :: ds, rem =>
    let term_minus := Dbl.add (Dbl.mul rem (Dbl.ofNat 10)) (Dbl.ofNat d)
    let quot_div := Dbl.toUdigit (Dbl.div term_minus divisor)
    let minus_term := Dbl.mul divisor (Dbl.ofNat quot_div)
    let r := divLoop divisor ds (Dbl.sub term_minus minus_term)
    (quot_div :: r.1, r.2)

namespace imath

/-- Integer `divmod(x, y)`: quotient digits and remainder. -/
def divmod (x y : List Nat) : Except Err (List Nat × Dbl) :=
  let divisor := divisorOf y
  if divisor.isZero then .error Err.division_by_zero
  else
    let r := divLoop divisor x (Dbl.ofNat 0)
    .ok (lstrip_zeros r.1, r.2)

end imath

/-! ## fmath.h -/

/-- The effect of `v.resize(n)` when `v.size() < n`, and of reading past the end of a
fraction as `0`: zeros appended on the right up to size `n`. -/
def padRight (v : List Nat) (n : Nat) : List Nat := v ++ List.replicate (n - v.length) 0

namespace fmath

/-- In-place decimal addition `iadd(x, fx, y, fy)`: the new contents of `x` and `fx`. -/
def iadd (x fx y fy : List Nat) : List Nat × List Nat :=
  let fmax_size := max fx.length fy.length
  let rf := addLoop fmax_size (padRight fx fmax_size).reverse (padRight fy fmax_size).reverse 0
  let r := addLoop (max x.length y.length) x.reverse y.reverse rf.2
  (if r.2 = 0 then r.1.reverse else r.2 :: r.1.reverse, rf.1.reverse)

/-- In-place decimal subtraction `isub(x, fx, y, fy, icmp, comp)`: the new contents of
`x` and `fx`, or the failed assertion. -/
def isub (x fx y fy : List Nat) (icmp comp : Int) : Except Err (List Nat × List Nat) :=
  if icmp = 0 ∧ comp = 0 then .ok ([0], [0])
  else
    let x0 := if icmp = 0 then [0] else x
    let rev_sub := decide (comp = -1)
    let max_size := max fx.length fy.length
    let pf := if rev_sub then padRight fy max_size else padRight fx max_size
    let qf := if rev_sub then padRight fx max_size else padRight fy max_size
    let rf := subLoop max_size pf.reverse qf.reverse 0
    if icmp = 0 then
      (if rf.2 ≠ 0 then .error Err.assert_borrow else .ok (x0, rf.1.reverse))
    else
      let px := if rev_sub then y else x0
      let py := if rev_sub then x0 else y
      let r := subLoop (max x0.length y.length) px.reverse py.reverse rf.2
      if r.2 ≠ 0 then .error Err.assert_borrow
      else .ok (lstrip_zeros r.1.reverse, rf.1.reverse)

/-- In-place decimal multiplication `imul(x, fx, y, fy)`: the new contents of `x` and
`fx`. -/
def imul (x fx y fy : List Nat) : List Nat × List Nat :=
  if is_zero fx && is_zero fy then (imath.mul x y, fx)
  else if (front x == 0 && is_zero fx) || (front y == 0 && is_zero fy) then ([0], [0])
  else
    let result := schoolbook (x ++ fx) (y ++ fy)
    let dec_point := result.length - (fx.length + fy.length)
    (lstrip_zeros (result.take dec_point), rstrip_zeros (result.drop dec_point))

/-- The operands of the decimal divisions as whole numbers: fractions appended unless
they are `[0]`, the shorter one padded with zeros. -/
def scaleOperands (x fx y fy : List Nat) : List Nat × List Nat :=
  let fx_size := if is_zero fx then 0 else fx.length
  let fy_size := if is_zero fy then 0 else fy.length
  let xfx := if fx_size ≠ 0 then x ++ fx else x
  let yfy := if fy_size ≠ 0 then y ++ fy else y
  if fx_size < fy_size then (xfx ++ List.replicate (fy_size - fx_size) 0, yfy)
  else if fx_size > fy_size then (xfx, yfy ++ List.replicate (fx_size - fy_size) 0)
  else (xfx, yfy)

/-- Decimal `divmod(x, fx, y, fy)`: integer quotient digits and remainder. -/
def divmod (x fx y fy : List Nat) : Except Err (List Nat × Dbl) :=
  let s := scaleOperands x fx y fy
  imath.divmod s.1 s.2

/-- Signed in-place addition: new `x`, new `fx` and the sign of the result. -/
def signed_iadd (x fx y fy : List Nat) (xsign ysign : Bool) :
    Except Err (List Nat × List Nat × Bool) :=
  if xsign = ysign then
    let r := iadd x fx y fy
    .ok (r.1, r.2, xsign && ysign)
  else
    let icmp := cmp x y
    let comp := if icmp = 0 then fcmp fx fy else icmp
    match isub x fx y fy icmp comp with
    | .error e => .error e
    | .ok r =>
      if comp = 0 then .ok (r.1, r.2, false)
      else .ok (r.1, r.2, if comp = 1 then xsign && !ysign else !xsign && ysign)

/-- Signed in-place subtraction: new `x`, new `fx` and the sign of the result. -/
def signed_isub (x fx y fy : List Nat) (xsign ysign : Bool) :
    Except Err (List Nat × List Nat × Bool) :=
  if xsign ≠ ysign then
    let r := iadd x fx y fy
    .ok (r.1, r.2, xsign && !ysign)
  else
    let icmp := cmp x y
    let comp := if icmp = 0 then fcmp fx fy else icmp
    match isub x fx y fy icmp comp with
    | .error e => .error e
    | .ok r =>
      if comp = 0 then .ok (r.1, r.2, false)
      else .ok (r.1, r.2, if comp = 1 then xsign && ysign else !xsign && !ysign)

/-- Signed floor division: quotient digits and the sign of the quotient. -/
def signed_floor_div (x fx y fy : List Nat) (xsign ysign : Bool) :
    Except Err (List Nat × Bool) :=
  match divmod x fx y fy with
  | .error e => .error e
  | .ok div =>
    if xsign = ysign then .ok (div.1, false)
    else if !div.2.isZero then .ok (imath.iadd div.1 [1], true)
    else .ok (div.1, true)

/-- Signed in-place modulus, `remainder = dividend - divisor * quotient`: new `x`, new
`fx` and the sign of the result. -/
def signed_imod (x fx y fy : List Nat) (xsign ysign : Bool) :
    Except Err (List Nat × List Nat × Bool) :=
  match signed_floor_div x fx y fy xsign ysign with
  | .error e => .error e
  | .ok div =>
    let p := imul div.1 [0] y fy
    signed_isub x fx p.1 p.2 xsign (div.2 != ysign)

end fmath

/-! ## mnum.h -/

/-- The class `mnum`: a sign and two digit vectors. -/
structure mnum where
  /-- Is `true` for a negative value. -/
  sign : Bool
  /-- Integer digits, most significant first. -/
  integer : List Nat
  /-- Fraction digits, tenths first. -/
  fraction : List Nat
  deriving DecidableEq, Repr

namespace mnum

/-- The test shared by `operator==` and `operator!=`: both operands are zero. -/
def both_zero (a y : mnum) : Bool :=
  front a.integer == 0 && front y.integer == 0 &&
    a.fraction.length == 1 && front a.fraction == 0 &&
    y.fraction.length == 1 && front y.fraction == 0

/-- The method `operator==`. -/
def operator_eq (a y : mnum) : Bool :=
  if both_zero a y then true
  else if a.sign != y.sign then false
  else decide (cmp4 a.integer a.fraction y.integer y.fraction = 0)

/-- The method `operator!=`. -/
def operator_ne (a y : mnum) : Bool :=
  if both_zero a y then false
  else if a.sign != y.sign then true
  else decide (cmp4 a.integer a.fraction y.integer y.fraction ≠ 0)

/-- The method `operator<`; `this->sign > y.sign` on `bool` is `sign && !y.sign`. -/
def operator_lt (a y : mnum) : Bool :=
  let comp := cmp4 a.integer a.fraction y.integer y.fraction
  if comp = 0 then
    if front a.integer == 0 && front y.integer == 0 then false
    else a.sign && !y.sign
  else if a.sign && y.sign then decide (comp = -1)
  else if !a.sign && y.sign then false
  else (a.sign && !y.sign) || decide (comp = -1)

/-- The method `operator>`. -/
def operator_gt (a y : mnum) : Bool :=
  let comp := cmp4 a.integer a.fraction y.integer y.fraction
  if comp = 0 then
    if front a.integer == 0 && front y.integer == 0 then false
    else !a.sign && y.sign
  else if a.sign && y.sign then decide (comp = -1)
  else if a.sign && !y.sign then false
  else (!a.sign && y.sign) || decide (comp = 1)

/-- The method `operator<=`. -/
def operator_le (a y : mnum) : Bool :=
  let comp := cmp4 a.integer a.fraction y.integer y.fraction
  if comp = 0 then
    if front a.integer == 0 && front y.integer == 0 then true
    else (a.sign && !y.sign) || (a.sign == y.sign)
  else if a.sign && y.sign then decide (comp = -1)
  else if !a.sign && y.sign then false
  else (a.sign && !y.sign) || decide (comp = -1)

/-- The method `operator>=`. -/
def operator_ge (a y : mnum) : Bool :=
  let comp := cmp4 a.integer a.fraction y.integer y.fraction
  if comp = 0 then
    if front a.integer == 0 && front y.integer == 0 then true
    else (!a.sign && y.sign) || (a.sign == y.sign)
  else if a.sign && y.sign then decide (comp = -1)
  else if a.sign && !y.sign then false
  else (!a.sign && y.sign) || decide (comp = 1)

/-- Unary `operator-`. -/
def operator_neg (a : mnum) : mnum := ⟨!a.sign, a.integer, a.fraction⟩

/-- Binary `operator+`. -/
def operator_plus (a y : mnum) : Except Err mnum :=
  match fmath.signed_iadd a.integer a.fraction y.integer y.fraction a.sign y.sign with
  | .error e => .error e
  | .ok r => .ok ⟨r.2.2, r.1, r.2.1⟩

/-- Binary `operator-`. -/
def operator_minus (a y : mnum) : Except Err mnum :=
  match fmath.signed_isub a.integer a.fraction y.integer y.fraction a.sign y.sign with
  | .error e => .error e
  | .ok r => .ok ⟨r.2.2, r.1, r.2.1⟩

/-- Binary `operator*`. -/
def operator_mul (a y : mnum) : mnum :=
  let r := fmath.imul a.integer a.fraction y.integer y.fraction
  ⟨xor a.sign y.sign, r.1, r.2⟩

/-- The method `floor_div`. -/
def floor_div (a y : mnum) : Except Err mnum :=
  match fmath.signed_floor_div a.integer a.fraction y.integer y.fraction a.sign y.sign with
  | .error e => .error e
  | .ok div => .ok ⟨div.2, div.1, [0]⟩

/-- Binary `operator%`. -/
def operator_mod (a y : mnum) : Except Err mnum :=
  match fmath.signed_imod a.integer a.fraction y.integer y.fraction a.sign y.sign with
  | .error e => .error e
  | .ok r => .ok ⟨r.2.2, r.1, r.2.1⟩

end mnum

/-! ## imath.h and fmath.h: true division and power -/

/-- The fraction loop of `true_div`, `for (i = 0; i < precision && rem; ++i)`, on
`double` accumulators; the first argument is the number of iterations left. Returns the
fraction digits and the remainder. -/
def fracLoop (divisor : Dbl) : Nat → Dbl → List Nat × Dbl
  | 0, rem => ([], rem)
  | n + 1, rem =>
    if rem.isZero then ([], rem)
    else
      let term_minus := Dbl.mul rem (Dbl.ofNat 10)
      let quot_div := Dbl.toUdigit (Dbl.div term_minus divisor)
      let minus_term := Dbl.mul divisor (Dbl.ofNat quot_div)
      let r := fracLoop divisor n (Dbl.sub term_minus minus_term)
      (quot_div :: r.1, r.2)

namespace imath

/-- Integer `true_div(x, y)`: integer and fraction digits of the quotient, `precision = 20`. -/
def true_div (x y : List Nat) : Except Err (List Nat × List Nat) :=
  let divisor := divisorOf y
  if divisor.isZero then .error Err.division_by_zero
  else
    let r := divLoop divisor x (Dbl.ofNat 0)
    let quot := lstrip_zeros r.1
    if r.2.isZero then .ok (quot, [0])
    else
      let f := fracLoop divisor 20 r.2
      if !f.2.isZero then .ok (quot, iadd f.1 [1]) else .ok (quot, f.1)

/-- The loop of `power`, `for (; exp.front() != 0; isub(exp, one, cmp(exp, one)))` with
body `result = mul(result, base)`; the first argument bounds the number of iterations. -/
def powerLoop (base : List Nat) : Nat → List Nat → List Nat → Except Err (List Nat)
  | 0, _, _ => .error Err.out_of_fuel
  | fuel + 1, exp, result =>
    if front exp = 0 then .ok result
    else
      match isub exp [1] (cmp exp [1]) with
      | .error e => .error e
      | .ok exp' => powerLoop base fuel exp' (mul result base)

/-- Integer `power(base, exp)`, with an iteration bound. -/
def power (fuel : Nat) (base exp : List Nat) : Except Err (List Nat) :=
  powerLoop base fuel exp [1]

/-- Integer `signed_power(base, exp, xsign, ysign)`: integer and fraction digits. -/
def signed_power (fuel : Nat) (base exp : List Nat) (_xsign ysign : Bool) :
    Except Err (List Nat × List Nat) :=
  if is_zero base then .ok ([0], [0])
  else if is_zero exp then .ok ([1], base)
  else
    match power fuel base exp with
    | .error e => .error e
    | .ok pow => if !ysign then .ok (pow, [0]) else true_div [1] pow

end imath

namespace fmath

/-- Decimal `true_div(x, fx, y, fy)`: integer and fraction digits of the quotient. -/
def true_div (x fx y fy : List Nat) : Except Err (List Nat × List Nat) :=
  let s := scaleOperands x fx y fy
  imath.true_div s.1 s.2

/-- The loop of the fractional-base branch of `signed_power`, with body
`imul(res_x, res_fx, x, fx)`; the first argument bounds the number of iterations. -/
def powerLoop (x fx : List Nat) : Nat → List Nat → List Nat × List Nat →
    Except Err (List Nat × List Nat)
  | 0, _, _ => .error Err.out_of_fuel
  | fuel + 1, exp, res =>
    if front exp = 0 then .ok res
    else
      match imath.isub exp [1] (cmp exp [1]) with
      | .error e => .error e
      | .ok exp' => powerLoop x fx fuel exp' (imul res.1 res.2 x fx)

/-- Decimal `signed_power(x, fx, y, fy, xsign, ysign)`: integer and fraction digits. -/
def signed_power (fuel : Nat) (x fx y fy : List Nat) (xsign ysign : Bool) :
    Except Err (List Nat × List Nat) :=
  let is_exp_frac_zero := is_zero fy
  let is_frac_zeros := is_zero fx && is_exp_frac_zero
  if !is_exp_frac_zero then .error Err.fractional_exponent
  else if is_frac_zeros then imath.signed_power fuel x y xsign ysign
  else
    match powerLoop x fx fuel y ([1], [0]) with
    | .error e => .error e
    | .ok res => if !ysign then .ok res else true_div [1] [0] res.1 res.2

end fmath

/-! ## utils.h: parsing -/

/-- One digit loop of `convert_num_str`: a byte outside `48..58` is rejected, any other
byte `c` is stored as `c - '0'`. -/
def convertLoop : List Char → Except Err (List Nat)
  | [] => .ok []
  | c :: cs =>
    if c.toNat < 48 ∨ c.toNat > 58 then .error Err.invalid_number
    else
      match convertLoop cs with
      | .error e => .error e
      | .ok ds => .ok (u8 (c.toNat - 48) :: ds)

/-- The function `convert_num_str` on the bytes of the string: the sign, the integer
digits and the fraction digits. A string without `.` returns before the two normalizers
are called. -/
def convert_num_str (num_str : List Char) : Except Err (Bool × List Nat × List Nat) :=
  if num_str.length = 0 then .error Err.invalid_number
  else
    let pos := num_str.indexOf '.'
    let sign := decide (num_str.head? = some '-')
    let skip := sign || decide (num_str.head? = some '+')
    let ptr := if skip then num_str.tail else num_str
    let size := if skip then num_str.length - 1 else num_str.length
    let int_size := if skip then pos - 1 else pos
    match convertLoop (ptr.take int_size) with
    | .error e => .error e
    | .ok integer =>
      let frac_size := size - int_size
      if frac_size = 0 then .ok (sign, integer, [0])
      else
        match convertLoop ((ptr.drop (int_size + 1)).take (frac_size - 1)) with
        | .error e => .error e
        | .ok fraction => .ok (sign, lstrip_zeros integer, rstrip_zeros fraction)

/-! ## mnum.h: division, power, construction from a string -/

namespace mnum

/-- The constructor `mnum(const std::string &)`. -/
def from_string (num_str : List Char) : Except Err mnum :=
  match convert_num_str num_str with
  | .error e => .error e
  | .ok r => .ok ⟨r.1, r.2.1, r.2.2⟩

/-- The method `abs`. -/
def abs (a : mnum) : mnum := ⟨false, a.integer, a.fraction⟩

/-- Binary `operator/` (true division). -/
def operator_div (a y : mnum) : Except Err mnum :=
  match fmath.true_div a.integer a.fraction y.integer y.fraction with
  | .error e => .error e
  | .ok d => .ok ⟨xor a.sign y.sign, d.1, d.2⟩

/-- The method `div` (truncating division). -/
def div (a y : mnum) : Except Err mnum :=
  match fmath.divmod a.integer a.fraction y.integer y.fraction with
  | .error e => .error e
  | .ok d => .ok ⟨xor a.sign y.sign, d.1, [0]⟩

/-- The method `pow`, with an iteration bound for the exponent loop. -/
def pow (fuel : Nat) (a y : mnum) : Except Err mnum :=
  match fmath.signed_power fuel a.integer a.fraction y.integer y.fraction a.sign y.sign with
  | .error e => .error e
  | .ok res => .ok ⟨a.sign, res.1, res.2⟩

end mnum

/-! ## mnum.h: the digit-sequence operations and rendering

The mutating methods return the object after the call; a method that can throw returns
the outcome together with the object after the call. -/

/-- The conversion `convert(const std::vector<udigit> &)`: one byte `d + '0'` per digit. -/
def convert_digits (vec : List Nat) : List Char := vec.map (fun d => Char.ofNat ((d + 48) % 256))

/-- A forward search loop of `find`: the index of the first element equal to `value`,
counting from `idx`. -/
def findLoop (value : Nat) : List Nat → Nat → Option Nat
  | [], _ => none
  | d :: ds, idx => if d = value then some idx else findLoop value ds (idx + 1)

/-- A backward search loop of `rfind` over the reversed vector: the index of the first
element equal to `value`, counting down from `idx`. -/
def rfindLoop (value : Nat) : List Nat → Int → Option Int
  | [], _ => none
  | d :: ds, idx => if d = value then some idx else rfindLoop value ds (idx - 1)

/-- A counting loop of `count`. -/
def countLoop (value : Nat) : List Nat → Nat → Nat
  | [], c => c
  | d :: ds, c => countLoop value ds (if d = value then c + 1 else c)

namespace mnum

/-- The method `size`: a fraction `[0]` contributes no digits. -/
def size (a : mnum) : Nat := a.integer.length + (if is_zero a.fraction then 0 else a.fraction.length)

/-- The method `operator[]`; an index past the end (undefined behaviour) reads `0`. -/
def get (a : mnum) (index : Nat) : Nat :=
  if index < a.integer.length then a.integer.getD index 0
  else a.fraction.getD (index - a.integer.length) 0

/-- The method `find`: first logical index of `value`, or `-1`. -/
def find (a : mnum) (value : Nat) : Int :=
  match findLoop value a.integer 0 with
  | some idx => (idx : Int)
  | none =>
    if is_zero a.fraction then -1
    else
      match findLoop value a.fraction a.integer.length with
      | some idx => (idx : Int)
      | none => -1

/-- The method `rfind`: last logical index of `value`, or `-1`. The index is kept as a
mathematical integer; the `size_t` of the source holds the same value whenever an index
is returned. -/
def rfind (a : mnum) (value : Nat) : Int :=
  let idx : Int := (a.integer.length : Int) - 1
  if is_zero a.fraction then
    match rfindLoop value a.integer.reverse idx with
    | some i => i
    | none => -1
  else
    match rfindLoop value a.fraction.reverse (idx + (a.fraction.length : Int)) with
    | some i => i
    | none =>
      match rfindLoop value a.integer.reverse idx with
      | some i => i
      | none => -1

/-- The method `index`. -/
def index (a : mnum) (value : Nat) : Except Err Nat :=
  let idx := a.find value
  if idx = -1 then .error Err.value_not_found else .ok idx.toNat

/-- The method `count`. -/
def count (a : mnum) (value : Nat) : Nat :=
  let c := countLoop value a.integer 0
  if is_zero a.fraction then c else countLoop value a.fraction c

/-- The method `join`. -/
def join (a y : mnum) : mnum :=
  let int_zero := is_zero y.integer
  let frac_zero := is_zero y.fraction
  let integer :=
    if !int_zero || (int_zero && frac_zero) then lstrip_zeros (a.integer ++ y.integer)
    else a.integer
  let fraction :=
    if !frac_zero then
      rstrip_zeros ((if is_zero a.fraction then [] else a.fraction) ++ y.fraction)
    else a.fraction
  ⟨a.sign || y.sign, integer, fraction⟩

/-- The method `insert`. -/
def insert (a : mnum) (index value : Nat) : mnum :=
  if index < a.integer.length then
    ⟨a.sign, lstrip_zeros (a.integer.take index ++ value :: a.integer.drop index), a.fraction⟩
  else
    ⟨a.sign, a.integer,
      rstrip_zeros (a.fraction.take (index - a.integer.length)
        ++ value :: a.fraction.drop (index - a.integer.length))⟩

/-- The method `erase`. -/
def erase (a : mnum) (index : Nat) : mnum :=
  if index < a.integer.length then ⟨a.sign, lstrip_zeros (a.integer.eraseIdx index), a.fraction⟩
  else ⟨a.sign, a.integer, rstrip_zeros (a.fraction.eraseIdx (index - a.integer.length))⟩

/-- The method `pop`: the value returned and the object after the call. -/
def pop (a : mnum) (index : Int) : mnum × mnum :=
  let idx : Nat := if index < 0 then (((a.size : Int) + index) % 2 ^ 64).toNat else index.toNat
  (⟨false, [a.get idx], [0]⟩, a.erase idx)

/-- The method `remove`: the outcome and the object after the call. -/
def remove (a : mnum) (value : Nat) : Except Err Unit × mnum :=
  let index := a.find value
  if index = -1 then (.error Err.value_not_found, a) else (.ok (), a.erase index.toNat)

/-- The method `sort`; `std::sort` is any sorting function, here insertion sort. -/
def sort (a : mnum) : mnum :=
  ⟨a.sign, lstrip_zeros (a.integer.insertionSort (fun p q => p ≤ q)),
    rstrip_zeros (a.fraction.insertionSort (fun p q => p ≤ q))⟩

/-- The method `float_str`. -/
def float_str (a : mnum) : List Char :=
  (if a.sign then ['-'] else []) ++ convert_digits a.integer ++ ['.']
    ++ convert_digits a.fraction

/-- The method `str`. -/
def str (a : mnum) : List Char :=
  (if a.sign then ['-'] else []) ++ convert_digits a.integer
    ++ (if is_zero a.fraction then [] else '.' :: convert_digits a.fraction)

end mnum

/-! ## mnum.cpp: the indexed bindings

The digit argument of a binding is taken after `to_digit` has converted it: a digit and
its sign. -/

namespace pybind

/-- The function `check_index`: `index + size` is computed in `size_t` (64 bits). -/
def check_index (self : mnum) (index : Int) : Except Err Nat :=
  let size := self.size
  let idx : Nat := if index < 0 then ((index + (size : Int)) % 2 ^ 64).toNat else index.toNat
  if idx ≥ size then .error Err.index_out_of_range else .ok idx

/-- The binding `__getitem__`. -/
def getitem (self : mnum) (index : Int) : Except Err mnum :=
  match check_index self index with
  | .error e => .error e
  | .ok idx =>
    if idx < self.integer.length then .ok ⟨self.sign, [self.integer.getD idx 0], [0]⟩
    else .ok ⟨self.sign, [self.fraction.getD (idx - self.integer.length) 0], [0]⟩

/-- The binding `__setitem__`: the outcome and the object after the call. -/
def setitem (self : mnum) (index : Int) (d_value : Nat) (sign : Bool) :
    Except Err Unit × mnum :=
  match check_index self index with
  | .error e => (.error e, self)
  | .ok idx =>
    if idx < self.integer.length then
      (.ok (), ⟨xor self.sign sign, lstrip_zeros (self.integer.set idx d_value), self.fraction⟩)
    else
      (.ok (), ⟨xor self.sign sign, self.integer,
        rstrip_zeros (self.fraction.set (idx - self.integer.length) d_value)⟩)

/-- The binding `__delitem__`: the outcome and the object after the call. -/
def delitem (self : mnum) (index : Int) : Except Err Unit × mnum :=
  match check_index self index with
  | .error e => (.error e, self)
  | .ok idx => (.ok (), self.erase idx)

/-- The binding `pop`: the value returned, or the error, and the object after the call. -/
def pop (self : mnum) (index : Int) : Except Err mnum × mnum :=
  match check_index self index with
  | .error e => (.error e, self)
  | .ok idx => (.ok (self.pop (idx : Int)).1, (self.pop (idx : Int)).2)

/-- The binding `insert`: the outcome (it has no failure of its own) and the object
after the call. -/
def insert (self : mnum) (index : Int) (v : Nat) (sign : Bool) : Except Err Unit × mnum :=
  let size := self.size
  let idx : Nat := if index < 0 then ((index + (size : Int)) % 2 ^ 64).toNat else index.toNat
  let after : mnum :=
    if idx < size then self.insert idx v
    else if index < 0 then self.insert 0 v
    else if is_zero self.fraction then ⟨self.sign, self.integer ++ [v], self.fraction⟩
    else ⟨self.sign, self.integer, self.fraction ++ [v]⟩
  (.ok (), ⟨xor after.sign sign, after.integer, after.fraction⟩)

end pybind

/-! ## mnum.h: copy concatenation and the in-place divisions -/

namespace mnum

/-- The const method `add`: the algorithm of `join` on copies `x`, `fx` of the receiver's
parts; the receiver and `y` are not written. -/
def add (a y : mnum) : mnum :=
  let x := a.integer
  let fx := a.fraction
  let int_zero := is_zero y.integer
  let frac_zero := is_zero y.fraction
  let x1 :=
    if !int_zero || (int_zero && frac_zero) then lstrip_zeros (x ++ y.integer)
    else x
  let fx1 :=
    if !frac_zero then rstrip_zeros ((if is_zero fx then [] else fx) ++ y.fraction)
    else fx
  ⟨a.sign || y.sign, x1, fx1⟩

/-- In-place `operator/=`: the outcome and the object after the call. `true_div` takes
its arguments by const reference and the parts are swapped in after it has returned. -/
def operator_div_assign (a y : mnum) : Except Err Unit × mnum :=
  match fmath.true_div a.integer a.fraction y.integer y.fraction with
  | .error e => (.error e, a)
  | .ok d => (.ok (), ⟨xor a.sign y.sign, d.1, d.2⟩)

/-- The method `idiv`: the outcome and the object after the call. -/
def idiv (a y : mnum) : Except Err Unit × mnum :=
  match fmath.divmod a.integer a.fraction y.integer y.fraction with
  | .error e => (.error e, a)
  | .ok d => (.ok (), ⟨xor a.sign y.sign, d.1, [0]⟩)

/-- The method `ifloor_div`: the outcome and the object after the call. -/
def ifloor_div (a y : mnum) : Except Err Unit × mnum :=
  match fmath.signed_floor_div a.integer a.fraction y.integer y.fraction a.sign y.sign with
  | .error e => (.error e, a)
  | .ok d => (.ok (), ⟨d.2, d.1, [0]⟩)

/-- In-place `operator%=`: the outcome and the object after the call. `signed_imod` is
given `this->integer` and `this->fraction` to work on; it first calls `signed_floor_div`,
which takes them by const reference, and writes them only in the final `signed_isub`.
A failed assertion of that subtraction stops the program; the object is then given as
on entry. -/
def operator_mod_assign (a y : mnum) : Except Err Unit × mnum :=
  match fmath.signed_floor_div a.integer a.fraction y.integer y.fraction a.sign y.sign with
  | .error e => (.error e, a)
  | .ok div =>
    let p := fmath.imul div.1 [0] y.integer y.fraction
    match fmath.signed_isub a.integer a.fraction p.1 p.2 a.sign (div.2 != y.sign) with
    | .error e => (.error e, a)
    | .ok r => (.ok (), ⟨r.2.2, r.1, r.2.1⟩)

end mnum

/-! ## imath.h: the ranges inside `mul`

The loops of `mul` once more, recording whether every value stays in range instead of
the digits. -/

/-- The inner loop of `mul` for one digit `xd`: every `xd * yd + carry + *res_it` is
below 256 before it is stored in the 8-bit `prod`, every carry is at most 9, and the
cell that receives the last carry stays at most 9. -/
def mulRowInRange (xd : Nat) : List Nat → List Nat → Nat → Bool
  | [], r :: _, carry => decide (r + carry ≤ 9)
  | [], [], _ => true
  | yd :: ys, r :: rs, carry =>
    let prod := xd * yd + carry + r
    decide (prod < 256) && decide (prod / 10 ≤ 9) && mulRowInRange xd ys rs (u8 (u8 prod / 10))
  | _ :: _, [], _ => true

/-- The outer loop of `mul`: every row stays in range. -/
def mulLoopInRange (yr : List Nat) : List Nat → List Nat → Bool
  | [], _ => true
  | xd :: xs, res =>
    mulRowInRange xd yr res 0 &&
      match mulRow xd yr res 0 with
      | [] => true
      | _ :: rs => mulLoopInRange yr xs rs

/-- All rows of `mul(x, y)` stay in range. -/
def mulInRange (x y : List Nat) : Bool :=
  mulLoopInRange y.reverse x.reverse (List.replicate (x.length + y.length) 0)

/-! ## Specification vocabulary -/

/-- Numeric value of a digit vector, most significant digit first. -/
def val (l : List Nat) : Nat := l.foldl (fun acc d => acc * 10 + d) 0

/-- Numeric value of a reversed digit vector (least significant digit first). -/
def valR : List Nat → Nat
  | [] => 0
  | d :: ds => d + 10 * valR ds

/-- Every element is a decimal digit. -/
def IsDigits (l : List Nat) : Prop := ∀ d ∈ l, d ≤ 9

instance (l : List Nat) : Decidable (IsDigits l) :=
  inferInstanceAs (Decidable (∀ d ∈ l, d ≤ 9))


/-- An integer part is normalized: non-empty, no leading zero unless it is `[0]`. -/
def IntNorm (x : List Nat) : Prop := x ≠ [] ∧ (front x = 0 → x = [0])

/-- A fraction part is normalized: non-empty, no trailing zero unless it is `[0]`. -/
def FracNorm (fx : List Nat) : Prop := fx ≠ [] ∧ (fx.getLast? = some 0 → fx = [0])

instance (x : List Nat) : Decidable (IntNorm x) :=
  inferInstanceAs (Decidable (x ≠ [] ∧ (front x = 0 → x = [0])))

instance (fx : List Nat) : Decidable (FracNorm fx) :=
  inferInstanceAs (Decidable (fx ≠ [] ∧ (fx.getLast? = some 0 → fx = [0])))

/-- Three-way comparison of two numbers, in the `-1 / 0 / 1` convention of `cmp`. -/
def ord3 (a b : Nat) : Int := if a < b then -1 else if a = b then 0 else 1

/-- Magnitude of an (integer, fraction) pair scaled by `10 ^ m`, for `m` at least the
fraction size. -/
def sv (m : Nat) (x fx : List Nat) : Nat := val x * 10 ^ m + val (padRight fx m)

/-- Magnitude of an (integer, fraction) pair: `int + frac / 10 ^ len(frac)`. -/
def mag2 (x fx : List Nat) : ℚ := (val x : ℚ) + (val fx : ℚ) / (10 : ℚ) ^ fx.length

namespace mnum

/-- Magnitude of a value: `int + frac / 10 ^ len(frac)`. -/
def mag (a : mnum) : ℚ := mag2 a.integer a.fraction

/-- Signed rational value: `sign * (int + frac / 10 ^ len(frac))`. -/
def value (a : mnum) : ℚ := if a.sign then -a.mag else a.mag

/-- A normalized value (section 3 of the specification): decimal digits, an integer part
without leading zeros, a fraction part without trailing zeros, neither empty. -/
def Normalized (a : mnum) : Prop :=
  IsDigits a.integer ∧ IsDigits a.fraction ∧ IntNorm a.integer ∧ FracNorm a.fraction

/-- What addition and subtraction preserve: as `Normalized`, but the fraction may carry
trailing zeros unless the whole value is zero. -/
def WeakNorm (a : mnum) : Prop :=
  IsDigits a.integer ∧ IsDigits a.fraction ∧ IntNorm a.integer ∧ a.fraction ≠ [] ∧
    (val a.integer = 0 → val a.fraction = 0 → a.fraction = [0])

instance (a : mnum) : Decidable (Normalized a) :=
  inferInstanceAs (Decidable
    (IsDigits a.integer ∧ IsDigits a.fraction ∧ IntNorm a.integer ∧ FracNorm a.fraction))

end mnum

namespace mnum

/-- Zero magnitude: integer part `[0]` and fraction part `[0]`, whatever the sign bit. -/
def ZeroMag (a : mnum) : Prop := a.integer = [0] ∧ a.fraction = [0]

instance (a : mnum) : Decidable (ZeroMag a) :=
  inferInstanceAs (Decidable (a.integer = [0] ∧ a.fraction = [0]))

/-- Signed value of the integer part alone. -/
def int_value (a : mnum) : ℤ := if a.sign then -(val a.integer : ℤ) else (val a.integer : ℤ)

end mnum

namespace mnum

/-- The logical digit sequence of the sequence operations: the integer digits followed by
the fraction digits, a fraction `[0]` contributing none. -/
def digits (a : mnum) : List Nat := a.integer ++ (if a.fraction = [0] then [] else a.fraction)

end mnum

theorem val_nil : val [] = 0 := rfl

theorem val_append_singleton (l : List Nat) (d : Nat) : val (l ++ [d]) = val l * 10 + d := by
  simp [val, List.foldl_append]

theorem val_append (a b : List Nat) : val (a ++ b) = val a * 10 ^ b.length + val b := by
  induction b using List.reverseRecOn with
  | nil => simp [val_nil]
  | append_singleton b d ih =>
    rw [← List.append_assoc, val_append_singleton, ih, val_append_singleton]
    simp [pow_succ]; ring

theorem val_singleton (d : Nat) : val [d] = d := by simp [val]

theorem val_cons (d : Nat) (l : List Nat) : val (d :: l) = d * 10 ^ l.length + val l := by
  have := val_append [d] l
  simpa [val_singleton] using this

theorem val_reverse (l : List Nat) : val l.reverse = valR l := by
  induction l with
  | nil => rfl
  | cons d ds ih => rw [List.reverse_cons, val_append_singleton, ih, valR]; ring

theorem valR_reverse (l : List Nat) : valR l.reverse = val l := by
  rw [← val_reverse, List.reverse_reverse]

theorem IsDigits.reverse {l : List Nat} (h : IsDigits l) : IsDigits l.reverse := by
  intro d hd; exact h d (List.mem_reverse.mp hd)

theorem isDigits_cons {d : Nat} {l : List Nat} : IsDigits (d :: l) ↔ d ≤ 9 ∧ IsDigits l := by
  simp [IsDigits]

theorem isDigits_append {a b : List Nat} : IsDigits (a ++ b) ↔ IsDigits a ∧ IsDigits b := by
  simp only [IsDigits, List.mem_append]
  constructor
  · intro h; exact ⟨fun d hd => h d (Or.inl hd), fun d hd => h d (Or.inr hd)⟩
  · rintro ⟨h1, h2⟩ d (hd | hd)
    · exact h1 d hd
    · exact h2 d hd

theorem isDigits_replicate_zero (n : Nat) : IsDigits (List.replicate n 0) := by
  intro d hd; rw [List.eq_of_mem_replicate hd]; omega

theorem valR_lt {l : List Nat} (h : IsDigits l) : valR l < 10 ^ l.length := by
  induction l with
  | nil => simp [valR]
  | cons d ds ih =>
    have hd := (isDigits_cons.mp h).1
    have := ih (isDigits_cons.mp h).2
    simp only [valR, List.length_cons, pow_succ]; omega

theorem val_lt {l : List Nat} (h : IsDigits l) : val l < 10 ^ l.length := by
  have := valR_lt h.reverse
  rwa [valR_reverse, List.length_reverse] at this

theorem val_replicate_zero (n : Nat) : val (List.replicate n 0) = 0 := by
  induction n with
  | zero => rfl
  | succ n ih => rw [List.replicate_succ, val_cons, ih]; simp

theorem val_padRight (v : List Nat) (n : Nat) :
    val (padRight v n) = val v * 10 ^ (n - v.length) := by
  simp [padRight, val_append, val_replicate_zero]

theorem length_padRight (v : List Nat) (n : Nat) : (padRight v n).length = max v.length n := by
  simp [padRight]; omega

theorem isDigits_padRight {v : List Nat} (h : IsDigits v) (n : Nat) : IsDigits (padRight v n) :=
  isDigits_append.mpr ⟨h, isDigits_replicate_zero _⟩

/-! ### The column steps -/

theorem addStep_spec {nx ny c : Nat} (hx : nx ≤ 9) (hy : ny ≤ 9) (hc : c ≤ 1) :
    (addStep nx ny c).1 + 10 * (addStep nx ny c).2 = nx + ny + c ∧
      (addStep nx ny c).1 ≤ 9 ∧ (addStep nx ny c).2 ≤ 1 := by
  unfold addStep u8
  simp only []
  split <;> simp <;> omega

theorem subStep_spec {nx ny b : Nat} (hx : nx ≤ 9) (hy : ny ≤ 9) (hb : b ≤ 1) :
    (subStep nx ny b).1 + ny + b = nx + 10 * (subStep nx ny b).2 ∧
      (subStep nx ny b).1 ≤ 9 ∧ (subStep nx ny b).2 ≤ 1 := by
  unfold subStep u8i i8
  simp only []
  split <;> simp <;> omega

theorem headD_le {l : List Nat} (h : IsDigits l) : l.headD 0 ≤ 9 := by
  cases l with
  | nil => simp
  | cons d ds => exact (isDigits_cons.mp h).1

theorem IsDigits.tail {l : List Nat} (h : IsDigits l) : IsDigits l.tail := by
  intro d hd; exact h d (List.mem_of_mem_tail hd)

theorem valR_headD_tail (l : List Nat) : valR l = l.headD 0 + 10 * valR l.tail := by
  cases l <;> simp [valR]

/-- The addition loop writes `n` digits whose value, with the final carry, is the sum of
the operands and the incoming carry. -/
theorem addLoop_spec (n : Nat) : ∀ (xr yr : List Nat) (c : Nat), IsDigits xr → IsDigits yr →
    c ≤ 1 → xr.length ≤ n → yr.length ≤ n →
    (addLoop n xr yr c).1.length = n ∧ IsDigits (addLoop n xr yr c).1 ∧
      (addLoop n xr yr c).2 ≤ 1 ∧
      valR (addLoop n xr yr c).1 + 10 ^ n * (addLoop n xr yr c).2 = valR xr + valR yr + c := by
  induction n with
  | zero =>
    intro xr yr c _ _ _ hx hy
    have hx0 : xr = [] := List.length_eq_zero.mp (by omega)
    have hy0 : yr = [] := List.length_eq_zero.mp (by omega)
    subst hx0 hy0
    simp [addLoop, valR, IsDigits]
    assumption
  | succ n ih =>
    intro xr yr c hdx hdy hc hx hy
    obtain ⟨hs, hs1, hs2⟩ := addStep_spec (headD_le hdx) (headD_le hdy) hc
    have hxt : xr.tail.length ≤ n := by simp; omega
    have hyt : yr.tail.length ≤ n := by simp; omega
    obtain ⟨h1, h2, h3, h4⟩ := ih xr.tail yr.tail _ hdx.tail hdy.tail hs2 hxt hyt
    simp only [addLoop]
    refine ⟨by rw [List.length_cons, h1], isDigits_cons.mpr ⟨hs1, h2⟩, h3, ?_⟩
    rw [valR, valR_headD_tail xr, valR_headD_tail yr, pow_succ]
    have e : 10 ^ n * 10 * (addLoop n xr.tail yr.tail (addStep (xr.headD 0) (yr.headD 0) c).2).2
        = 10 * (10 ^ n * (addLoop n xr.tail yr.tail (addStep (xr.headD 0) (yr.headD 0) c).2).2) := by
      ring
    rw [e]; omega

/-- The subtraction loop writes `n` digits whose value is the difference of the
operands, up to the final borrow. -/
theorem subLoop_spec (n : Nat) : ∀ (xr yr : List Nat) (b : Nat), IsDigits xr → IsDigits yr →
    b ≤ 1 → xr.length ≤ n → yr.length ≤ n →
    (subLoop n xr yr b).1.length = n ∧ IsDigits (subLoop n xr yr b).1 ∧
      (subLoop n xr yr b).2 ≤ 1 ∧
      valR (subLoop n xr yr b).1 + valR yr + b = valR xr + 10 ^ n * (subLoop n xr yr b).2 := by
  induction n with
  | zero =>
    intro xr yr b _ _ _ hx hy
    have hx0 : xr = [] := List.length_eq_zero.mp (by omega)
    have hy0 : yr = [] := List.length_eq_zero.mp (by omega)
    subst hx0 hy0
    simp [subLoop, valR, IsDigits]
    assumption
  | succ n ih =>
    intro xr yr b hdx hdy hb hx hy
    obtain ⟨hs, hs1, hs2⟩ := subStep_spec (headD_le hdx) (headD_le hdy) hb
    have hxt : xr.tail.length ≤ n := by simp; omega
    have hyt : yr.tail.length ≤ n := by simp; omega
    obtain ⟨h1, h2, h3, h4⟩ := ih xr.tail yr.tail _ hdx.tail hdy.tail hs2 hxt hyt
    simp only [subLoop]
    refine ⟨by rw [List.length_cons, h1], isDigits_cons.mpr ⟨hs1, h2⟩, h3, ?_⟩
    rw [valR, valR_headD_tail xr, valR_headD_tail yr, pow_succ]
    have e : 10 ^ n * 10 * (subLoop n xr.tail yr.tail (subStep (xr.headD 0) (yr.headD 0) b).2).2
        = 10 * (10 ^ n * (subLoop n xr.tail yr.tail (subStep (xr.headD 0) (yr.headD 0) b).2).2) := by
      ring
    rw [e]; omega

/-! ### Normalized integer parts -/

theorem front_cons (d : Nat) (l : List Nat) : front (d :: l) = d := rfl

theorem intNorm_val_ge {x : List Nat} (hn : IntNorm x) (hl : 2 ≤ x.length) :
    10 ^ (x.length - 1) ≤ val x := by
  cases x with
  | nil => simp at hl
  | cons d t =>
    have hd : d ≠ 0 := by
      intro h0
      have := hn.2 (by rw [front_cons]; exact h0)
      rw [this] at hl; simp at hl
    rw [val_cons]
    simp only [List.length_cons, Nat.add_sub_cancel]
    have : 1 * 10 ^ t.length ≤ d * 10 ^ t.length := Nat.mul_le_mul_right _ (by omega)
    omega

theorem intNorm_of_val_ge {x : List Nat} (hd : IsDigits x) (hne : x ≠ [])
    (h : 2 ≤ x.length → 10 ^ (x.length - 1) ≤ val x) : IntNorm x := by
  refine ⟨hne, ?_⟩
  cases x with
  | nil => exact absurd rfl hne
  | cons d t =>
    intro h0
    rw [front_cons] at h0
    subst h0
    cases t with
    | nil => rfl
    | cons e t =>
      have h2 := h (by simp)
      rw [val_cons] at h2
      have := val_lt (isDigits_cons.mp hd).2
      simp only [List.length_cons, Nat.add_sub_cancel] at h2 this
      omega

theorem intNorm_val_zero {x : List Nat} (hn : IntNorm x) (h0 : val x = 0) : x = [0] := by
  cases x with
  | nil => exact absurd rfl hn.1
  | cons d t =>
    cases t with
    | nil => rw [val_singleton] at h0; rw [h0]
    | cons e t =>
      have := intNorm_val_ge hn (by simp)
      have hp : 0 < 10 ^ ((d :: e :: t).length - 1) := Nat.pow_pos (by omega)
      omega

theorem intNorm_zero : IntNorm [0] := ⟨by simp, fun _ => rfl⟩

/-! ### The normalizers -/

theorem val_dropWhile_zero (l : List Nat) : val (l.dropWhile (fun d => d == 0)) = val l := by
  induction l with
  | nil => rfl
  | cons d t ih =>
    by_cases h : d = 0
    · subst h
      rw [List.dropWhile_cons_of_pos (by simp), ih, val_cons]; simp
    · rw [List.dropWhile_cons_of_neg (by simpa using h)]

theorem dropWhile_zero_eq_nil {l : List Nat} (h : l.dropWhile (fun d => d == 0) = []) :
    l = List.replicate l.length 0 := by
  rw [List.dropWhile_eq_nil_iff] at h
  exact List.eq_replicate_iff.mpr ⟨rfl, fun b hb => by simpa using h b hb⟩

theorem lstrip_zeros_eq (l : List Nat) :
    lstrip_zeros l
      = if l.dropWhile (fun d => d == 0) = [] then [0] else l.dropWhile (fun d => d == 0) := by
  cases l with
  | nil => rfl
  | cons d t =>
    unfold lstrip_zeros
    simp only []
    split
    · next h =>
      rw [if_pos h]
      have e := dropWhile_zero_eq_nil h
      rw [e]
      simp [List.drop_replicate]
    · next r h => rw [if_neg]; intro h2; exact h h2

theorem rstrip_zeros_eq (l : List Nat) : rstrip_zeros l = (lstrip_zeros l.reverse).reverse := by
  rw [lstrip_zeros_eq]
  cases l with
  | nil => rfl
  | cons d t =>
    unfold rstrip_zeros
    simp only []
    split
    · next h =>
      rw [if_pos h]
      have e := dropWhile_zero_eq_nil h
      have e2 : (d :: t) = List.replicate (d :: t).length 0 := by
        have := congrArg List.reverse e
        simpa using this
      rw [e2]
      simp [List.take_replicate]
    · next r h => rw [if_neg]; intro h2; exact h h2

theorem val_lstrip_zeros (l : List Nat) : val (lstrip_zeros l) = val l := by
  rw [lstrip_zeros_eq]
  split
  · next h => rw [← val_dropWhile_zero l, h]; rfl
  · exact val_dropWhile_zero l

theorem isDigits_lstrip_zeros {l : List Nat} (h : IsDigits l) : IsDigits (lstrip_zeros l) := by
  rw [lstrip_zeros_eq]
  split
  · intro d hd; simp at hd; omega
  · intro d hd; exact h d ((List.dropWhile_sublist _).subset hd)

theorem intNorm_lstrip_zeros (l : List Nat) : IntNorm (lstrip_zeros l) := by
  rw [lstrip_zeros_eq]
  split
  · exact intNorm_zero
  · next h =>
    refine ⟨h, fun h0 => ?_⟩
    have := List.head_dropWhile_not (fun d => d == 0) l h
    exfalso
    revert h0 this
    generalize List.dropWhile (fun d => d == 0) l = r at h
    cases r with
    | nil => exact absurd rfl h
    | cons e r => intro h0 this; rw [front_cons] at h0; simp [h0] at this

theorem lstrip_zeros_of_intNorm {x : List Nat} (hn : IntNorm x) : lstrip_zeros x = x := by
  rw [lstrip_zeros_eq]
  cases x with
  | nil => exact absurd rfl hn.1
  | cons d t =>
    by_cases h : d = 0
    · have := hn.2 (by rw [front_cons]; exact h)
      rw [this]; rfl
    · rw [List.dropWhile_cons_of_neg (by simpa using h)]; simp

theorem isDigits_rstrip_zeros {l : List Nat} (h : IsDigits l) : IsDigits (rstrip_zeros l) := by
  rw [rstrip_zeros_eq]
  exact (isDigits_lstrip_zeros h.reverse).reverse

theorem rstrip_zeros_ne_nil (l : List Nat) : rstrip_zeros l ≠ [] := by
  rw [rstrip_zeros_eq]
  intro h
  exact (intNorm_lstrip_zeros l.reverse).1 (by simpa using h)

theorem fracNorm_rstrip_zeros (l : List Nat) : FracNorm (rstrip_zeros l) := by
  refine ⟨rstrip_zeros_ne_nil l, ?_⟩
  rw [rstrip_zeros_eq]
  intro h
  have hn := intNorm_lstrip_zeros l.reverse
  rw [List.getLast?_reverse] at h
  have : front (lstrip_zeros l.reverse) = 0 := by
    unfold front
    cases hl : lstrip_zeros l.reverse with
    | nil => rfl
    | cons e r => rw [hl] at h; simpa using h
  rw [hn.2 this]; rfl

/-- A fraction is its stripped form followed by zeros (or empty, with stripped form `[0]`). -/
theorem rstrip_zeros_decomp (l : List Nat) (hne : l ≠ []) :
    ∃ k, l = rstrip_zeros l ++ List.replicate k 0 := by
  rw [rstrip_zeros_eq, lstrip_zeros_eq]
  split
  · next h =>
    have e := dropWhile_zero_eq_nil h
    have e2 : l = List.replicate l.length 0 := by
      have := congrArg List.reverse e
      simpa using this
    refine ⟨l.length - 1, ?_⟩
    have hl : 0 < l.length := List.length_pos.mpr hne
    conv_lhs => rw [e2]
    have : l.length = 1 + (l.length - 1) := by omega
    conv_lhs => rw [this, List.replicate_add]
    rfl
  · next h =>
    refine ⟨(l.reverse.takeWhile (fun d => d == 0)).length, ?_⟩
    have h1 := List.takeWhile_append_dropWhile (fun d => d == 0) l.reverse
    have h2 : l.reverse.takeWhile (fun d => d == 0)
        = List.replicate (l.reverse.takeWhile (fun d => d == 0)).length 0 :=
      List.eq_replicate_iff.mpr ⟨rfl, fun b hb => by simpa using List.mem_takeWhile_imp hb⟩
    have h3 := congrArg List.reverse h1
    rw [List.reverse_append, List.reverse_reverse] at h3
    rw [h2] at h3
    simpa using h3.symm

/-! ### Comparisons -/

theorem ord3_digit {P a b : Nat} (vx vy : Nat) (ha : a < P) (hb : b < P) :
    ord3 (vx * P + a) (vy * P + b)
      = if vx = vy then ord3 a b else if vx > vy then 1 else -1 := by
  unfold ord3
  by_cases h : vx = vy
  · subst h; simp
  · rw [if_neg h]
    by_cases h2 : vx > vy
    · have : (vy + 1) * P ≤ vx * P := Nat.mul_le_mul_right _ h2
      rw [Nat.add_mul] at this
      rw [if_pos h2, if_neg (by omega), if_neg (by omega)]
    · have : (vx + 1) * P ≤ vy * P := Nat.mul_le_mul_right _ (by omega)
      rw [Nat.add_mul] at this
      rw [if_neg h2, if_pos (by omega)]

theorem cmpLoop_spec : ∀ (x y : List Nat), IsDigits x → IsDigits y → x.length = y.length →
    cmpLoop x y = ord3 (val x) (val y) := by
  intro x
  induction x with
  | nil =>
    intro y _ _ hl
    have : y = [] := List.length_eq_zero.mp hl.symm
    subst this; rfl
  | cons vx xs ih =>
    intro y hx hy hl
    cases y with
    | nil => simp at hl
    | cons vy ys =>
      have hl2 : xs.length = ys.length := by simpa using hl
      have hx2 := (isDigits_cons.mp hx).2
      have hy2 := (isDigits_cons.mp hy).2
      rw [cmpLoop, val_cons, val_cons, hl2,
        ord3_digit vx vy (by rw [← hl2]; exact val_lt hx2) (val_lt hy2), ih ys hx2 hy2 hl2]

/-- On normalized integer parts the two-argument `cmp` is the numeric comparison. -/
theorem cmp_spec {x y : List Nat} (hx : IsDigits x) (hy : IsDigits y) (nx : IntNorm x)
    (ny : IntNorm y) : cmp x y = ord3 (val x) (val y) := by
  unfold cmp
  by_cases hl : x.length = y.length
  · rw [if_neg (by simpa using hl)]; exact cmpLoop_spec x y hx hy hl
  · rw [if_pos hl]
    have px : 0 < x.length := List.length_pos.mpr nx.1
    have py : 0 < y.length := List.length_pos.mpr ny.1
    unfold ord3
    by_cases hg : x.length > y.length
    · have h1 := intNorm_val_ge nx (by omega)
      have h2 := val_lt hy
      have h3 : 10 ^ y.length ≤ 10 ^ (x.length - 1) := Nat.pow_le_pow_right (by omega) (by omega)
      rw [if_pos hg, if_neg (by omega), if_neg (by omega)]
    · have h1 := intNorm_val_ge ny (by omega)
      have h2 := val_lt hx
      have h3 : 10 ^ x.length ≤ 10 ^ (y.length - 1) := Nat.pow_le_pow_right (by omega) (by omega)
      rw [if_neg hg, if_pos (by omega)]

theorem padRight_succ {x : List Nat} {n : Nat} (h : x.length ≤ n + 1) :
    padRight x (n + 1) = x.headD 0 :: padRight x.tail n := by
  cases x with
  | nil => simp [padRight, List.replicate_succ]
  | cons d t => simp [padRight]

theorem fcmpLoop_spec (n : Nat) : ∀ (x y : List Nat), IsDigits x → IsDigits y →
    x.length ≤ n → y.length ≤ n →
    fcmpLoop n x y = ord3 (val (padRight x n)) (val (padRight y n)) := by
  induction n with
  | zero =>
    intro x y _ _ hx hy
    have hx0 : x = [] := List.length_eq_zero.mp (by omega)
    have hy0 : y = [] := List.length_eq_zero.mp (by omega)
    subst hx0 hy0; rfl
  | succ n ih =>
    intro x y hx hy hlx hly
    have hxt : x.tail.length ≤ n := by simp; omega
    have hyt : y.tail.length ≤ n := by simp; omega
    have l1 : (padRight x.tail n).length = n := by rw [length_padRight]; omega
    have l2 : (padRight y.tail n).length = n := by rw [length_padRight]; omega
    have b1 := val_lt (isDigits_padRight hx.tail n)
    have b2 := val_lt (isDigits_padRight hy.tail n)
    rw [l1] at b1; rw [l2] at b2
    rw [fcmpLoop, padRight_succ hlx, padRight_succ hly, val_cons, val_cons, l1, l2,
      ord3_digit _ _ b1 b2, ih _ _ hx.tail hy.tail hxt hyt]

/-- The fraction compare `fcmp` is the numeric comparison of the two fractions padded to
a common size. -/
theorem fcmp_spec {fx fy : List Nat} (hx : IsDigits fx) (hy : IsDigits fy) :
    fcmp fx fy = ord3 (val (padRight fx (max fx.length fy.length)))
      (val (padRight fy (max fx.length fy.length))) :=
  fcmpLoop_spec _ fx fy hx hy (le_max_left _ _) (le_max_right _ _)

/-! ### Decimal addition and subtraction on scaled magnitudes -/

theorem val_padRight_lt {fx : List Nat} (h : IsDigits fx) {m : Nat} (hm : fx.length ≤ m) :
    val (padRight fx m) < 10 ^ m := by
  have := val_lt (isDigits_padRight h m)
  rwa [length_padRight, max_eq_right hm] at this

/-- The `comp` computed by `signed_iadd` and `signed_isub` is the comparison of the two
magnitudes. -/
theorem comp_spec {x fx y fy : List Nat} (hx : IsDigits x) (hfx : IsDigits fx)
    (hy : IsDigits y) (hfy : IsDigits fy) (nx : IntNorm x) (ny : IntNorm y) :
    (if cmp x y = 0 then fcmp fx fy else cmp x y)
      = ord3 (sv (max fx.length fy.length) x fx) (sv (max fx.length fy.length) y fy) := by
  rw [cmp_spec hx hy nx ny, fcmp_spec hfx hfy]
  unfold sv
  rw [ord3_digit _ _ (val_padRight_lt hfx (le_max_left _ _))
    (val_padRight_lt hfy (le_max_right _ _))]
  rcases Nat.lt_trichotomy (val x) (val y) with h | h | h
  · have h1 : ¬ val x = val y := by omega
    have h2 : ¬ val x > val y := by omega
    simp [ord3, h, h1, h2]
  · simp [ord3, h]
  · have h1 : ¬ val x = val y := by omega
    have h2 : ¬ val x < val y := by omega
    simp [ord3, h, h1, h2]

theorem val_carry_cons (c : Nat) (l : List Nat) :
    val (if c = 0 then l else c :: l) = c * 10 ^ l.length + val l := by
  split
  · next h => rw [h]; simp
  · exact val_cons c l

/-- Decimal `iadd` adds the magnitudes: the result, at the scale of the longer
fraction, is the sum of the scaled operands, and its integer part stays normalized. -/
theorem fmath_iadd_spec {x fx y fy : List Nat} (hx : IsDigits x) (hfx : IsDigits fx)
    (hy : IsDigits y) (hfy : IsDigits fy) :
    IsDigits (fmath.iadd x fx y fy).1 ∧ IsDigits (fmath.iadd x fx y fy).2 ∧
      (fmath.iadd x fx y fy).2.length = max fx.length fy.length ∧
      val (fmath.iadd x fx y fy).1 * 10 ^ (max fx.length fy.length) + val (fmath.iadd x fx y fy).2
        = sv (max fx.length fy.length) x fx + sv (max fx.length fy.length) y fy ∧
      (IntNorm x → IntNorm y → IntNorm (fmath.iadd x fx y fy).1) := by
  obtain ⟨f1, f2, f3, f4⟩ := addLoop_spec (max fx.length fy.length)
    (padRight fx (max fx.length fy.length)).reverse
    (padRight fy (max fx.length fy.length)).reverse 0
    (isDigits_padRight hfx _).reverse (isDigits_padRight hfy _).reverse (by omega)
    (by rw [List.length_reverse, length_padRight]; omega)
    (by rw [List.length_reverse, length_padRight]; omega)
  obtain ⟨i1, i2, i3, i4⟩ := addLoop_spec (max x.length y.length) x.reverse y.reverse _
    hx.reverse hy.reverse f3 (by rw [List.length_reverse]; omega)
    (by rw [List.length_reverse]; omega)
  rw [valR_reverse, valR_reverse] at f4 i4
  simp only [fmath.iadd]
  generalize addLoop (max fx.length fy.length) (padRight fx (max fx.length fy.length)).reverse
    (padRight fy (max fx.length fy.length)).reverse 0 = rf at *
  generalize addLoop (max x.length y.length) x.reverse y.reverse rf.2 = r at *
  have hv : val (if r.2 = 0 then r.1.reverse else r.2 :: r.1.reverse)
      = r.2 * 10 ^ (max x.length y.length) + valR r.1 := by
    rw [val_carry_cons, List.length_reverse, i1, val_reverse]
  have hd : IsDigits (if r.2 = 0 then r.1.reverse else r.2 :: r.1.reverse) := by
    split
    · exact i2.reverse
    · exact isDigits_cons.mpr ⟨by omega, i2.reverse⟩
  refine ⟨hd, f2.reverse, by rw [List.length_reverse, f1], ?_, ?_⟩
  · rw [hv, val_reverse]
    unfold sv
    generalize 10 ^ (max fx.length fy.length) = P at *
    generalize 10 ^ (max x.length y.length) = Q at *
    have e : (r.2 * Q + valR r.1) * P = (val x + val y + rf.2) * P := by
      rw [← i4]; ring
    simp only [Nat.add_mul] at e ⊢
    have e2 : rf.2 * P = P * rf.2 := Nat.mul_comm _ _
    omega
  · intro nx ny
    have px : 0 < x.length := List.length_pos.mpr nx.1
    refine intNorm_of_val_ge hd ?_ ?_
    · split
      · intro h
        have := congrArg List.length h
        rw [List.length_reverse, i1, List.length_nil] at this
        omega
      · simp
    · intro hl
      rw [hv]
      have hr : r.2 = 0 ∨ r.2 = 1 := by omega
      rcases hr with h0 | h1
      · rw [if_pos h0, List.length_reverse, i1] at hl ⊢
        have hge : 10 ^ (max x.length y.length - 1) ≤ val x + val y := by
          by_cases hxy : y.length ≤ x.length
          · have := intNorm_val_ge nx (by rw [max_eq_left hxy] at hl; exact hl)
            rw [max_eq_left hxy]; omega
          · have hxy2 : x.length ≤ y.length := by omega
            have := intNorm_val_ge ny (by rw [max_eq_right hxy2] at hl; exact hl)
            rw [max_eq_right hxy2]; omega
        rw [h0] at i4 ⊢
        simp only [Nat.mul_zero, Nat.zero_mul, Nat.add_zero, Nat.zero_add] at i4 ⊢
        omega
      · rw [if_neg (by omega)]
        simp only [List.length_cons, List.length_reverse, i1, Nat.add_sub_cancel, h1, Nat.one_mul]
        omega

/-- The two subtraction loops of decimal `isub`, minuend larger: no borrow is left and
the digits written are the difference. -/
theorem sub_core {x fx y fy : List Nat} (m n : Nat) (hx : IsDigits x) (hfx : IsDigits fx)
    (hy : IsDigits y) (hfy : IsDigits fy) (lfx : fx.length ≤ m) (lfy : fy.length ≤ m)
    (lx : x.length ≤ n) (ly : y.length ≤ n) (hgt : sv m y fy < sv m x fx) :
    let rf := subLoop m (padRight fx m).reverse (padRight fy m).reverse 0
    let r := subLoop n x.reverse y.reverse rf.2
    IsDigits rf.1.reverse ∧ rf.1.reverse.length = m ∧ IsDigits r.1.reverse ∧
      (val x = val y → rf.2 = 0 ∧ val rf.1.reverse + sv m y fy = sv m x fx) ∧
      r.2 = 0 ∧ val r.1.reverse * 10 ^ m + val rf.1.reverse + sv m y fy = sv m x fx := by
  intro rf r
  obtain ⟨f1, f2, f3, f4⟩ := subLoop_spec m (padRight fx m).reverse (padRight fy m).reverse 0
    (isDigits_padRight hfx _).reverse (isDigits_padRight hfy _).reverse (by omega)
    (by rw [List.length_reverse, length_padRight]; omega)
    (by rw [List.length_reverse, length_padRight]; omega)
  obtain ⟨i1, i2, i3, i4⟩ := subLoop_spec n x.reverse y.reverse rf.2
    hx.reverse hy.reverse f3 (by rw [List.length_reverse]; omega)
    (by rw [List.length_reverse]; omega)
  rw [valR_reverse, valR_reverse] at f4 i4
  have b1 := valR_lt f2
  have b2 := valR_lt i2
  rw [f1] at b1
  rw [i1] at b2
  have bx := val_padRight_lt hfx lfx
  have bfy := val_padRight_lt hfy lfy
  change IsDigits rf.1 at f2
  change rf.2 ≤ 1 at f3
  change valR rf.1 + val (padRight fy m) + 0 = val (padRight fx m) + 10 ^ m * rf.2 at f4
  change valR rf.1 < 10 ^ m at b1
  change IsDigits r.1 at i2
  change r.2 ≤ 1 at i3
  change valR r.1 + val y + rf.2 = val x + 10 ^ n * r.2 at i4
  change valR r.1 < 10 ^ n at b2
  unfold sv at hgt ⊢
  rw [val_reverse, val_reverse]
  generalize 10 ^ m = P at *
  generalize 10 ^ n = Q at *
  have e : (valR r.1 + val y + rf.2) * P = (val x + Q * r.2) * P := by rw [i4]
  have e3 : (valR r.1 + 1) * P ≤ Q * P := Nat.mul_le_mul_right _ b2
  simp only [Nat.add_mul, Nat.one_mul] at e e3
  refine ⟨f2.reverse, by rw [List.length_reverse]; exact f1, i2.reverse, ?_, ?_⟩
  · intro hv
    rw [hv] at hgt ⊢
    have hb : rf.2 = 0 ∨ rf.2 = 1 := by omega
    rcases hb with hb | hb
    · rw [hb] at f4; simp only [Nat.mul_zero] at f4
      exact ⟨hb, by omega⟩
    · rw [hb] at f4; simp only [Nat.mul_one] at f4
      omega
  · have hb : rf.2 = 0 ∨ rf.2 = 1 := by omega
    have hc : r.2 = 0 ∨ r.2 = 1 := by omega
    rcases hb with hb | hb <;> rcases hc with hc | hc <;>
      rw [hb] at f4 e <;> rw [hc] at e <;>
      simp only [Nat.mul_zero, Nat.mul_one, Nat.zero_mul, Nat.one_mul, Nat.add_zero] at f4 e <;>
      first
        | exact ⟨hc, by omega⟩
        | (exfalso; omega)

theorem sv_lt_val_le {x fx y fy : List Nat} {m : Nat} (hfx : IsDigits fx) (lfx : fx.length ≤ m)
    (h : sv m y fy < sv m x fx) : val y ≤ val x := by
  unfold sv at h
  have bx := val_padRight_lt hfx lfx
  by_contra hc
  have : (val x + 1) * 10 ^ m ≤ val y * 10 ^ m := Nat.mul_le_mul_right _ (by omega)
  rw [Nat.add_mul] at this
  omega

theorem sv_eq_val_eq {x fx y fy : List Nat} {m : Nat} (hfx : IsDigits fx) (hfy : IsDigits fy)
    (lfx : fx.length ≤ m) (lfy : fy.length ≤ m) (h : sv m x fx = sv m y fy) : val x = val y := by
  unfold sv at h
  have bx := val_padRight_lt hfx lfx
  have bfy := val_padRight_lt hfy lfy
  rcases Nat.lt_trichotomy (val x) (val y) with hc | hc | hc
  · have : (val x + 1) * 10 ^ m ≤ val y * 10 ^ m := Nat.mul_le_mul_right _ (by omega)
    rw [Nat.add_mul] at this
    omega
  · exact hc
  · have : (val y + 1) * 10 ^ m ≤ val x * 10 ^ m := Nat.mul_le_mul_right _ (by omega)
    rw [Nat.add_mul] at this
    omega

theorem ord3_eq_zero {a b : Nat} : ord3 a b = 0 ↔ a = b := by
  unfold ord3; split_ifs <;> simp <;> omega

theorem ord3_of_lt {a b : Nat} (h : a < b) : ord3 a b = -1 := by
  unfold ord3; rw [if_pos h]

theorem ord3_of_gt {a b : Nat} (h : b < a) : ord3 a b = 1 := by
  unfold ord3; rw [if_neg (by omega), if_neg (by omega)]

/-- Decimal `isub` with the `icmp` and `comp` its callers compute: no assertion fires,
equal magnitudes give `[0].[0]`, and otherwise the result is the larger magnitude minus
the smaller one. -/
theorem fmath_isub_spec {x fx y fy : List Nat} (hx : IsDigits x) (hfx : IsDigits fx)
    (hy : IsDigits y) (hfy : IsDigits fy) (nx : IntNorm x) (ny : IntNorm y) :
    ∃ x' fx', fmath.isub x fx y fy (cmp x y) (if cmp x y = 0 then fcmp fx fy else cmp x y)
        = .ok (x', fx') ∧
      IsDigits x' ∧ IsDigits fx' ∧ IntNorm x' ∧
      (sv (max fx.length fy.length) x fx = sv (max fx.length fy.length) y fy →
        x' = [0] ∧ fx' = [0]) ∧
      (sv (max fx.length fy.length) x fx ≠ sv (max fx.length fy.length) y fy →
        fx'.length = max fx.length fy.length ∧
        val x' * 10 ^ (max fx.length fy.length) + val fx'
            + min (sv (max fx.length fy.length) x fx) (sv (max fx.length fy.length) y fy)
          = max (sv (max fx.length fy.length) x fx) (sv (max fx.length fy.length) y fy)) := by
  rw [comp_spec hx hfx hy hfy nx ny]
  have hic := cmp_spec hx hy nx ny
  obtain ⟨m, hm⟩ : ∃ m, m = max fx.length fy.length := ⟨_, rfl⟩
  have lfx : fx.length ≤ m := by omega
  have lfy : fy.length ≤ m := by omega
  rw [← hm]
  rcases Nat.lt_trichotomy (sv m x fx) (sv m y fy) with h | h | h
  · -- reversed subtraction
    have hle := sv_lt_val_le hfy lfy h
    obtain ⟨c1, c2, c3, c4, c5, c6⟩ := sub_core m (max x.length y.length) hy hfy hx hfx lfy lfx
      (le_max_right _ _) (le_max_left _ _) h
    rw [ord3_of_lt h]
    by_cases h0 : cmp x y = 0
    · have hv : val y = val x := (ord3_eq_zero.mp (hic ▸ h0)).symm
      obtain ⟨c41, c42⟩ := c4 hv
      refine ⟨[0], _, ?_, by decide, c1, intNorm_zero, fun he => absurd he (by omega), ?_⟩
      · simp only [fmath.isub, h0, ← hm]
        simp [c41]
      · intro _
        refine ⟨c2, ?_⟩
        have e1 : min (sv m x fx) (sv m y fy) = sv m x fx := Nat.min_eq_left (by omega)
        have e2 : max (sv m x fx) (sv m y fy) = sv m y fy := Nat.max_eq_right (by omega)
        rw [e1, e2]
        simp only [val_singleton, Nat.zero_mul, Nat.zero_add]
        exact c42
    · refine ⟨_, _, ?_, isDigits_lstrip_zeros c3, c1, intNorm_lstrip_zeros _,
        fun he => absurd he (by omega), ?_⟩
      · simp only [fmath.isub, h0, ← hm]
        simp [c5]
      · intro _
        refine ⟨c2, ?_⟩
        have e1 : min (sv m x fx) (sv m y fy) = sv m x fx := Nat.min_eq_left (by omega)
        have e2 : max (sv m x fx) (sv m y fy) = sv m y fy := Nat.max_eq_right (by omega)
        rw [e1, e2, val_lstrip_zeros]
        exact c6
  · have hv : val x = val y := sv_eq_val_eq hfx hfy lfx lfy h
    have h0 : cmp x y = 0 := by rw [hic]; exact ord3_eq_zero.mpr hv
    refine ⟨[0], [0], ?_, by decide, by decide, intNorm_zero, fun _ => ⟨rfl, rfl⟩,
      fun hne => absurd h hne⟩
    rw [h0, ord3_eq_zero.mpr h]
    simp [fmath.isub]
  · have hle := sv_lt_val_le hfx lfx h
    obtain ⟨c1, c2, c3, c4, c5, c6⟩ := sub_core m (max x.length y.length) hx hfx hy hfy lfx lfy
      (le_max_left _ _) (le_max_right _ _) h
    rw [ord3_of_gt h]
    by_cases h0 : cmp x y = 0
    · have hv : val x = val y := ord3_eq_zero.mp (hic ▸ h0)
      obtain ⟨c41, c42⟩ := c4 hv
      refine ⟨[0], _, ?_, by decide, c1, intNorm_zero, fun he => absurd he (by omega), ?_⟩
      · simp only [fmath.isub, h0, ← hm]
        simp [c41]
      · intro _
        refine ⟨c2, ?_⟩
        have e1 : min (sv m x fx) (sv m y fy) = sv m y fy := Nat.min_eq_right (by omega)
        have e2 : max (sv m x fx) (sv m y fy) = sv m x fx := Nat.max_eq_left (by omega)
        rw [e1, e2]
        simp only [val_singleton, Nat.zero_mul, Nat.zero_add]
        exact c42
    · refine ⟨_, _, ?_, isDigits_lstrip_zeros c3, c1, intNorm_lstrip_zeros _,
        fun he => absurd he (by omega), ?_⟩
      · simp only [fmath.isub, h0, ← hm]
        simp [c5]
      · intro _
        refine ⟨c2, ?_⟩
        have e1 : min (sv m x fx) (sv m y fy) = sv m y fy := Nat.min_eq_right (by omega)
        have e2 : max (sv m x fx) (sv m y fy) = sv m x fx := Nat.max_eq_left (by omega)
        rw [e1, e2, val_lstrip_zeros]
        exact c6

/-! ### Rational magnitudes -/

theorem sv_cast {m : Nat} (x : List Nat) {fx : List Nat} (h : fx.length ≤ m) :
    ((sv m x fx : Nat) : ℚ) = mag2 x fx * (10 : ℚ) ^ m := by
  unfold sv mag2
  rw [val_padRight]
  push_cast
  rw [pow_sub₀ (10 : ℚ) (by norm_num) h]
  field_simp
  ring

theorem scaled_cast {m : Nat} (x : List Nat) {fx : List Nat} (h : fx.length = m) :
    ((val x * 10 ^ m + val fx : Nat) : ℚ) = mag2 x fx * (10 : ℚ) ^ m := by
  unfold mag2
  rw [h]
  push_cast
  field_simp

theorem mag2_nonneg (x fx : List Nat) : 0 ≤ mag2 x fx := by
  unfold mag2; positivity

theorem mag2_eq_zero_iff {x fx : List Nat} : mag2 x fx = 0 ↔ val x = 0 ∧ val fx = 0 := by
  unfold mag2
  constructor
  · intro h
    have h1 : (0 : ℚ) ≤ (val x : ℚ) := by positivity
    have h2 : (0 : ℚ) ≤ (val fx : ℚ) / (10 : ℚ) ^ fx.length := by positivity
    have h3 : (val x : ℚ) = 0 := by linarith
    have h4 : (val fx : ℚ) / (10 : ℚ) ^ fx.length = 0 := by linarith
    have h5 : (val fx : ℚ) = 0 := by
      rcases div_eq_zero_iff.mp h4 with h | h
      · exact h
      · exact absurd h (by positivity)
    exact ⟨by exact_mod_cast h3, by exact_mod_cast h5⟩
  · rintro ⟨h1, h2⟩; rw [h1, h2]; simp

theorem pow10_pos (m : Nat) : (0 : ℚ) < (10 : ℚ) ^ m := by positivity

theorem sv_lt_iff {m : Nat} {x fx y fy : List Nat} (hx : fx.length ≤ m) (hy : fy.length ≤ m) :
    sv m x fx < sv m y fy ↔ mag2 x fx < mag2 y fy := by
  rw [← Nat.cast_lt (α := ℚ), sv_cast x hx, sv_cast y hy]
  exact mul_lt_mul_right (pow10_pos m)

theorem sv_eq_iff {m : Nat} {x fx y fy : List Nat} (hx : fx.length ≤ m) (hy : fy.length ≤ m) :
    sv m x fx = sv m y fy ↔ mag2 x fx = mag2 y fy := by
  rw [← Nat.cast_inj (R := ℚ), sv_cast x hx, sv_cast y hy]
  exact mul_left_inj' (ne_of_gt (pow10_pos m))

theorem val_eq_zero {l : List Nat} (h : val l = 0) : ∀ d ∈ l, d = 0 := by
  induction l with
  | nil => intro d hd; simp at hd
  | cons e t ih =>
    rw [val_cons] at h
    have h1 : e * 10 ^ t.length = 0 := by omega
    have h2 : val t = 0 := by omega
    have h3 : e = 0 := by
      rcases Nat.mul_eq_zero.mp h1 with h | h
      · exact h
      · exact absurd h (by positivity)
    intro d hd
    rcases List.mem_cons.mp hd with hd | hd
    · rw [hd, h3]
    · exact ih h2 d hd

theorem fracNorm_val_zero {fx : List Nat} (hn : FracNorm fx) (h : val fx = 0) : fx = [0] := by
  apply hn.2
  have := val_eq_zero h
  rw [List.getLast?_eq_getLast _ hn.1]
  rw [this _ (List.getLast_mem hn.1)]

theorem val_length_one {l : List Nat} (hl : l.length = 1) (h : val l = 0) : l = [0] := by
  match l, hl with
  | [d], _ => rw [val_singleton] at h; rw [h]

namespace mnum

theorem Normalized.weakNorm {a : mnum} (h : Normalized a) : WeakNorm a :=
  ⟨h.1, h.2.1, h.2.2.1, h.2.2.2.1, fun _ h0 => fracNorm_val_zero h.2.2.2 h0⟩

theorem mag_nonneg (a : mnum) : 0 ≤ a.mag := mag2_nonneg _ _

theorem WeakNorm.eq_zero {a : mnum} (h : WeakNorm a) (h0 : a.mag = 0) :
    a.integer = [0] ∧ a.fraction = [0] := by
  obtain ⟨h1, h2⟩ := mag2_eq_zero_iff.mp h0
  exact ⟨intNorm_val_zero h.2.2.1 h1, h.2.2.2.2 h1 h2⟩

theorem value_neg (a : mnum) : (operator_neg a).value = -a.value := by
  unfold value operator_neg mag
  cases a.sign <;> simp

theorem mag_neg (a : mnum) : (operator_neg a).mag = a.mag := rfl

theorem WeakNorm.neg {a : mnum} (h : WeakNorm a) : WeakNorm (operator_neg a) := h

end mnum

/-! ### Signed addition and subtraction -/

namespace mnum

/-- Binary `operator+` returns a value, keeps the operands in shape, and adds the
rational values; the sign rules are those of `signed_iadd`. -/
theorem operator_plus_spec {a b : mnum} (ha : WeakNorm a) (hb : WeakNorm b) :
    ∃ c, operator_plus a b = .ok c ∧ WeakNorm c ∧ c.value = a.value + b.value ∧
      (a.sign = b.sign → c.sign = a.sign) ∧
      (a.sign ≠ b.sign → (b.mag < a.mag → c.sign = a.sign) ∧ (a.mag < b.mag → c.sign = b.sign) ∧
        (a.mag = b.mag → c = ⟨false, [0], [0]⟩)) := by
  obtain ⟨sa, x, fx⟩ := a
  obtain ⟨sb, y, fy⟩ := b
  obtain ⟨hx, hfx, nx, ex, zx⟩ := ha
  obtain ⟨hy, hfy, ny, ey, zy⟩ := hb
  simp only at hx hfx nx ex zx hy hfy ny ey zy
  have lfx : fx.length ≤ max fx.length fy.length := le_max_left _ _
  have lfy : fy.length ≤ max fx.length fy.length := le_max_right _ _
  have pfx : 0 < fx.length := List.length_pos.mpr ex
  by_cases hs : sa = sb
  · subst hs
    obtain ⟨d1, d2, hl, hv, hn⟩ := fmath_iadd_spec hx hfx hy hfy
    have hq : mag2 (fmath.iadd x fx y fy).1 (fmath.iadd x fx y fy).2 = mag2 x fx + mag2 y fy := by
      have h1 := scaled_cast (fmath.iadd x fx y fy).1 hl
      rw [hv] at h1
      push_cast at h1
      rw [sv_cast x lfx, sv_cast y lfy, ← add_mul] at h1
      exact (mul_left_inj' (ne_of_gt (pow10_pos _))).mp h1.symm
    refine ⟨⟨sa, (fmath.iadd x fx y fy).1, (fmath.iadd x fx y fy).2⟩, ?_, ?_, ?_, fun _ => rfl,
      fun h => absurd rfl h⟩
    · simp [operator_plus, fmath.signed_iadd]
    · refine ⟨d1, d2, hn nx ny, ?_, ?_⟩
      · intro h
        have := congrArg List.length h
        simp only [hl, List.length_nil] at this
        omega
      · intro h1 h2
        have h0 : mag2 (fmath.iadd x fx y fy).1 (fmath.iadd x fx y fy).2 = 0 :=
          mag2_eq_zero_iff.mpr ⟨h1, h2⟩
        rw [hq] at h0
        have hxz : mag2 x fx = 0 := by linarith [mag2_nonneg x fx, mag2_nonneg y fy]
        have hyz : mag2 y fy = 0 := by linarith [mag2_nonneg x fx, mag2_nonneg y fy]
        have e1 := zx (mag2_eq_zero_iff.mp hxz).1 (mag2_eq_zero_iff.mp hxz).2
        have e2 := zy (mag2_eq_zero_iff.mp hyz).1 (mag2_eq_zero_iff.mp hyz).2
        have e3 : max fx.length fy.length = 1 := by rw [e1, e2]; rfl
        exact val_length_one (hl.trans e3) h2
    · simp only [value, mag]
      rw [hq]
      cases sa <;> simp
      ring
  · obtain ⟨x', fx', hok, d1, d2, n1, hz, hnz⟩ := fmath_isub_spec hx hfx hy hfy nx ny
    have hcomp := comp_spec hx hfx hy hfy nx ny
    have hop : operator_plus ⟨sa, x, fx⟩ ⟨sb, y, fy⟩
        = .ok ⟨if ord3 (sv (max fx.length fy.length) x fx) (sv (max fx.length fy.length) y fy) = 0
            then false
            else if ord3 (sv (max fx.length fy.length) x fx) (sv (max fx.length fy.length) y fy) = 1
              then sa && !sb else !sa && sb, x', fx'⟩ := by
      rw [hcomp] at hok
      simp only [operator_plus, fmath.signed_iadd, if_neg hs, hcomp, hok]
      split_ifs <;> rfl
    rw [hop]
    refine ⟨_, rfl, ?_⟩
    generalize max fx.length fy.length = m at *
    rcases Nat.lt_trichotomy (sv m x fx) (sv m y fy) with h | h | h
    · obtain ⟨hl, hv⟩ := hnz (by omega)
      have e1 : min (sv m x fx) (sv m y fy) = sv m x fx := Nat.min_eq_left (by omega)
      have e2 : max (sv m x fx) (sv m y fy) = sv m y fy := Nat.max_eq_right (by omega)
      rw [e1, e2] at hv
      have hq : mag2 x' fx' + mag2 x fx = mag2 y fy := by
        have h1 := congrArg (Nat.cast : Nat → ℚ) hv
        rw [Nat.cast_add, scaled_cast x' hl, sv_cast x lfx, sv_cast y lfy, ← add_mul] at h1
        exact (mul_left_inj' (ne_of_gt (pow10_pos _))).mp h1
      have hlt := (sv_lt_iff lfx lfy).mp h
      rw [ord3_of_lt h]
      simp only [show ((-1 : Int) = 0) = False by simp, show ((-1 : Int) = 1) = False by simp,
        if_false]
      refine ⟨⟨d1, d2, n1, ?_, ?_⟩, ?_, fun h => absurd h hs, fun _ => ⟨?_, ?_, ?_⟩⟩
      · intro h
        have := congrArg List.length h
        simp only [hl, List.length_nil] at this
        omega
      · intro h1 h2
        have h0 : mag2 x' fx' = 0 := mag2_eq_zero_iff.mpr ⟨h1, h2⟩
        linarith
      · simp only [value, mag]
        cases sa <;> cases sb <;> simp at hs ⊢ <;> linarith
      · intro h2; simp only [mag] at h2; linarith
      · intro _; cases sa <;> cases sb <;> simp at hs ⊢
      · intro h2; simp only [mag] at h2; linarith
    · obtain ⟨hx0, hfx0⟩ := hz h
      subst hx0 hfx0
      have heq := (sv_eq_iff lfx lfy).mp h
      rw [ord3_eq_zero.mpr h]
      simp only [if_true]
      have hm0 : mag2 [0] [0] = 0 := by simp [mag2, val]
      refine ⟨⟨d1, d2, n1, ?_, ?_⟩, ?_, fun h => absurd h hs,
        fun _ => ⟨?_, ?_, fun _ => trivial⟩⟩
      · intro h; cases h
      · intro _ _; rfl
      · simp only [value, mag, hm0, heq]
        cases sa <;> cases sb <;> simp at hs ⊢
      · intro h2; simp only [mag] at h2; linarith
      · intro h2; simp only [mag] at h2; linarith
    · obtain ⟨hl, hv⟩ := hnz (by omega)
      have e1 : min (sv m x fx) (sv m y fy) = sv m y fy := Nat.min_eq_right (by omega)
      have e2 : max (sv m x fx) (sv m y fy) = sv m x fx := Nat.max_eq_left (by omega)
      rw [e1, e2] at hv
      have hq : mag2 x' fx' + mag2 y fy = mag2 x fx := by
        have h1 := congrArg (Nat.cast : Nat → ℚ) hv
        rw [Nat.cast_add, scaled_cast x' hl, sv_cast x lfx, sv_cast y lfy, ← add_mul] at h1
        exact (mul_left_inj' (ne_of_gt (pow10_pos _))).mp h1
      have hlt := (sv_lt_iff lfy lfx).mp h
      rw [ord3_of_gt h]
      simp only [show ((1 : Int) = 0) = False by simp, if_false, if_true]
      refine ⟨⟨d1, d2, n1, ?_, ?_⟩, ?_, fun h => absurd h hs, fun _ => ⟨?_, ?_, ?_⟩⟩
      · intro h
        have := congrArg List.length h
        simp only [hl, List.length_nil] at this
        omega
      · intro h1 h2
        have h0 : mag2 x' fx' = 0 := mag2_eq_zero_iff.mpr ⟨h1, h2⟩
        linarith
      · simp only [value, mag]
        cases sa <;> cases sb <;> simp at hs ⊢ <;> linarith
      · intro _; cases sa <;> cases sb <;> simp at hs ⊢
      · intro h2; simp only [mag] at h2; linarith
      · intro h2; simp only [mag] at h2; linarith

end mnum

/-- Signed subtraction is signed addition of the operand with its sign flipped. -/
theorem signed_isub_eq_signed_iadd_not (x fx y fy : List Nat) (xsign ysign : Bool) :
    fmath.signed_isub x fx y fy xsign ysign = fmath.signed_iadd x fx y fy xsign (!ysign) := by
  unfold fmath.signed_isub fmath.signed_iadd
  cases xsign <;> cases ysign <;> simp

namespace mnum

theorem operator_minus_eq (a b : mnum) :
    operator_minus a b = operator_plus a (operator_neg b) := by
  unfold operator_minus operator_plus operator_neg
  rw [signed_isub_eq_signed_iadd_not]

/-- Binary `operator-` returns a value, keeps the operands in shape, and subtracts
the rational values. -/
theorem operator_minus_spec {a b : mnum} (ha : WeakNorm a) (hb : WeakNorm b) :
    ∃ c, operator_minus a b = .ok c ∧ WeakNorm c ∧ c.value = a.value - b.value := by
  obtain ⟨c, h1, h2, h3, _⟩ := operator_plus_spec ha hb.neg
  refine ⟨c, by rw [operator_minus_eq]; exact h1, h2, ?_⟩
  rw [h3, value_neg]; ring

theorem value_pos_of_sign_false {a : mnum} (h : a.sign = false) : 0 ≤ a.value := by
  unfold value; rw [h]; simpa using mag_nonneg a

theorem value_neg_of_sign_true {a : mnum} (h : a.sign = true) : a.value ≤ 0 := by
  unfold value; rw [h]; simpa using mag_nonneg a

theorem abs_value (a : mnum) : |a.value| = a.mag := by
  unfold value
  cases a.sign
  · simpa using abs_of_nonneg (mag_nonneg a)
  · simp only [if_true, abs_neg]; exact abs_of_nonneg (mag_nonneg a)

theorem cmp4_spec {c a : mnum} (hc : WeakNorm c) (ha : WeakNorm a) :
    cmp4 c.integer c.fraction a.integer a.fraction
      = ord3 (sv (max c.fraction.length a.fraction.length) c.integer c.fraction)
          (sv (max c.fraction.length a.fraction.length) a.integer a.fraction) := by
  unfold cmp4
  exact comp_spec hc.1 hc.2.1 ha.1 ha.2.1 hc.2.2.1 ha.2.2.1

theorem both_zero_of_mag {c a : mnum} (hc : WeakNorm c) (ha : WeakNorm a) (h1 : c.mag = 0)
    (h2 : a.mag = 0) : both_zero c a = true := by
  obtain ⟨e1, e2⟩ := hc.eq_zero h1
  obtain ⟨e3, e4⟩ := ha.eq_zero h2
  unfold both_zero
  rw [e1, e2, e3, e4]; rfl

/-- On values kept in shape by the arithmetic, `operator==` holds whenever the rational
values agree. -/
theorem operator_eq_of_value_eq {c a : mnum} (hc : WeakNorm c) (ha : WeakNorm a)
    (h : c.value = a.value) : operator_eq c a = true := by
  unfold operator_eq
  by_cases hb : both_zero c a = true
  · rw [if_pos hb]
  · rw [if_neg hb]
    have hm : c.mag = a.mag := by rw [← abs_value, ← abs_value, h]
    have hc0 : c.mag ≠ 0 := by
      intro h0
      exact hb (both_zero_of_mag hc ha h0 (by rw [← hm]; exact h0))
    have hpos : 0 < c.mag := lt_of_le_of_ne (mag_nonneg c) (Ne.symm hc0)
    have hs : c.sign = a.sign := by
      unfold value at h
      rw [← hm] at h
      cases hcs : c.sign <;> cases has : a.sign <;> rw [hcs, has] at h <;> simp at h <;>
        first
          | rfl
          | (exfalso; linarith)
    have hne : (c.sign != a.sign) = false := by rw [hs]; simp
    rw [hne]
    simp only [Bool.false_eq_true, if_false, decide_eq_true_eq]
    rw [cmp4_spec hc ha, ord3_eq_zero, sv_eq_iff (le_max_left _ _) (le_max_right _ _)]
    exact hm

end mnum

/-! ### Schoolbook multiplication -/

theorem u8_of_lt {n : Nat} (h : n < 256) : u8 n = n := Nat.mod_eq_of_lt h

theorem valR_append (a b : List Nat) : valR (a ++ b) = valR a + 10 ^ a.length * valR b := by
  induction a with
  | nil => simp [valR]
  | cons d t ih => rw [List.cons_append, valR, ih, valR, List.length_cons, pow_succ]; ring

theorem valR_replicate_zero (n : Nat) : valR (List.replicate n 0) = 0 := by
  induction n with
  | zero => rfl
  | succ n ih => rw [List.replicate_succ, valR, ih]

/-- One row of the schoolbook multiplication: no cell or carry leaves `0..9`, and the
row adds `xd * y` to the buffer. -/
theorem mulRow_spec {xd : Nat} (hxd : xd ≤ 9) : ∀ (ys lo t : List Nat) (c : Nat),
    IsDigits ys → IsDigits lo → lo.length = ys.length → c ≤ 9 →
    ∃ lo' c', mulRow xd ys (lo ++ 0 :: t) c = lo' ++ c' :: t ∧ lo'.length = ys.length ∧
      IsDigits lo' ∧ c' ≤ 9 ∧
      valR lo' + 10 ^ ys.length * c' = valR lo + xd * valR ys + c := by
  intro ys
  induction ys with
  | nil =>
    intro lo t c _ _ hl hc
    have : lo = [] := List.length_eq_zero.mp hl
    subst this
    refine ⟨[], c, ?_, rfl, by intro d hd; simp at hd, hc, by simp [valR]⟩
    simp only [List.nil_append, mulRow, Nat.zero_add]
    rw [u8_of_lt (by omega)]
  | cons yd ys ih =>
    intro lo t c hys hlo hl hc
    cases lo with
    | nil => simp at hl
    | cons r lo =>
      have hyd := (isDigits_cons.mp hys).1
      have hr := (isDigits_cons.mp hlo).1
      have hm : xd * yd ≤ 9 * 9 := Nat.mul_le_mul hxd hyd
      have hp : u8 (xd * yd + c + r) = xd * yd + c + r := u8_of_lt (by omega)
      have hl2 : lo.length = ys.length := by simpa using hl
      obtain ⟨lo', c', h1, h2, h3, h4, h5⟩ := ih lo t ((xd * yd + c + r) / 10)
        (isDigits_cons.mp hys).2 (isDigits_cons.mp hlo).2 hl2 (by omega)
      refine ⟨(xd * yd + c + r) % 10 :: lo', c', ?_, by simp [h2],
        isDigits_cons.mpr ⟨by omega, h3⟩, h4, ?_⟩
      · rw [List.cons_append, mulRow]
        simp only [hp]
        rw [u8_of_lt (by omega), u8_of_lt (by omega), h1]
        rfl
      · simp only [valR, List.length_cons, pow_succ]
        have e : xd * (yd + 10 * valR ys) = xd * yd + 10 * (xd * valR ys) := by ring
        have e2 : 10 ^ ys.length * 10 * c' = 10 * (10 ^ ys.length * c') := by ring
        rw [e, e2]
        omega

/-- The schoolbook loops add `x * y` to the low part of a buffer whose high part is zero. -/
theorem mulLoop_spec {yr : List Nat} (hyr : IsDigits yr) : ∀ (xs lo : List Nat) (k : Nat),
    IsDigits xs → IsDigits lo → lo.length = yr.length → xs.length ≤ k →
    (mulLoop yr xs (lo ++ List.replicate k 0)).length = yr.length + k ∧
      IsDigits (mulLoop yr xs (lo ++ List.replicate k 0)) ∧
      valR (mulLoop yr xs (lo ++ List.replicate k 0)) = valR lo + valR xs * valR yr := by
  intro xs
  induction xs with
  | nil =>
    intro lo k _ hlo hl _
    simp only [mulLoop, valR, Nat.zero_mul, Nat.add_zero]
    refine ⟨by simp [hl], isDigits_append.mpr ⟨hlo, isDigits_replicate_zero k⟩, ?_⟩
    rw [valR_append, valR_replicate_zero]; simp
  | cons xd xs ih =>
    intro lo k hxs hlo hl hk
    obtain ⟨k', rfl⟩ : ∃ k', k = k' + 1 := ⟨k - 1, by simp at hk; omega⟩
    have hxd := (isDigits_cons.mp hxs).1
    obtain ⟨lo', c', h1, h2, h3, h4, h5⟩ := mulRow_spec hxd yr lo (List.replicate k' 0) 0
      hyr hlo hl (by omega)
    have hd : IsDigits (lo' ++ [c']) :=
      isDigits_append.mpr ⟨h3, by intro d hd; simp at hd; omega⟩
    have hv : valR (lo' ++ [c']) = valR lo + xd * valR yr := by
      rw [valR_append, h2]; simp only [valR, Nat.mul_zero, Nat.add_zero]; omega
    have hlen : (lo' ++ [c']).length = yr.length + 1 := by simp [h2]
    obtain ⟨r, lo'', hrl⟩ : ∃ r lo'', lo' ++ [c'] = r :: lo'' := by
      cases hc : lo' ++ [c'] with
      | nil => rw [hc] at hlen; simp at hlen
      | cons r lo'' => exact ⟨r, lo'', rfl⟩
    have hrow : mulRow xd yr (lo ++ List.replicate (k' + 1) 0) 0
        = r :: (lo'' ++ List.replicate k' 0) := by
      rw [List.replicate_succ, h1, ← List.cons_append, ← hrl]
      simp
    rw [hrl] at hd hv hlen
    have hl'' : lo''.length = yr.length := by simpa using hlen
    obtain ⟨i1, i2, i3⟩ := ih lo'' k' (isDigits_cons.mp hxs).2 (isDigits_cons.mp hd).2 hl''
      (by simp at hk; omega)
    simp only [mulLoop, hrow]
    refine ⟨by simp [i1]; omega, isDigits_cons.mpr ⟨(isDigits_cons.mp hd).1, i2⟩, ?_⟩
    simp only [valR] at hv ⊢
    rw [i3]
    have e : (xd + 10 * valR xs) * valR yr = xd * valR yr + 10 * (valR xs * valR yr) := by ring
    rw [e]; omega

/-- The schoolbook buffer has `len x + len y` decimal digits and value `x * y`. -/
theorem schoolbook_spec {x y : List Nat} (hx : IsDigits x) (hy : IsDigits y) :
    (schoolbook x y).length = x.length + y.length ∧ IsDigits (schoolbook x y) ∧
      val (schoolbook x y) = val x * val y := by
  have e : List.replicate (x.length + y.length) 0
      = List.replicate y.reverse.length 0 ++ List.replicate x.length 0 := by
    rw [List.length_reverse, Nat.add_comm, List.replicate_add]
  obtain ⟨h1, h2, h3⟩ := mulLoop_spec hy.reverse x.reverse (List.replicate y.reverse.length 0)
    x.length hx.reverse (isDigits_replicate_zero _) (by simp) (by simp)
  unfold schoolbook
  rw [e]
  refine ⟨by rw [List.length_reverse, h1, List.length_reverse]; omega, h2.reverse, ?_⟩
  rw [val_reverse, h3, valR_replicate_zero, valR_reverse, valR_reverse]; simp

namespace imath

theorem mul_spec {x y : List Nat} (hx : IsDigits x) (hy : IsDigits y) :
    IsDigits (mul x y) ∧ IntNorm (mul x y) ∧ val (mul x y) = val x * val y := by
  obtain ⟨_, h2, h3⟩ := schoolbook_spec hx hy
  exact ⟨isDigits_lstrip_zeros h2, intNorm_lstrip_zeros _, by
    unfold mul; rw [val_lstrip_zeros, h3]⟩

end imath

/-! ### Decimal multiplication -/

theorem is_zero_iff {v : List Nat} : is_zero v = true ↔ v = [0] := by
  unfold is_zero front
  match v with
  | [] => simp
  | [d] => simp
  | _ :: _ :: _ => simp

theorem mag2_append_eq (x fx : List Nat) :
    mag2 x fx = (val (x ++ fx) : ℚ) / (10 : ℚ) ^ fx.length := by
  unfold mag2
  rw [val_append]
  push_cast
  field_simp

theorem mag2_take_drop (l : List Nat) (k : Nat) :
    mag2 (l.take k) (l.drop k) = (val l : ℚ) / (10 : ℚ) ^ (l.length - k) := by
  rw [mag2_append_eq, List.take_append_drop, List.length_drop]

theorem mag2_lstrip_zeros (x fx : List Nat) : mag2 (lstrip_zeros x) fx = mag2 x fx := by
  unfold mag2; rw [val_lstrip_zeros]

theorem mag2_rstrip_zeros (x fx : List Nat) : mag2 x (rstrip_zeros fx) = mag2 x fx := by
  by_cases hne : fx = []
  · subst hne; simp [rstrip_zeros, mag2, val]
  · obtain ⟨k, hk⟩ := rstrip_zeros_decomp fx hne
    unfold mag2
    conv_rhs => rw [hk]
    rw [val_append, val_replicate_zero, List.length_append, List.length_replicate]
    push_cast
    rw [pow_add]
    field_simp
    ring

theorem mag2_zero_zero : mag2 [0] [0] = 0 := by simp [mag2, val]

theorem isDigits_zero : IsDigits [0] := by decide

theorem fracNorm_zero : FracNorm [0] := by decide

theorem IsDigits.take {l : List Nat} (h : IsDigits l) (k : Nat) : IsDigits (l.take k) :=
  fun d hd => h d (List.mem_of_mem_take hd)

theorem IsDigits.drop {l : List Nat} (h : IsDigits l) (k : Nat) : IsDigits (l.drop k) :=
  fun d hd => h d (List.mem_of_mem_drop hd)

/-- Decimal `imul` multiplies the magnitudes and returns normalized parts. -/
theorem imul_spec {x fx y fy : List Nat} (hx : IsDigits x) (hfx : IsDigits fx)
    (hy : IsDigits y) (hfy : IsDigits fy) (nx : IntNorm x) (ny : IntNorm y) :
    IsDigits (fmath.imul x fx y fy).1 ∧ IsDigits (fmath.imul x fx y fy).2 ∧
      IntNorm (fmath.imul x fx y fy).1 ∧ FracNorm (fmath.imul x fx y fy).2 ∧
      mag2 (fmath.imul x fx y fy).1 (fmath.imul x fx y fy).2 = mag2 x fx * mag2 y fy := by
  unfold fmath.imul
  by_cases h1 : (is_zero fx && is_zero fy) = true
  · rw [if_pos h1]
    rw [Bool.and_eq_true, is_zero_iff, is_zero_iff] at h1
    obtain ⟨rfl, rfl⟩ := h1
    obtain ⟨m1, m2, m3⟩ := imath.mul_spec hx hy
    refine ⟨m1, isDigits_zero, m2, fracNorm_zero, ?_⟩
    unfold mag2
    rw [m3, val_singleton]
    push_cast
    simp
  · rw [if_neg h1]
    by_cases h2 : ((front x == 0 && is_zero fx) || (front y == 0 && is_zero fy)) = true
    · rw [if_pos h2]
      refine ⟨isDigits_zero, isDigits_zero, intNorm_zero, fracNorm_zero, ?_⟩
      rw [mag2_zero_zero]
      simp only [Bool.or_eq_true, Bool.and_eq_true, beq_iff_eq, is_zero_iff] at h2
      rcases h2 with ⟨a1, a2⟩ | ⟨a1, a2⟩
      · rw [nx.2 a1, a2, mag2_zero_zero, zero_mul]
      · rw [ny.2 a1, a2, mag2_zero_zero, mul_zero]
    · rw [if_neg h2]
      obtain ⟨s1, s2, s3⟩ := schoolbook_spec (isDigits_append.mpr ⟨hx, hfx⟩)
        (isDigits_append.mpr ⟨hy, hfy⟩)
      refine ⟨isDigits_lstrip_zeros (s2.take _), isDigits_rstrip_zeros (s2.drop _),
        intNorm_lstrip_zeros _, fracNorm_rstrip_zeros _, ?_⟩
      simp only []
      rw [mag2_lstrip_zeros, mag2_rstrip_zeros, mag2_take_drop, s3, mag2_append_eq x fx,
        mag2_append_eq y fy, s1]
      have e : (x ++ fx).length + (y ++ fy).length
          - ((x ++ fx).length + (y ++ fy).length - (fx.length + fy.length))
          = fx.length + fy.length := by
        simp only [List.length_append]; omega
      rw [e, pow_add]
      push_cast
      field_simp

namespace mnum

/-- Binary `operator*` multiplies values and magnitudes and returns a normalized value. -/
theorem operator_mul_spec {a b : mnum} (ha : WeakNorm a) (hb : WeakNorm b) :
    Normalized (operator_mul a b) ∧ (operator_mul a b).mag = a.mag * b.mag ∧
      (operator_mul a b).sign = xor a.sign b.sign ∧
      (operator_mul a b).value = a.value * b.value := by
  obtain ⟨h1, h2, h3, h4, h5⟩ := imul_spec ha.1 ha.2.1 hb.1 hb.2.1 ha.2.2.1 hb.2.2.1
  refine ⟨⟨h1, h2, h3, h4⟩, h5, rfl, ?_⟩
  have hm : (operator_mul a b).mag = a.mag * b.mag := h5
  have hs : (operator_mul a b).sign = xor a.sign b.sign := rfl
  unfold value
  rw [hm, hs]
  cases a.sign <;> cases b.sign <;> simp

end mnum

/-! ### The `double` model: leading bit and exact rounding -/

namespace Dbl

theorem log2Search_le : ∀ (s lo n : Nat), 2 ^ lo ≤ n → 2 ^ log2Search s lo n ≤ n := by
  intro s
  induction s with
  | zero => intro lo n h; exact h
  | succ s ih =>
    intro lo n h
    unfold log2Search
    split
    · next h2 => exact ih _ _ h2
    · exact ih _ _ h

theorem log2Search_lt : ∀ (s lo n : Nat), n < 2 ^ (lo + 2 ^ s) →
    n < 2 ^ (log2Search s lo n + 1) := by
  intro s
  induction s with
  | zero => intro lo n h; simpa [log2Search] using h
  | succ s ih =>
    intro lo n h
    unfold log2Search
    split
    · refine ih _ _ ?_
      have e : lo + 2 ^ s + 2 ^ s = lo + 2 ^ (s + 1) := by rw [pow_succ]; omega
      rw [e]; exact h
    · next h2 => exact ih _ _ (Nat.lt_of_not_le h2)

theorem ilog2_le {n : Nat} (h : 1 ≤ n) : 2 ^ ilog2 n ≤ n :=
  log2Search_le 13 0 n (by rw [pow_zero]; exact h)

theorem ilog2_lt {n : Nat} (h : n < 2 ^ 2 ^ 13) : n < 2 ^ (ilog2 n + 1) :=
  log2Search_lt 13 0 n (by rw [Nat.zero_add]; exact h)

theorem ilog2_zero : ilog2 0 = 0 := by decide!

/-- The leading bit of a number below `2 ^ j` is below position `j`. -/
theorem ilog2_lt_of_lt {n j : Nat} (hj : 0 < j) (h : n < 2 ^ j) : ilog2 n < j := by
  rcases Nat.eq_zero_or_pos n with h0 | h0
  · rw [h0, ilog2_zero]; exact hj
  · have h1 := ilog2_le h0
    exact (Nat.pow_lt_pow_iff_right (by norm_num : 1 < 2)).mp (lt_of_le_of_lt h1 h)

/-- Rounding an exact value `t` (in units) whose spacing divides it returns `t`. -/
theorem round_of_dvd {t den : Nat} (hden : 0 < den) (hd : 2 ^ (ilog2 t - 52) ∣ t)
    (ht : t < 2 ^ 2098) : round ((t * den : Nat) : Int) den = .fin (t : Int) := by
  unfold round
  have e1 : (((t * den : Nat) : Int)).natAbs = t * den := Int.natAbs_ofNat _
  have e2 : t * den / den = t := Nat.mul_div_cancel _ hden
  have hneg : ¬ (((t * den : Nat) : Int) < 0) := not_lt.mpr (Int.ofNat_nonneg _)
  simp only [e1, e2, hneg, if_false, decide_False]
  generalize ilog2 t - 52 = k at hd ⊢
  obtain ⟨c, hc⟩ := hd
  have hD : 0 < den * 2 ^ k := Nat.mul_pos hden (Nat.pow_pos (by norm_num))
  have e3 : t * den = c * (den * 2 ^ k) := by rw [hc]; ring
  have e4 : t * den / (den * 2 ^ k) = c := by
    rw [e3]; exact Nat.mul_div_cancel _ hD
  have e5 : t * den % (den * 2 ^ k) = 0 := by
    rw [e3]; exact Nat.mul_mod_left _ _
  have e6 : c * 2 ^ k = t := by rw [hc]; ring
  rw [e4, e5, Nat.mul_zero, if_pos hD, e6, if_neg (Nat.not_le.mpr ht)]

/-- The spacing at an integer of at most 53 bits, written in units, divides it. -/
theorem spacing_dvd {N : Nat} (hN : N ≤ 2 ^ 53) :
    2 ^ (ilog2 (N * 2 ^ 1074) - 52) ∣ N * 2 ^ 1074 := by
  rcases Nat.eq_zero_or_pos N with h0 | h0
  · rw [h0]; simp
  · have hle : N * 2 ^ 1074 ≤ 2 ^ 1127 := by
      calc N * 2 ^ 1074 ≤ 2 ^ 53 * 2 ^ 1074 := Nat.mul_le_mul_right _ hN
        _ = 2 ^ 1127 := by rw [← pow_add]
    have hpos : 1 ≤ N * 2 ^ 1074 := Nat.mul_pos h0 (Nat.pow_pos (by norm_num))
    have h1 := ilog2_le hpos
    have he : ilog2 (N * 2 ^ 1074) ≤ 1127 :=
      (Nat.pow_le_pow_iff_right (by norm_num : 1 < 2)).mp (le_trans h1 hle)
    by_cases hk : ilog2 (N * 2 ^ 1074) - 52 ≤ 1074
    · exact Dvd.dvd.mul_left (Nat.pow_dvd_pow 2 hk) N
    · have he2 : ilog2 (N * 2 ^ 1074) = 1127 := by omega
      rw [he2] at h1 ⊢
      have : N * 2 ^ 1074 = 2 ^ 1127 := le_antisymm hle h1
      rw [this]
      exact Nat.pow_dvd_pow 2 (by norm_num)

theorem units_lt {N : Nat} (hN : N ≤ 2 ^ 53) : N * 2 ^ 1074 < 2 ^ 2098 := by
  calc N * 2 ^ 1074 ≤ 2 ^ 53 * 2 ^ 1074 := Nat.mul_le_mul_right _ hN
    _ = 2 ^ 1127 := by rw [← pow_add]
    _ < 2 ^ 2098 := Nat.pow_lt_pow_right (by norm_num) (by norm_num)

/-- An integer of at most 53 bits is a `double`: rounding it is exact. -/
theorem round_nat {N den : Nat} (hden : 0 < den) (hN : N ≤ 2 ^ 53) :
    round ((N * 2 ^ 1074 * den : Nat) : Int) den = .fin ((N * 2 ^ 1074 : Nat) : Int) :=
  round_of_dvd hden (spacing_dvd hN) (units_lt hN)

theorem ofNat_eq {N : Nat} (hN : N ≤ 2 ^ 53) : ofNat N = .fin ((N * 2 ^ 1074 : Nat) : Int) := by
  unfold ofNat
  have h := @round_nat N 1 Nat.one_pos hN
  rw [Nat.mul_one] at h
  rw [← h]
  push_cast
  rfl

end Dbl

namespace Dbl

/-- Rounding stays between two multiples of the spacing that enclose the exact value,
and does not reach the upper one when the exact value is more than half a spacing
below it. -/
theorem round_bounds {a den L H : Nat} (hden : 0 < den) (hL : L * den ≤ a)
    (hH : a < H * den) (dL : 2 ^ (ilog2 (a / den) - 52) ∣ L)
    (dH : 2 ^ (ilog2 (a / den) - 52) ∣ H)
    (gap : den * 2 ^ (ilog2 (a / den) - 52) < 2 * (H * den - a)) (hHb : H ≤ 2 ^ 2098) :
    ∃ v : Nat, round (a : Int) den = .fin (v : Int) ∧ L ≤ v ∧ v < H := by
  unfold round
  have hneg : ¬ ((a : Int) < 0) := not_lt.mpr (Int.ofNat_nonneg _)
  simp only [Int.natAbs_ofNat, hneg, if_false, decide_False]
  generalize ilog2 (a / den) - 52 = k at dL dH gap ⊢
  have hP : 0 < 2 ^ k := Nat.pow_pos (by norm_num)
  generalize 2 ^ k = P at dL dH gap hP ⊢
  obtain ⟨l, rfl⟩ := dL
  obtain ⟨h, rfl⟩ := dH
  have hD : 0 < den * P := Nat.mul_pos hden hP
  have hdm := Nat.div_add_mod a (den * P)
  have hr := Nat.mod_lt a hD
  generalize hq : a / (den * P) = q at hdm ⊢
  generalize hrr : a % (den * P) = r at hdm hr ⊢
  generalize hDD : den * P = D at hdm hr hD gap ⊢
  have eL : P * l * den = D * l := by rw [← hDD]; ring
  have eH : P * h * den = D * h := by rw [← hDD]; ring
  rw [eL] at hL
  rw [eH] at hH gap
  have hlq : l ≤ q := by
    by_contra hc
    have : D * (q + 1) ≤ D * l := Nat.mul_le_mul_left _ (by omega)
    rw [Nat.mul_add, Nat.mul_one] at this
    omega
  have hqh : q < h := by
    by_contra hc
    have : D * h ≤ D * q := Nat.mul_le_mul_left _ (by omega)
    omega
  have hup : 2 * r ≥ D → q + 1 < h := by
    intro h2
    by_contra hc
    have e : h = q + 1 := by omega
    rw [e, Nat.mul_add, Nat.mul_one] at gap
    omega
  have key : ∀ m, q ≤ m → m < h →
      ∃ v : Nat, (if 2 ^ 2098 ≤ m * P then Dbl.inf false else Dbl.fin ((m * P : Nat) : Int))
        = Dbl.fin (v : Int) ∧ P * l ≤ v ∧ v < P * h := by
    intro m h1 h2
    have b1 : P * l ≤ m * P := by
      rw [Nat.mul_comm m P]; exact Nat.mul_le_mul_left _ (le_trans hlq h1)
    have b2 : m * P < P * h := by
      rw [Nat.mul_comm m P]; exact Nat.mul_lt_mul_of_pos_left h2 hP
    refine ⟨m * P, ?_, b1, b2⟩
    rw [if_neg (by omega)]
  by_cases c1 : 2 * r < D
  · rw [if_pos c1]
    exact key q (le_refl _) hqh
  · rw [if_neg c1]
    have hq1 := hup (by omega)
    by_cases c2 : D < 2 * r
    · rw [if_pos c2]
      exact key (q + 1) (by omega) hq1
    · rw [if_neg c2]
      have : q % 2 ≤ 1 := by omega
      exact key (q + q % 2) (by omega) (by omega)

end Dbl

namespace Dbl

theorem add_fin (a b : Int) : add (.fin a) (.fin b) = round (a + b) 1 := rfl

theorem sub_fin (a b : Int) : sub (.fin a) (.fin b) = round (a + -b) 1 := rfl

theorem mul_fin (a b : Int) : mul (.fin a) (.fin b) = round (a * b) (2 ^ 1074) := rfl

theorem div_fin (a b : Int) : div (.fin a) (.fin b)
    = if b = 0 then (if a = 0 then .nan else .inf (decide (a < 0)))
      else round ((if b < 0 then -a else a) * 2 ^ 1074) b.natAbs := rfl

theorem isZero_fin (n : Int) : (Dbl.fin n).isZero = (n == 0) := rfl

theorem toUdigit_fin (n : Int) : toUdigit (.fin n)
    = if n.natAbs / 2 ^ 1074 < 2 ^ 31 then
        (if n < 0 then (256 - n.natAbs / 2 ^ 1074 % 256) % 256 else n.natAbs / 2 ^ 1074 % 256)
      else 0 := rfl

/-- The conversion to `udigit` of a non-negative finite value between `Q` and `Q + 1`. -/
theorem toUdigit_of_bounds {d : Dbl} {Q : Nat} (hQ : Q ≤ 255)
    (h : ∃ v : Nat, d = .fin (v : Int) ∧ Q * 2 ^ 1074 ≤ v ∧ v < (Q + 1) * 2 ^ 1074) :
    toUdigit d = Q := by
  obtain ⟨v, rfl, v1, v2⟩ := h
  rw [toUdigit_fin]
  have hvq : v / 2 ^ 1074 = Q := by
    apply Nat.div_eq_of_lt_le
    · exact v1
    · exact v2
  have hvn : ¬ ((v : Int) < 0) := not_lt.mpr (Int.ofNat_nonneg _)
  rw [Int.natAbs_ofNat, hvq, if_pos (by
    have : (255 : Nat) < 2 ^ 31 := by norm_num
    omega), if_neg hvn]
  exact Nat.mod_eq_of_lt (by omega)

theorem add_nat {A B : Nat} (h : A + B ≤ 2 ^ 53) : add (ofNat A) (ofNat B) = ofNat (A + B) := by
  rw [ofNat_eq (show A ≤ 2 ^ 53 by omega), ofNat_eq (show B ≤ 2 ^ 53 by omega), ofNat_eq h,
    add_fin]
  have e : (((A * 2 ^ 1074 : Nat) : Int) + ((B * 2 ^ 1074 : Nat) : Int))
      = (((A + B) * 2 ^ 1074 * 1 : Nat) : Int) := by
    push_cast; ring
  rw [e]
  exact round_nat Nat.one_pos h

theorem sub_nat {A B : Nat} (hA : A ≤ 2 ^ 53) (hB : B ≤ A) :
    sub (ofNat A) (ofNat B) = ofNat (A - B) := by
  rw [ofNat_eq hA, ofNat_eq (show B ≤ 2 ^ 53 by omega),
    ofNat_eq (show A - B ≤ 2 ^ 53 by omega), sub_fin]
  have e : (((A * 2 ^ 1074 : Nat) : Int) + -((B * 2 ^ 1074 : Nat) : Int))
      = (((A - B) * 2 ^ 1074 * 1 : Nat) : Int) := by
    rw [Nat.mul_one, Nat.sub_mul, Nat.cast_sub (Nat.mul_le_mul_right _ hB)]
    ring
  rw [e]
  exact round_nat Nat.one_pos (by omega)

theorem mul_nat {A B : Nat} (hA : A ≤ 2 ^ 53) (hB : B ≤ 2 ^ 53) (h : A * B ≤ 2 ^ 53) :
    mul (ofNat A) (ofNat B) = ofNat (A * B) := by
  rw [ofNat_eq hA, ofNat_eq hB, ofNat_eq h, mul_fin]
  have e : (((A * 2 ^ 1074 : Nat) : Int) * ((B * 2 ^ 1074 : Nat) : Int))
      = ((A * B * 2 ^ 1074 * 2 ^ 1074 : Nat) : Int) := by
    push_cast; ring
  rw [e]
  exact round_nat (Nat.pow_pos (by norm_num)) h

theorem isZero_ofNat {N : Nat} (hN : N ≤ 2 ^ 53) : (ofNat N).isZero = decide (N = 0) := by
  rw [ofNat_eq hN, isZero_fin]
  have hU : 0 < 2 ^ 1074 := Nat.pow_pos (by norm_num)
  by_cases h : N = 0
  · subst h; simp
  · have : N * 2 ^ 1074 ≠ 0 := Nat.mul_ne_zero h (ne_of_gt hU)
    simp [h, this]

theorem cast_unit_mul (a : Nat) :
    (((a * 2 ^ 1074 : Nat) : Int) * 2 ^ 1074) = ((a * 2 ^ 1074 * 2 ^ 1074 : Nat) : Int) := by
  rw [Nat.cast_mul (a * 2 ^ 1074) (2 ^ 1074), Nat.cast_pow 2 1074, Nat.cast_ofNat]

theorem gap_factor (a b U : Nat) :
    (a / b + 1) * U * (b * U) - a * U * U = ((a / b + 1) * b - a) * (U * U) := by
  rw [Nat.sub_mul]
  congr 1 <;> ring

/-- The quotient digit: for a divisor `b` with `b * 10 ≤ 2 ^ 53` and a dividend below
`10 * b`, the rounded quotient truncates to the integer quotient. -/
theorem div_nat {a b : Nat} (hb : 0 < b) (hs : b * 10 ≤ 2 ^ 53) (ha : a < 10 * b) :
    toUdigit (div (ofNat a) (ofNat b)) = a / b := by
  have hQ255 : a / b ≤ 255 := by
    have : a / b < 10 := (Nat.div_lt_iff_lt_mul hb).mpr ha
    omega
  have hU : 0 < 2 ^ 1074 := Nat.pow_pos (by norm_num)
  rw [ofNat_eq (show a ≤ 2 ^ 53 by omega), ofNat_eq (show b ≤ 2 ^ 53 by omega)]
  have hbU : ((b * 2 ^ 1074 : Nat) : Int) ≠ 0 := by
    exact_mod_cast (Nat.mul_ne_zero (ne_of_gt hb) (ne_of_gt hU))
  have hbn : ¬ (((b * 2 ^ 1074 : Nat) : Int) < 0) := not_lt.mpr (Int.ofNat_nonneg _)
  rw [div_fin, if_neg hbU, if_neg hbn, Int.natAbs_ofNat]
  rw [cast_unit_mul]
  refine toUdigit_of_bounds (Q := a / b) hQ255 ?_
  -- facts about the unit
  have f1 : (2 : Nat) ^ 1078 = 16 * 2 ^ 1074 := by
    have h4 : (2 : Nat) ^ 4 = 16 := rfl
    rw [← h4, ← pow_add]
  have f2 : (2 : Nat) ^ 50 * 2 ^ 1025 = 2 * 2 ^ 1074 := by
    rw [← pow_add]
    exact pow_succ' 2 1074
  have f3 : 16 * 2 ^ 1074 ≤ 2 ^ 2098 := by
    rw [← f1]
    exact Nat.pow_le_pow_right (by norm_num) (by norm_num)
  have f4 : ∀ k, k ≤ 1025 → 2 ^ k ∣ 2 ^ 1074 :=
    fun k hk => Nat.pow_dvd_pow 2 (le_trans hk (by norm_num))
  have f5 : ∀ k, k ≤ 1025 → 2 ^ k ≤ 2 ^ 1025 :=
    fun k hk => Nat.pow_le_pow_right (by norm_num) hk
  clear hbU hbn
  generalize (2 : Nat) ^ 1074 = U at *
  have hb50 : b < 2 ^ 50 := by
    have : (2 : Nat) ^ 53 = 8 * 2 ^ 50 := by norm_num
    omega
  have hQ : a / b * b ≤ a := Nat.div_mul_le_self a b
  have hQ1 : a < (a / b + 1) * b := by
    have := Nat.lt_succ_self (a / b)
    exact (Nat.div_lt_iff_lt_mul hb).mp this
  have hQ9 : a / b ≤ 9 := by
    have : a / b < 10 := (Nat.div_lt_iff_lt_mul hb).mpr ha
    omega
  have ht : a * U * U / (b * U) < 2 ^ 1078 := by
    rw [Nat.mul_div_mul_right _ _ hU, Nat.div_lt_iff_lt_mul hb, f1]
    have h1 : a * U < 10 * b * U := Nat.mul_lt_mul_of_pos_right ha hU
    have h2 : 10 * b * U ≤ 16 * b * U :=
      Nat.mul_le_mul_right _ (Nat.mul_le_mul_right _ (by norm_num))
    have h3 : 16 * b * U = 16 * U * b := by ring
    omega
  have hk : ilog2 (a * U * U / (b * U)) - 52 ≤ 1025 := by
    have := ilog2_lt_of_lt (by norm_num : 0 < 1078) ht
    omega
  obtain ⟨c, hc⟩ := f4 _ hk
  have hk2 := f5 _ hk
  refine @round_bounds (a * U * U) (b * U) (a / b * U) ((a / b + 1) * U)
    (Nat.mul_pos hb hU) ?_ ?_ (Dvd.dvd.mul_left ⟨c, hc⟩ _) (Dvd.dvd.mul_left ⟨c, hc⟩ _) ?_ ?_
  · calc a / b * U * (b * U) = a / b * b * (U * U) := by ring
      _ ≤ a * (U * U) := Nat.mul_le_mul_right _ hQ
      _ = a * U * U := by ring
  · calc a * U * U = a * (U * U) := by ring
      _ < (a / b + 1) * b * (U * U) := Nat.mul_lt_mul_of_pos_right hQ1 (Nat.mul_pos hU hU)
      _ = (a / b + 1) * U * (b * U) := by ring
  · generalize ilog2 (a * U * U / (b * U)) - 52 = k at hk hk2 ⊢
    rw [gap_factor]
    have h1 : 1 ≤ (a / b + 1) * b - a := Nat.sub_pos_of_lt hQ1
    have h2 : b * 2 ^ k < 2 * U := by
      calc b * 2 ^ k ≤ b * 2 ^ 1025 := Nat.mul_le_mul_left _ hk2
        _ < 2 ^ 50 * 2 ^ 1025 := Nat.mul_lt_mul_of_pos_right hb50 (Nat.pow_pos (by norm_num))
        _ = 2 * U := f2
    calc b * U * 2 ^ k = b * 2 ^ k * U := by ring
      _ < 2 * U * U := Nat.mul_lt_mul_of_pos_right h2 hU
      _ = 2 * (1 * (U * U)) := by ring
      _ ≤ 2 * (((a / b + 1) * b - a) * (U * U)) :=
          Nat.mul_le_mul_left _ (Nat.mul_le_mul_right _ h1)
  · calc (a / b + 1) * U ≤ 16 * U := Nat.mul_le_mul_right _ (by omega)
      _ ≤ 2 ^ 2098 := f3

end Dbl

namespace Dbl

theorem mul_inf_fin (s : Bool) (b : Int) : mul (.inf s) (.fin b)
    = if b = 0 then .nan else .inf (xor s (decide (b < 0))) := rfl

theorem add_inf_fin (s : Bool) (b : Int) : add (.inf s) (.fin b) = .inf s := rfl

/-- Rounding a value of at least one unit gives a positive value or positive infinity. -/
theorem round_pos {a den : Nat} (hden : 0 < den) (h : den ≤ a) :
    (∃ n : Int, 0 < n ∧ round (a : Int) den = .fin n) ∨ round (a : Int) den = .inf false := by
  unfold round
  have hneg : ¬ ((a : Int) < 0) := not_lt.mpr (Int.ofNat_nonneg _)
  simp only [Int.natAbs_ofNat, hneg, if_false, decide_False]
  have h1 : 1 ≤ a / den := (Nat.one_le_div_iff hden).mpr h
  have hk : 2 ^ (ilog2 (a / den) - 52) ≤ a / den :=
    le_trans (Nat.pow_le_pow_right (by norm_num) (Nat.sub_le _ _)) (ilog2_le h1)
  generalize ilog2 (a / den) - 52 = k at hk ⊢
  have hP : 0 < 2 ^ k := Nat.pow_pos (by norm_num)
  generalize 2 ^ k = P at hk hP ⊢
  have hD : den * P ≤ a :=
    le_trans (Nat.mul_le_mul_left _ hk) (Nat.mul_div_le a den)
  have hq : 1 ≤ a / (den * P) := (Nat.one_le_div_iff (Nat.mul_pos hden hP)).mpr hD
  generalize a / (den * P) = q at hq ⊢
  generalize a % (den * P) = r
  generalize den * P = D
  have key : ∀ m, 1 ≤ m →
      (∃ n : Int, 0 < n ∧
        (if 2 ^ 2098 ≤ m * P then Dbl.inf false else Dbl.fin ((m * P : Nat) : Int))
          = Dbl.fin n) ∨
      (if 2 ^ 2098 ≤ m * P then Dbl.inf false else Dbl.fin ((m * P : Nat) : Int))
        = Dbl.inf false := by
    intro m hm
    by_cases c : 2 ^ 2098 ≤ m * P
    · right; rw [if_pos c]
    · left; rw [if_neg c]
      exact ⟨_, by exact_mod_cast Nat.mul_pos hm hP, rfl⟩
  by_cases c1 : 2 * r < D
  · rw [if_pos c1]
    exact key q hq
  · rw [if_neg c1]
    by_cases c2 : D < 2 * r
    · rw [if_pos c2]
      exact key (q + 1) (by omega)
    · rw [if_neg c2]
      exact key (q + q % 2) (by omega)

/-- A positive finite value or positive infinity stays one when an integer of at most
53 bits is added. -/
theorem add_pos_nat {x : Dbl} {B : Nat} (hB : B ≤ 2 ^ 53)
    (hx : (∃ n : Int, 0 < n ∧ x = .fin n) ∨ x = .inf false) :
    (∃ n : Int, 0 < n ∧ add x (ofNat B) = .fin n) ∨ add x (ofNat B) = .inf false := by
  rw [ofNat_eq hB]
  rcases hx with ⟨n, hn, rfl⟩ | rfl
  · rw [add_fin]
    obtain ⟨a, rfl⟩ := Int.eq_ofNat_of_zero_le (le_of_lt hn)
    have e : ((a : Int) + ((B * 2 ^ 1074 : Nat) : Int)) = ((a + B * 2 ^ 1074 : Nat) : Int) := by
      rw [Nat.cast_add]
    rw [e]
    have ha : 0 < a := by exact_mod_cast hn
    exact round_pos Nat.one_pos (Nat.le_add_right_of_le ha)
  · right; rfl

/-- A positive finite value or positive infinity stays one when multiplied by ten. -/
theorem mul_ten_pos {x : Dbl}
    (hx : (∃ n : Int, 0 < n ∧ x = .fin n) ∨ x = .inf false) :
    (∃ n : Int, 0 < n ∧ mul x (ofNat 10) = .fin n) ∨ mul x (ofNat 10) = .inf false := by
  rw [ofNat_eq (show 10 ≤ 2 ^ 53 by norm_num)]
  have hU : 0 < 2 ^ 1074 := Nat.pow_pos (by norm_num)
  rcases hx with ⟨n, hn, rfl⟩ | rfl
  · rw [mul_fin]
    obtain ⟨a, rfl⟩ := Int.eq_ofNat_of_zero_le (le_of_lt hn)
    have e : ((a : Int) * ((10 * 2 ^ 1074 : Nat) : Int)) = ((a * (10 * 2 ^ 1074) : Nat) : Int) := by
      rw [Nat.cast_mul a (10 * 2 ^ 1074)]
    rw [e]
    have ha : 0 < a := by exact_mod_cast hn
    refine round_pos hU ?_
    generalize (2 : Nat) ^ 1074 = U at *
    calc U = 1 * (1 * U) := by rw [Nat.one_mul, Nat.one_mul]
      _ ≤ a * (10 * U) := Nat.mul_le_mul ha (Nat.mul_le_mul_right _ (by norm_num))
  · right
    have hb0 : ((10 * 2 ^ 1074 : Nat) : Int) ≠ 0 := by
      exact_mod_cast (Nat.mul_ne_zero (by norm_num) (ne_of_gt hU))
    have hbn : ¬ (((10 * 2 ^ 1074 : Nat) : Int) < 0) := not_lt.mpr (Int.ofNat_nonneg _)
    rw [mul_inf_fin, if_neg hb0, decide_eq_false hbn]
    rfl

theorem isZero_of_pos {x : Dbl} (hx : (∃ n : Int, 0 < n ∧ x = .fin n) ∨ x = .inf false) :
    x.isZero = false := by
  rcases hx with ⟨n, hn, rfl⟩ | rfl
  · rw [isZero_fin]
    exact beq_false_of_ne (ne_of_gt hn)
  · rfl

theorem ofNat_pos {N : Nat} (h0 : 0 < N) (hN : N ≤ 2 ^ 53) :
    (∃ n : Int, 0 < n ∧ ofNat N = .fin n) ∨ ofNat N = .inf false := by
  left
  rw [ofNat_eq hN]
  exact ⟨_, by exact_mod_cast Nat.mul_pos h0 (Nat.pow_pos (by norm_num)), rfl⟩

end Dbl

/-! ### The divisor accumulator -/

theorem foldl_digits_ge : ∀ (l : List Nat) (N : Nat),
    N ≤ l.foldl (fun acc d => acc * 10 + d) N := by
  intro l
  induction l with
  | nil => intro N; exact le_refl _
  | cons d t ih =>
    intro N
    rw [List.foldl_cons]
    exact le_trans (by omega) (ih (N * 10 + d))

/-- While the value read so far stays within 53 bits, the `double` accumulation
`divisor = divisor * 10 + *it` is exact. -/
theorem foldl_divisor_exact : ∀ (l : List Nat) (N : Nat),
    l.foldl (fun acc d => acc * 10 + d) N ≤ 2 ^ 53 →
    l.foldl (fun acc d => Dbl.add (Dbl.mul acc (Dbl.ofNat 10)) (Dbl.ofNat d)) (Dbl.ofNat N)
      = Dbl.ofNat (l.foldl (fun acc d => acc * 10 + d) N) := by
  intro l
  induction l with
  | nil => intro N _; simp only [List.foldl_nil]
  | cons d t ih =>
    intro N h
    rw [List.foldl_cons] at h
    rw [List.foldl_cons, List.foldl_cons]
    have h1 := le_trans (foldl_digits_ge t (N * 10 + d)) h
    rw [Dbl.mul_nat (by omega) (by norm_num) (by omega), Dbl.add_nat h1]
    exact ih _ h

theorem divisorOf_eq_foldl {y : List Nat} (h : front y ≤ 2 ^ 53) :
    divisorOf y
      = y.foldl (fun acc d => Dbl.add (Dbl.mul acc (Dbl.ofNat 10)) (Dbl.ofNat d)) (Dbl.ofNat 0) := by
  cases y with
  | nil => rfl
  | cons d t =>
    have hd : d ≤ 2 ^ 53 := h
    unfold divisorOf
    rw [List.foldl_cons, Dbl.mul_nat (by omega) (by norm_num) (by omega), Dbl.add_nat (by omega)]
    simp only [front, List.headD_cons, List.tail_cons, Nat.zero_mul, Nat.zero_add]

/-- A divisor of at most 53 bits is held exactly. -/
theorem divisorOf_exact {y : List Nat} (h : val y ≤ 2 ^ 53) :
    divisorOf y = Dbl.ofNat (val y) := by
  have hf : front y ≤ 2 ^ 53 := by
    cases y with
    | nil => exact Nat.zero_le _
    | cons d t =>
      have := foldl_digits_ge t (0 * 10 + d)
      unfold val at h
      rw [List.foldl_cons] at h
      show d ≤ 2 ^ 53
      omega
  rw [divisorOf_eq_foldl hf]
  exact foldl_divisor_exact y 0 h

theorem foldl_divisor_pos : ∀ (l : List Nat) (acc : Dbl), IsDigits l →
    ((∃ n : Int, 0 < n ∧ acc = .fin n) ∨ acc = .inf false) →
    ((∃ n : Int, 0 < n ∧
        l.foldl (fun acc d => Dbl.add (Dbl.mul acc (Dbl.ofNat 10)) (Dbl.ofNat d)) acc = .fin n) ∨
      l.foldl (fun acc d => Dbl.add (Dbl.mul acc (Dbl.ofNat 10)) (Dbl.ofNat d)) acc
        = .inf false) := by
  intro l
  induction l with
  | nil => intro acc _ h; exact h
  | cons d t ih =>
    intro acc hl h
    rw [List.foldl_cons]
    have hd : d ≤ 9 := (isDigits_cons.mp hl).1
    exact ih _ (isDigits_cons.mp hl).2 (Dbl.add_pos_nat (by omega) (Dbl.mul_ten_pos h))

theorem foldl_divisor_ne_zero : ∀ (l : List Nat), IsDigits l → val l ≠ 0 →
    ((∃ n : Int, 0 < n ∧
        l.foldl (fun acc d => Dbl.add (Dbl.mul acc (Dbl.ofNat 10)) (Dbl.ofNat d)) (Dbl.ofNat 0)
          = .fin n) ∨
      l.foldl (fun acc d => Dbl.add (Dbl.mul acc (Dbl.ofNat 10)) (Dbl.ofNat d)) (Dbl.ofNat 0)
        = .inf false) := by
  intro l
  induction l with
  | nil => intro _ h; exact absurd rfl h
  | cons d t ih =>
    intro hl h
    have hd : d ≤ 9 := (isDigits_cons.mp hl).1
    rw [List.foldl_cons, Dbl.mul_nat (by omega) (by norm_num) (by omega),
      Dbl.add_nat (by omega)]
    simp only [Nat.zero_mul, Nat.zero_add]
    by_cases h0 : d = 0
    · subst h0
      refine ih (isDigits_cons.mp hl).2 ?_
      intro hv
      apply h
      rw [val_cons, hv, Nat.zero_mul]
    · exact foldl_divisor_pos t _ (isDigits_cons.mp hl).2
        (Dbl.ofNat_pos (Nat.pos_of_ne_zero h0) (by omega))

/-- The test `divisor == 0` on the accumulated divisor: true for a value of zero. -/
theorem divisorOf_zero {y : List Nat} (h : val y = 0) : (divisorOf y).isZero = true := by
  rw [divisorOf_exact (by rw [h]; exact Nat.zero_le _), h, Dbl.isZero_ofNat (Nat.zero_le _)]
  exact decide_eq_true rfl

/-- The test `divisor == 0` on the accumulated divisor: false for digits of non-zero
value, however long. -/
theorem divisorOf_ne_zero {y : List Nat} (hy : IsDigits y) (h : val y ≠ 0) :
    (divisorOf y).isZero = false := by
  have hf : front y ≤ 2 ^ 53 := by
    cases y with
    | nil => exact Nat.zero_le _
    | cons d t =>
      have hd : d ≤ 9 := (isDigits_cons.mp hy).1
      show d ≤ 2 ^ 53
      omega
  rw [divisorOf_eq_foldl hf]
  exact Dbl.isZero_of_pos (foldl_divisor_ne_zero y hy h)

/-! ### Long division while every accumulator value is an exact integer -/

/-- One step of the long division for a divisor `D` with `D * 10 ≤ 2 ^ 53` and a
remainder below `D`: every `double` operation is exact, the digit is the integer
quotient and the new remainder the integer remainder. -/
theorem divStep_exact {D t : Nat} (hD : 0 < D) (hs : D * 10 ≤ 2 ^ 53) (ht : t < 10 * D) :
    Dbl.toUdigit (Dbl.div (Dbl.ofNat t) (Dbl.ofNat D)) = t / D ∧
      Dbl.sub (Dbl.ofNat t) (Dbl.mul (Dbl.ofNat D) (Dbl.ofNat (t / D))) = Dbl.ofNat (t % D) := by
  have hq : D * (t / D) ≤ t := Nat.mul_div_le t D
  have hq9 : t / D < 10 := (Nat.div_lt_iff_lt_mul hD).mpr ht
  refine ⟨Dbl.div_nat hD hs ht, ?_⟩
  rw [Dbl.mul_nat (by omega) (by omega) (by omega), Dbl.sub_nat (by omega) hq,
    ← Nat.mod_def]

/-- The long-division loop for a divisor `D` with `D * 10 ≤ 2 ^ 53`: quotient digits in
`0..9`, the remainder an integer below the divisor, and `quotient * divisor + remainder`
is the dividend read so far. -/
theorem divLoop_spec {D : Nat} (hD : 0 < D) (hs : D * 10 ≤ 2 ^ 53) :
    ∀ (ds : List Nat) (rem : Nat), IsDigits ds → rem < D →
    ∃ r, (divLoop (Dbl.ofNat D) ds (Dbl.ofNat rem)).2 = Dbl.ofNat r ∧ r < D ∧
      (divLoop (Dbl.ofNat D) ds (Dbl.ofNat rem)).1.length = ds.length ∧
      IsDigits (divLoop (Dbl.ofNat D) ds (Dbl.ofNat rem)).1 ∧
      val (divLoop (Dbl.ofNat D) ds (Dbl.ofNat rem)).1 * D + r
        = rem * 10 ^ ds.length + val ds := by
  intro ds
  induction ds with
  | nil =>
    intro rem _ hr
    simp only [divLoop, List.length_nil, val_nil, pow_zero]
    exact ⟨rem, rfl, hr, trivial, by intro d hd; simp at hd, by omega⟩
  | cons d ds ih =>
    intro rem hds hr
    have hd := (isDigits_cons.mp hds).1
    have ht : rem * 10 + d < 10 * D := by omega
    have e1 : Dbl.add (Dbl.mul (Dbl.ofNat rem) (Dbl.ofNat 10)) (Dbl.ofNat d)
        = Dbl.ofNat (rem * 10 + d) := by
      rw [Dbl.mul_nat (by omega) (by norm_num) (by omega), Dbl.add_nat (by omega)]
    obtain ⟨e2, e3⟩ := divStep_exact hD hs ht
    have hq : (rem * 10 + d) / D < 10 := (Nat.div_lt_iff_lt_mul hD).mpr ht
    obtain ⟨r, i0, i3, i1, i2, i4⟩ := ih ((rem * 10 + d) % D) (isDigits_cons.mp hds).2
      (Nat.mod_lt _ hD)
    simp only [divLoop, e1, e2, e3]
    refine ⟨r, i0, i3, by simp [i1], isDigits_cons.mpr ⟨by omega, i2⟩, ?_⟩
    rw [val_cons, val_cons, i1, List.length_cons, pow_succ]
    have e := Nat.div_add_mod (rem * 10 + d) D
    generalize (rem * 10 + d) / D = q at *
    generalize (rem * 10 + d) % D = r' at *
    generalize divLoop (Dbl.ofNat D) ds (Dbl.ofNat r') = res at *
    generalize 10 ^ ds.length = P at *
    have e1 : (q * P + val res.1) * D + r = (D * q + r') * P + val ds := by
      calc (q * P + val res.1) * D + r = q * P * D + (val res.1 * D + r) := by ring
        _ = q * P * D + (r' * P + val ds) := by rw [i4]
        _ = (D * q + r') * P + val ds := by ring
    rw [e1, e]; ring

namespace imath

/-- What `divmod` returns for a divisor with `val y * 10 ≤ 2 ^ 53`: the normalized
quotient digits and the integer remainder. -/
theorem divmod_spec {x y : List Nat} (hx : IsDigits x) (hy : 0 < val y)
    (hs : val y * 10 ≤ 2 ^ 53) :
    ∃ q r, divmod x y = .ok (q, Dbl.ofNat r) ∧ IsDigits q ∧ IntNorm q ∧ r < val y ∧
      val q * val y + r = val x := by
  obtain ⟨r, h0, h3, _, h2, h4⟩ := divLoop_spec hy hs x 0 hx hy
  have hz : (Dbl.ofNat (val y)).isZero = false := by
    rw [Dbl.isZero_ofNat (by omega)]
    exact decide_eq_false (by omega)
  refine ⟨lstrip_zeros (divLoop (Dbl.ofNat (val y)) x (Dbl.ofNat 0)).1, r, ?_,
    isDigits_lstrip_zeros h2, intNorm_lstrip_zeros _, h3, ?_⟩
  · unfold divmod
    simp only [divisorOf_exact (show val y ≤ 2 ^ 53 by omega), hz, h0]
    rfl
  · rw [val_lstrip_zeros, h4]; simp

theorem divmod_zero {x y : List Nat} (hy : val y = 0) :
    divmod x y = .error Err.division_by_zero := by
  unfold divmod
  simp only [divisorOf_zero hy, if_true]

/-- The only failure of `divmod` is the zero divisor. -/
theorem divmod_ok {y : List Nat} (x : List Nat) (hy : IsDigits y) (h : val y ≠ 0) :
    ∃ r, divmod x y = .ok r := by
  unfold divmod
  simp only [divisorOf_ne_zero hy h]
  exact ⟨_, rfl⟩

theorem iadd_eq (x y : List Nat) : iadd x y = (fmath.iadd x [] y []).1 := by
  simp [iadd, fmath.iadd, addLoop, padRight]

theorem iadd_spec {x y : List Nat} (hx : IsDigits x) (hy : IsDigits y) :
    IsDigits (iadd x y) ∧ val (iadd x y) = val x + val y ∧
      (IntNorm x → IntNorm y → IntNorm (iadd x y)) := by
  obtain ⟨h1, _, h3, h4, h5⟩ := @fmath_iadd_spec x [] y [] hx
    (by intro d hd; simp at hd) hy (by intro d hd; simp at hd)
  rw [iadd_eq]
  refine ⟨h1, ?_, h5⟩
  have e : (fmath.iadd x [] y []).2 = [] := List.length_eq_zero.mp (by simpa using h3)
  rw [e] at h4
  simpa [sv, padRight, val_nil] using h4

end imath

/-! ### Decimal division -/

theorem mag2_nil (x : List Nat) : mag2 x [] = (val x : ℚ) := by simp [mag2, val_nil]

theorem mag2_zero_frac (x : List Nat) : mag2 x [0] = (val x : ℚ) := by
  simp [mag2, val_singleton]

theorem val_append_padRight (x : List Nat) {e : List Nat} {k : Nat} (h : e.length ≤ k) :
    val (x ++ padRight e k) = sv k x e := by
  rw [val_append, length_padRight, max_eq_right h]; rfl

theorem scaleOperands_eq (x fx y fy : List Nat) :
    fmath.scaleOperands x fx y fy
      = (x ++ padRight (if is_zero fx then [] else fx)
            (max (if is_zero fx then [] else fx).length (if is_zero fy then [] else fy).length),
          y ++ padRight (if is_zero fy then [] else fy)
            (max (if is_zero fx then [] else fx).length
              (if is_zero fy then [] else fy).length)) := by
  have hx : (if (if is_zero fx = true then 0 else fx.length) ≠ 0 then x ++ fx else x)
      = x ++ (if is_zero fx then [] else fx) := by
    by_cases h : is_zero fx = true
    · simp [h]
    · cases fx <;> simp [h]
  have hy : (if (if is_zero fy = true then 0 else fy.length) ≠ 0 then y ++ fy else y)
      = y ++ (if is_zero fy then [] else fy) := by
    by_cases h : is_zero fy = true
    · simp [h]
    · cases fy <;> simp [h]
  have lx : (if is_zero fx = true then 0 else fx.length)
      = (if is_zero fx then [] else fx).length := by
    split <;> simp
  have ly : (if is_zero fy = true then 0 else fy.length)
      = (if is_zero fy then [] else fy).length := by
    split <;> simp
  unfold fmath.scaleOperands
  simp only [hx, hy]
  simp only [lx, ly]
  generalize (if is_zero fx then [] else fx) = ex
  generalize (if is_zero fy then [] else fy) = ey
  unfold padRight
  by_cases h1 : ex.length < ey.length
  · rw [if_pos h1, max_eq_right (by omega)]
    simp
  · rw [if_neg h1]
    by_cases h2 : ex.length > ey.length
    · rw [if_pos h2, max_eq_left (by omega)]
      simp
    · rw [if_neg h2]
      have : ex.length = ey.length := by omega
      simp [this]

/-- Both operands of a decimal division are scaled by the same power of ten. -/
theorem scaleOperands_spec {x fx y fy : List Nat} (hx : IsDigits x) (hfx : IsDigits fx)
    (hy : IsDigits y) (hfy : IsDigits fy) :
    ∃ k, IsDigits (fmath.scaleOperands x fx y fy).1 ∧
      IsDigits (fmath.scaleOperands x fx y fy).2 ∧
      ((val (fmath.scaleOperands x fx y fy).1 : Nat) : ℚ) = mag2 x fx * (10 : ℚ) ^ k ∧
      ((val (fmath.scaleOperands x fx y fy).2 : Nat) : ℚ) = mag2 y fy * (10 : ℚ) ^ k := by
  rw [scaleOperands_eq]
  have ex : ∀ (x fx : List Nat), mag2 x (if is_zero fx then [] else fx) = mag2 x fx := by
    intro x fx
    by_cases h : is_zero fx = true
    · rw [if_pos h, is_zero_iff.mp h, mag2_nil, mag2_zero_frac]
    · rw [if_neg h]
  have dx : ∀ fx : List Nat, IsDigits fx → IsDigits (if is_zero fx then [] else fx) := by
    intro fx h
    split
    · intro d hd; simp at hd
    · exact h
  refine ⟨max (if is_zero fx then [] else fx).length (if is_zero fy then [] else fy).length,
    isDigits_append.mpr ⟨hx, isDigits_padRight (dx fx hfx) _⟩,
    isDigits_append.mpr ⟨hy, isDigits_padRight (dx fy hfy) _⟩, ?_, ?_⟩
  · simp only []
    rw [val_append_padRight x (le_max_left _ _), sv_cast x (le_max_left _ _), ex]
  · simp only []
    rw [val_append_padRight y (le_max_right _ _), sv_cast y (le_max_right _ _), ex]

/-! ### Floor division and modulus -/

namespace mnum

theorem WeakNorm.mag_eq_zero_iff {a : mnum} (h : WeakNorm a) : a.mag = 0 ↔ ZeroMag a := by
  constructor
  · exact h.eq_zero
  · rintro ⟨h1, h2⟩
    unfold mag; rw [h1, h2]; exact mag2_zero_zero

theorem value_of_frac_zero {q : mnum} (h : q.fraction = [0]) : q.value = (q.int_value : ℚ) := by
  unfold value int_value mag
  rw [h, mag2_zero_frac]
  cases q.sign <;> simp

/-- While ten times the scaled divisor is at most `2 ^ 53`, the method `floor_div`
returns the floor of the rational quotient, as a normalized value with fraction `[0]`. -/
theorem floor_div_spec {a b : mnum} (ha : WeakNorm a) (hb : WeakNorm b) (hb0 : ¬ ZeroMag b)
    (hex : val (fmath.scaleOperands a.integer a.fraction b.integer b.fraction).2 * 10
      ≤ 2 ^ 53) :
    ∃ q, floor_div a b = .ok q ∧ Normalized q ∧ q.fraction = [0] ∧
      q.value = ((⌊a.value / b.value⌋ : ℤ) : ℚ) := by
  obtain ⟨sa, x, fx⟩ := a
  obtain ⟨sb, y, fy⟩ := b
  simp only at hex
  have hbm : mag2 y fy ≠ 0 := fun h => hb0 (hb.mag_eq_zero_iff.mp h)
  have hbp : 0 < mag2 y fy := lt_of_le_of_ne (mag2_nonneg _ _) (Ne.symm hbm)
  obtain ⟨k, d1, d2, hA, hB⟩ := scaleOperands_spec ha.1 ha.2.1 hb.1 hb.2.1
  simp only at d1 d2 hA hB
  have hBpos : 0 < val (fmath.scaleOperands x fx y fy).2 := by
    have : (0 : ℚ) < ((val (fmath.scaleOperands x fx y fy).2 : Nat) : ℚ) := by
      rw [hB]; exact mul_pos hbp (pow10_pos k)
    exact_mod_cast this
  obtain ⟨q, r, hdm, dq, nq, hr, hqr⟩ := imath.divmod_spec d1 hBpos hex
  have hdiv : fmath.divmod x fx y fy = .ok (q, Dbl.ofNat r) := hdm
  have hz : (Dbl.ofNat r).isZero = decide (r = 0) := Dbl.isZero_ofNat (by omega)
  generalize val (fmath.scaleOperands x fx y fy).1 = A at *
  generalize val (fmath.scaleOperands x fx y fy).2 = B at *
  have hBq : (0 : ℚ) < (B : ℚ) := by exact_mod_cast hBpos
  have hratio : mag2 x fx / mag2 y fy = (A : ℚ) / (B : ℚ) := by
    rw [hA, hB]
    have := pow10_pos k
    field_simp
    ring
  have hqrq : (A : ℚ) = (val q : ℚ) * (B : ℚ) + (r : ℚ) := by exact_mod_cast hqr.symm
  have hrq : (r : ℚ) < (B : ℚ) := by exact_mod_cast hr
  have hr0 : (0 : ℚ) ≤ (r : ℚ) := by positivity
  have f1 : (val q : ℚ) ≤ (A : ℚ) / (B : ℚ) := by
    rw [le_div_iff₀ hBq]; linarith
  have f2 : (A : ℚ) / (B : ℚ) < (val q : ℚ) + 1 := by
    rw [div_lt_iff₀ hBq]; linarith
  by_cases hs : sa = sb
  · refine ⟨⟨false, q, [0]⟩, ?_, ⟨dq, isDigits_zero, nq, fracNorm_zero⟩, rfl, ?_⟩
    · simp [floor_div, fmath.signed_floor_div, hdiv, hs]
    · have hv : value ⟨sa, x, fx⟩ / value ⟨sb, y, fy⟩ = (A : ℚ) / (B : ℚ) := by
        rw [← hratio]
        subst hs
        cases sa <;> simp [value, mag]
      rw [hv, value_of_frac_zero rfl]
      have : ⌊(A : ℚ) / (B : ℚ)⌋ = (val q : ℤ) := by
        rw [Int.floor_eq_iff]; push_cast; exact ⟨f1, f2⟩
      rw [this]; simp [int_value]
  · have hv : value ⟨sa, x, fx⟩ / value ⟨sb, y, fy⟩ = -((A : ℚ) / (B : ℚ)) := by
      rw [← hratio]
      cases sa <;> cases sb <;> simp [value, mag] at hs ⊢
      · rw [div_neg]
      · rw [neg_div]
    by_cases hr1 : r = 0
    · refine ⟨⟨true, q, [0]⟩, ?_, ⟨dq, isDigits_zero, nq, fracNorm_zero⟩, rfl, ?_⟩
      · have hz1 : (Dbl.ofNat r).isZero = true := by rw [hz]; exact decide_eq_true hr1
        simp [floor_div, fmath.signed_floor_div, hdiv, hs, hz1]
      · rw [hv, value_of_frac_zero rfl]
        have : ⌊-((A : ℚ) / (B : ℚ))⌋ = -(val q : ℤ) := by
          rw [Int.floor_eq_iff]; push_cast
          have : (A : ℚ) / (B : ℚ) = (val q : ℚ) := by
            rw [div_eq_iff (ne_of_gt hBq), hqrq, hr1]; simp
          rw [this]; constructor <;> linarith
        rw [this]; simp [int_value]
    · obtain ⟨i1, i2, i3⟩ := imath.iadd_spec (y := [1]) dq (by decide)
      refine ⟨⟨true, imath.iadd q [1], [0]⟩, ?_,
        ⟨i1, isDigits_zero, i3 nq (by decide), fracNorm_zero⟩, rfl, ?_⟩
      · have hz0 : (Dbl.ofNat r).isZero = false := by rw [hz]; exact decide_eq_false hr1
        simp [floor_div, fmath.signed_floor_div, hdiv, hs, hz0]
      · rw [hv, value_of_frac_zero rfl]
        have hrp : (0 : ℚ) < (r : ℚ) := by
          have : 0 < r := Nat.pos_of_ne_zero hr1
          exact_mod_cast this
        have f3 : (val q : ℚ) < (A : ℚ) / (B : ℚ) := by
          rw [lt_div_iff₀ hBq]; linarith
        have : ⌊-((A : ℚ) / (B : ℚ))⌋ = -((val q : ℤ) + 1) := by
          rw [Int.floor_eq_iff]; push_cast
          constructor <;> linarith
        rw [this]
        simp only [int_value, i2, val_singleton, if_true]
        push_cast; ring

theorem operator_mod_eq (a b : mnum) :
    operator_mod a b = match floor_div a b with
      | .error e => .error e
      | .ok q => operator_minus a (operator_mul q b) := by
  unfold operator_mod floor_div fmath.signed_imod operator_minus operator_mul
  cases fmath.signed_floor_div a.integer a.fraction b.integer b.fraction a.sign b.sign with
  | error e => rfl
  | ok div => rfl

/-- While ten times the scaled divisor is at most `2 ^ 53`, binary `operator%` returns
`a - b * floor_div(a, b)`. -/
theorem operator_mod_spec {a b : mnum} (ha : WeakNorm a) (hb : WeakNorm b) (hb0 : ¬ ZeroMag b)
    (hex : val (fmath.scaleOperands a.integer a.fraction b.integer b.fraction).2 * 10
      ≤ 2 ^ 53) :
    ∃ q r, floor_div a b = .ok q ∧ Normalized q ∧ q.fraction = [0] ∧
      q.value = ((⌊a.value / b.value⌋ : ℤ) : ℚ) ∧
      operator_mod a b = .ok r ∧ WeakNorm r ∧ r.value = a.value - b.value * q.value := by
  obtain ⟨q, h1, h2, h3, h4⟩ := floor_div_spec ha hb hb0 hex
  obtain ⟨m1, _, _, m4⟩ := operator_mul_spec h2.weakNorm hb
  obtain ⟨r, r1, r2, r3⟩ := operator_minus_spec ha m1.weakNorm
  refine ⟨q, r, h1, h2, h3, h4, ?_, r2, ?_⟩
  · rw [operator_mod_eq, h1]; exact r1
  · rw [r3, m4]; ring

end mnum

/-! ### True division -/

namespace imath

theorem true_div_zero {x y : List Nat} (hy : val y = 0) :
    true_div x y = .error Err.division_by_zero := by
  unfold true_div
  simp only [divisorOf_zero hy, if_true]

/-- The only failure of `true_div` is the zero divisor. -/
theorem true_div_ok {y : List Nat} (x : List Nat) (hy : IsDigits y) (h : val y ≠ 0) :
    ∃ r, true_div x y = .ok r := by
  unfold true_div
  simp only [divisorOf_ne_zero hy h, Bool.false_eq_true, if_false]
  split_ifs <;> exact ⟨_, rfl⟩

/-- When the divisor divides the dividend and `val y * 10 ≤ 2 ^ 53`, `true_div` returns
the normalized quotient with fraction `[0]`. -/
theorem true_div_exact {x y : List Nat} (hx : IsDigits x) (hy : 0 < val y)
    (hs : val y * 10 ≤ 2 ^ 53) (hd : val y ∣ val x) :
    ∃ q, true_div x y = .ok (q, [0]) ∧ IsDigits q ∧ IntNorm q ∧ val q * val y = val x := by
  obtain ⟨r, h0, h3, _, h2, h4⟩ := divLoop_spec hy hs x 0 hx hy
  have hz : (Dbl.ofNat (val y)).isZero = false := by
    rw [Dbl.isZero_ofNat (by omega)]
    exact decide_eq_false (by omega)
  have hr : r = 0 := by
    simp only [Nat.zero_mul, Nat.zero_add] at h4
    obtain ⟨c, hc⟩ := hd
    have h5 : r = val y * (c - val (divLoop (Dbl.ofNat (val y)) x (Dbl.ofNat 0)).1) := by
      rw [Nat.mul_sub, ← hc, ← h4, Nat.mul_comm]; omega
    by_contra hne
    have hpos : 0 < c - val (divLoop (Dbl.ofNat (val y)) x (Dbl.ofNat 0)).1 := by
      rcases Nat.eq_zero_or_pos (c - val (divLoop (Dbl.ofNat (val y)) x (Dbl.ofNat 0)).1)
        with h | h
      · rw [h, Nat.mul_zero] at h5; exact absurd h5 hne
      · exact h
    have : val y * 1 ≤ val y * (c - val (divLoop (Dbl.ofNat (val y)) x (Dbl.ofNat 0)).1) :=
      Nat.mul_le_mul_left _ hpos
    omega
  have hrz : (Dbl.ofNat r).isZero = true := by
    rw [Dbl.isZero_ofNat (by omega)]
    exact decide_eq_true hr
  refine ⟨lstrip_zeros (divLoop (Dbl.ofNat (val y)) x (Dbl.ofNat 0)).1, ?_,
    isDigits_lstrip_zeros h2, intNorm_lstrip_zeros _, ?_⟩
  · unfold true_div
    simp only [divisorOf_exact (show val y ≤ 2 ^ 53 by omega), hz, h0, hrz]
    rfl
  · rw [val_lstrip_zeros]
    simp only [Nat.zero_mul, Nat.zero_add] at h4
    omega

end imath

namespace mnum

/-- The scaled divisor is zero exactly for a divisor of zero magnitude. -/
theorem scaled_divisor_eq_zero_iff {a b : mnum} (ha : WeakNorm a) (hb : WeakNorm b) :
    val (fmath.scaleOperands a.integer a.fraction b.integer b.fraction).2 = 0 ↔ ZeroMag b := by
  obtain ⟨k, _, _, _, hB⟩ := scaleOperands_spec ha.1 ha.2.1 hb.1 hb.2.1
  rw [← hb.mag_eq_zero_iff, ← Nat.cast_eq_zero (R := ℚ), hB]
  constructor
  · intro h
    rcases mul_eq_zero.mp h with h | h
    · exact h
    · exact absurd h (ne_of_gt (pow10_pos k))
  · intro h
    have h' : mag2 b.integer b.fraction = 0 := h
    rw [h', zero_mul]

/-- All four division operations raise division by zero on a divisor of zero magnitude. -/
theorem division_by_zero_of_zeroMag {a b : mnum} (ha : WeakNorm a) (hb : WeakNorm b)
    (hz : ZeroMag b) :
    operator_div a b = .error Err.division_by_zero ∧ div a b = .error Err.division_by_zero ∧
      floor_div a b = .error Err.division_by_zero ∧
      operator_mod a b = .error Err.division_by_zero := by
  have h0 := (scaled_divisor_eq_zero_iff ha hb).mpr hz
  have h1 : fmath.true_div a.integer a.fraction b.integer b.fraction
      = .error Err.division_by_zero := imath.true_div_zero h0
  have h2 : fmath.divmod a.integer a.fraction b.integer b.fraction
      = .error Err.division_by_zero := imath.divmod_zero h0
  have h3 : floor_div a b = .error Err.division_by_zero := by
    simp only [floor_div, fmath.signed_floor_div, h2]
  refine ⟨by simp only [operator_div, h1], by simp only [div, h2], h3, ?_⟩
  rw [operator_mod_eq, h3]

/-- True division and truncating division return a value on a divisor of non-zero
magnitude. -/
theorem division_ok_of_not_zeroMag {a b : mnum} (ha : WeakNorm a) (hb : WeakNorm b)
    (hz : ¬ ZeroMag b) : (∃ c, operator_div a b = .ok c) ∧ (∃ c, div a b = .ok c) := by
  have h0 : 0 < val (fmath.scaleOperands a.integer a.fraction b.integer b.fraction).2 :=
    Nat.pos_of_ne_zero (fun h => hz ((scaled_divisor_eq_zero_iff ha hb).mp h))
  obtain ⟨k, _, d2, _, _⟩ := scaleOperands_spec ha.1 ha.2.1 hb.1 hb.2.1
  obtain ⟨r, hr⟩ := imath.true_div_ok
    (fmath.scaleOperands a.integer a.fraction b.integer b.fraction).1 d2 (by omega)
  obtain ⟨r', hq⟩ := imath.divmod_ok
    (fmath.scaleOperands a.integer a.fraction b.integer b.fraction).1 d2 (by omega)
  have h1 : fmath.true_div a.integer a.fraction b.integer b.fraction = .ok r := hr
  have h2 : fmath.divmod a.integer a.fraction b.integer b.fraction = .ok r' := hq
  exact ⟨⟨⟨xor a.sign b.sign, r.1, r.2⟩, by simp only [operator_div, h1]⟩,
    ⟨⟨xor a.sign b.sign, r'.1, [0]⟩, by simp only [div, h2]⟩⟩

end mnum

namespace mnum

theorem mag_ratio_scaled {a b : mnum} (ha : WeakNorm a) (hb : WeakNorm b) (hz : ¬ ZeroMag b) :
    IsDigits (fmath.scaleOperands a.integer a.fraction b.integer b.fraction).1 ∧
      0 < val (fmath.scaleOperands a.integer a.fraction b.integer b.fraction).2 ∧
      a.mag / b.mag
        = (val (fmath.scaleOperands a.integer a.fraction b.integer b.fraction).1 : ℚ)
          / (val (fmath.scaleOperands a.integer a.fraction b.integer b.fraction).2 : ℚ) := by
  obtain ⟨k, d1, _, hA, hB⟩ := scaleOperands_spec ha.1 ha.2.1 hb.1 hb.2.1
  have h0 : 0 < val (fmath.scaleOperands a.integer a.fraction b.integer b.fraction).2 :=
    Nat.pos_of_ne_zero (fun h => hz ((scaled_divisor_eq_zero_iff ha hb).mp h))
  refine ⟨d1, h0, ?_⟩
  have hbm : b.mag ≠ 0 := fun h => hz (hb.mag_eq_zero_iff.mp h)
  rw [hA, hB]
  have := pow10_pos k
  unfold mag at hbm ⊢
  field_simp
  ring

theorem value_div_eq (a b : mnum) :
    a.value / b.value = (if xor a.sign b.sign then -1 else 1) * (a.mag / b.mag) := by
  unfold value
  cases a.sign <;> cases b.sign <;> simp [neg_div, div_neg]

/-- True division of an exact quotient while ten times the scaled divisor is at most
`2 ^ 53`: fraction `[0]`, the normalized digits of the quotient of the magnitudes, sign
the XOR of the signs. -/
theorem operator_div_exact {a b : mnum} (ha : WeakNorm a) (hb : WeakNorm b) (hz : ¬ ZeroMag b)
    (hex : val (fmath.scaleOperands a.integer a.fraction b.integer b.fraction).2 * 10
      ≤ 2 ^ 53)
    (hn : ∃ n : ℤ, a.value / b.value = (n : ℚ)) :
    ∃ c, operator_div a b = .ok c ∧ Normalized c ∧ c.fraction = [0] ∧
      c.sign = xor a.sign b.sign ∧ (val c.integer : ℚ) = a.mag / b.mag ∧
      c.value = a.value / b.value := by
  obtain ⟨d1, h0, hratio⟩ := mag_ratio_scaled ha hb hz
  obtain ⟨n, hn⟩ := hn
  have habs : a.mag / b.mag = ((n.natAbs : ℕ) : ℚ) := by
    rw [← abs_value a, ← abs_value b, ← abs_div, hn, Nat.cast_natAbs, Int.cast_abs]
  have hdvd : val (fmath.scaleOperands a.integer a.fraction b.integer b.fraction).2
      ∣ val (fmath.scaleOperands a.integer a.fraction b.integer b.fraction).1 := by
    refine ⟨n.natAbs, ?_⟩
    have hB : ((val (fmath.scaleOperands a.integer a.fraction b.integer b.fraction).2 : ℕ) : ℚ)
        ≠ 0 := by exact_mod_cast (ne_of_gt h0)
    have h1 := hratio.symm.trans habs
    rw [div_eq_iff hB] at h1
    have h2 : ((val (fmath.scaleOperands a.integer a.fraction b.integer b.fraction).1 : ℕ) : ℚ)
        = ((val (fmath.scaleOperands a.integer a.fraction b.integer b.fraction).2 * n.natAbs
            : ℕ) : ℚ) := by
      rw [h1]; push_cast; ring
    exact_mod_cast h2
  obtain ⟨q, hq, dq, nq, hv⟩ := imath.true_div_exact d1 h0 hex hdvd
  have hfd : fmath.true_div a.integer a.fraction b.integer b.fraction = .ok (q, [0]) := hq
  have hqv : (val q : ℚ) = a.mag / b.mag := by
    rw [hratio]
    have hB : ((val (fmath.scaleOperands a.integer a.fraction b.integer b.fraction).2 : ℕ) : ℚ)
        ≠ 0 := by exact_mod_cast (ne_of_gt h0)
    rw [eq_div_iff hB]
    exact_mod_cast hv
  refine ⟨⟨xor a.sign b.sign, q, [0]⟩, by simp only [operator_div, hfd],
    ⟨dq, isDigits_zero, nq, fracNorm_zero⟩, rfl, rfl, hqv, ?_⟩
  rw [value_div_eq, ← hqv]
  unfold value mag
  simp only [mag2_zero_frac]
  split <;> simp

end mnum

/-! ### Power -/

theorem sv_zero_nil (x : List Nat) : sv 0 x [] = val x := by
  simp [sv, padRight, val_nil]

theorem isDigits_nil : IsDigits [] := by intro d hd; simp at hd

theorem isDigits_one : IsDigits [1] := by decide

theorem intNorm_one : IntNorm [1] := by decide

theorem front_eq_zero_iff {x : List Nat} (nx : IntNorm x) : front x = 0 ↔ val x = 0 := by
  constructor
  · intro h; rw [nx.2 h]; rfl
  · intro h; rw [intNorm_val_zero nx h]; rfl

namespace imath

theorem isub_eq_fmath (x y : List Nat) (c : Int) :
    isub x y c = match fmath.isub x [] y [] c c with
      | .error e => .error e
      | .ok r => .ok r.1 := by
  unfold isub fmath.isub
  by_cases hc : c = 0
  · simp [hc]
  · simp only [hc, and_self, if_false, List.length_nil, max_self, padRight, Nat.sub_self,
      List.replicate_zero, List.append_nil, List.reverse_nil, subLoop, ite_self]
    split <;> split_ifs <;> rfl

/-- Integer `isub` with `comp = cmp(x, y)` on normalized operands: no assertion fires and
the result is the normalized difference of the larger and the smaller operand. -/
theorem isub_spec {x y : List Nat} (hx : IsDigits x) (hy : IsDigits y) (nx : IntNorm x)
    (ny : IntNorm y) :
    ∃ x', isub x y (cmp x y) = .ok x' ∧ IsDigits x' ∧ IntNorm x' ∧
      val x' + min (val x) (val y) = max (val x) (val y) := by
  obtain ⟨x', fx', hok, d1, _, n1, hz, hnz⟩ :=
    @fmath_isub_spec x [] y [] hx isDigits_nil hy isDigits_nil nx ny
  have hc : (if cmp x y = 0 then fcmp [] [] else cmp x y) = cmp x y := by
    split
    · next h => rw [h]; rfl
    · rfl
  rw [hc] at hok
  simp only [List.length_nil, max_self, sv_zero_nil, pow_zero, Nat.mul_one] at hz hnz
  refine ⟨x', by rw [isub_eq_fmath, hok], d1, n1, ?_⟩
  by_cases he : val x = val y
  · obtain ⟨e1, _⟩ := hz he
    rw [e1, he, val_singleton]; simp
  · obtain ⟨hl, hv⟩ := hnz he
    rw [List.length_eq_zero.mp hl, val_nil] at hv
    simpa using hv

/-- The exponent loop of `power` terminates within `val exp + 1` tests of its condition
and multiplies `result` by `base` exactly `val exp` times. -/
theorem powerLoop_spec {base : List Nat} (hb : IsDigits base) : ∀ (fuel : Nat)
    (exp result : List Nat), IsDigits exp → IntNorm exp → val exp < fuel → IsDigits result →
    IntNorm result →
    ∃ out, powerLoop base fuel exp result = .ok out ∧ IsDigits out ∧ IntNorm out ∧
      val out = val result * val base ^ val exp := by
  intro fuel
  induction fuel with
  | zero => intro exp result _ _ h; omega
  | succ fuel ih =>
    intro exp result he ne hf hr nr
    unfold powerLoop
    by_cases h0 : front exp = 0
    · rw [if_pos h0]
      refine ⟨result, rfl, hr, nr, ?_⟩
      rw [(front_eq_zero_iff ne).mp h0]; simp
    · rw [if_neg h0]
      have hpos : 0 < val exp :=
        Nat.pos_of_ne_zero (fun h => h0 ((front_eq_zero_iff ne).mpr h))
      obtain ⟨exp', h1, h2, h3, h4⟩ := isub_spec he isDigits_one ne intNorm_one
      rw [val_singleton] at h4
      have h5 : val exp' + 1 = val exp := by
        rw [Nat.min_eq_right (by omega), Nat.max_eq_left (by omega)] at h4
        exact h4
      obtain ⟨m1, m2, m3⟩ := mul_spec hr hb
      obtain ⟨out, o1, o2, o3, o4⟩ := ih exp' (mul result base) h2 h3 (by omega) m1 m2
      refine ⟨out, by simp only [h1, o1], o2, o3, ?_⟩
      rw [o4, m3, ← h5, pow_succ]; ring

end imath

namespace fmath

/-- The exponent loop of the fractional-base branch of `signed_power` terminates and
multiplies the running product by the base exactly `val exp` times. -/
theorem powerLoop_frac_spec {x fx : List Nat} (hx : IsDigits x) (hfx : IsDigits fx)
    (nx : IntNorm x) : ∀ (fuel : Nat) (exp : List Nat) (res : List Nat × List Nat),
    IsDigits exp → IntNorm exp → val exp < fuel → IsDigits res.1 → IsDigits res.2 →
    IntNorm res.1 → res.2 ≠ [] →
    ∃ out, powerLoop x fx fuel exp res = .ok out ∧ IsDigits out.1 ∧ IsDigits out.2 ∧
      IntNorm out.1 ∧ out.2 ≠ [] ∧
      mag2 out.1 out.2 = mag2 res.1 res.2 * mag2 x fx ^ val exp := by
  intro fuel
  induction fuel with
  | zero => intro exp res _ _ h; omega
  | succ fuel ih =>
    intro exp res he ne hf hr1 hr2 nr er
    unfold powerLoop
    by_cases h0 : front exp = 0
    · rw [if_pos h0]
      refine ⟨res, rfl, hr1, hr2, nr, er, ?_⟩
      rw [(front_eq_zero_iff ne).mp h0]; simp
    · rw [if_neg h0]
      have hpos : 0 < val exp :=
        Nat.pos_of_ne_zero (fun h => h0 ((front_eq_zero_iff ne).mpr h))
      obtain ⟨exp', h1, h2, h3, h4⟩ := imath.isub_spec he isDigits_one ne intNorm_one
      rw [val_singleton] at h4
      have h5 : val exp' + 1 = val exp := by
        rw [Nat.min_eq_right (by omega), Nat.max_eq_left (by omega)] at h4
        exact h4
      obtain ⟨m1, m2, m3, m4, m5⟩ := imul_spec hr1 hr2 hx hfx nr nx
      obtain ⟨out, o1, o2, o3, o4, o5, o6⟩ := ih exp' (imul res.1 res.2 x fx) h2 h3
        (by omega) m1 m2 m3 m4.1
      refine ⟨out, by simp only [h1, o1], o2, o3, o4, o5, ?_⟩
      rw [o6, m5, ← h5, pow_succ]; ring

end fmath

/-! ### Signed power -/

theorem fmath_true_div_int (x y : List Nat) :
    fmath.true_div x [0] y [0] = imath.true_div x y := by
  simp [fmath.true_div, fmath.scaleOperands, is_zero, front]

theorem is_zero_eq_false {v : List Nat} (h : v ≠ [0]) : is_zero v = false := by
  cases hz : is_zero v
  · rfl
  · exact absurd (is_zero_iff.mp hz) h

/-- Non-zero base and exponent at least one: the positive-exponent call returns the
power `P`, and the negative-exponent call is the true division of `1` by `P`. -/
theorem signed_power_pos {x fx y : List Nat} (hx : IsDigits x) (hfx : IsDigits fx)
    (hy : IsDigits y) (nx : IntNorm x) (ny : IntNorm y) (efx : fx ≠ [])
    (hb0 : ¬ (x = [0] ∧ fx = [0])) (he : 1 ≤ val y) {fuel : Nat} (hf : val y < fuel)
    (xsign : Bool) :
    ∃ P : List Nat × List Nat,
      fmath.signed_power fuel x fx y [0] xsign false = .ok P ∧
      fmath.signed_power fuel x fx y [0] xsign true = fmath.true_div [1] [0] P.1 P.2 ∧
      IsDigits P.1 ∧ IsDigits P.2 ∧ IntNorm P.1 ∧ P.2 ≠ [] ∧
      mag2 P.1 P.2 = mag2 x fx ^ val y := by
  have hy0 : y ≠ [0] := by intro h; rw [h, val_singleton] at he; omega
  have hzy : is_zero y = false := is_zero_eq_false hy0
  have hz0 : is_zero [0] = true := rfl
  by_cases hfz : fx = [0]
  · subst hfz
    have hx0 : x ≠ [0] := fun h => hb0 ⟨h, rfl⟩
    have hzx : is_zero x = false := is_zero_eq_false hx0
    obtain ⟨pw, p1, p2, p3, p4⟩ := imath.powerLoop_spec hx fuel y [1] hy ny hf isDigits_one
      intNorm_one
    have hp : imath.power fuel x y = .ok pw := p1
    refine ⟨(pw, [0]), ?_, ?_, p2, isDigits_zero, p3, by simp, ?_⟩
    · simp [fmath.signed_power, imath.signed_power, hz0, hzx, hzy, hp]
    · simp [fmath.signed_power, imath.signed_power, hz0, hzx, hzy, hp, fmath_true_div_int]
    · rw [mag2_zero_frac, mag2_zero_frac, p4, val_singleton]; push_cast; ring
  · have hzf : is_zero fx = false := is_zero_eq_false hfz
    obtain ⟨out, o1, o2, o3, o4, o5, o6⟩ := fmath.powerLoop_frac_spec hx hfx nx fuel y ([1], [0]) hy
      ny hf isDigits_one isDigits_zero intNorm_one (by simp)
    refine ⟨out, ?_, ?_, o2, o3, o4, o5, ?_⟩
    · simp [fmath.signed_power, hz0, hzf, o1]
    · simp [fmath.signed_power, hz0, hzf, o1]
    · rw [o6, mag2_zero_frac, val_singleton]; push_cast; ring

namespace mnum

/-- True division by a pair of non-zero magnitude returns a value. -/
theorem true_div_one_ok {P : List Nat × List Nat} (h1 : IsDigits P.1) (h2 : IsDigits P.2)
    (h3 : IntNorm P.1) (h4 : P.2 ≠ []) (h5 : mag2 P.1 P.2 ≠ 0) :
    ∃ r, fmath.true_div [1] [0] P.1 P.2 = .ok r := by
  have wb : WeakNorm ⟨false, P.1, P.2⟩ :=
    ⟨h1, h2, h3, h4, fun a b => absurd (mag2_eq_zero_iff.mpr ⟨a, b⟩) h5⟩
  have wo : WeakNorm ⟨false, [1], [0]⟩ := Normalized.weakNorm (by decide)
  have hz : ¬ ZeroMag ⟨false, P.1, P.2⟩ := fun hz => h5 (wb.mag_eq_zero_iff.mpr hz)
  obtain ⟨⟨c, hc⟩, _⟩ := division_ok_of_not_zeroMag wo wb hz
  unfold operator_div at hc
  simp only at hc
  cases hd : fmath.true_div [1] [0] P.1 P.2 with
  | error e => rw [hd] at hc; cases hc
  | ok r => exact ⟨r, rfl⟩

/-- With a fraction-free exponent and enough iterations `signed_power` returns a value,
whatever the signs, also for a zero base or a zero exponent. -/
theorem signed_power_ok {b e : mnum} (hb : Normalized b) (he : Normalized e)
    (hef : e.fraction = [0]) {fuel : Nat} (hf : val e.integer < fuel) :
    ∃ r, fmath.signed_power fuel b.integer b.fraction e.integer e.fraction b.sign e.sign
      = .ok r := by
  obtain ⟨sb, x, fx⟩ := b
  obtain ⟨se, y, fy⟩ := e
  obtain ⟨hx, hfx, nx, nfx⟩ := hb
  obtain ⟨hy, _, ny, _⟩ := he
  simp only at hx hfx nx nfx hy ny hef hf ⊢
  subst hef
  have hz0 : is_zero [0] = true := rfl
  by_cases hbz : x = [0] ∧ fx = [0]
  · obtain ⟨rfl, rfl⟩ := hbz
    exact ⟨([0], [0]), by simp [fmath.signed_power, imath.signed_power, hz0]⟩
  · by_cases hez : val y = 0
    · have hy0 : y = [0] := intNorm_val_zero ny hez
      subst hy0
      by_cases hfz : fx = [0]
      · subst hfz
        have hzx : is_zero x = false := is_zero_eq_false (fun h => hbz ⟨h, rfl⟩)
        exact ⟨([1], x), by simp [fmath.signed_power, imath.signed_power, hz0, hzx]⟩
      · have hzf : is_zero fx = false := is_zero_eq_false hfz
        obtain ⟨f', rfl⟩ : ∃ f', fuel = f' + 1 := ⟨fuel - 1, by omega⟩
        have hl : fmath.powerLoop x fx (f' + 1) [0] ([1], [0]) = .ok ([1], [0]) := rfl
        cases se
        · exact ⟨([1], [0]), by simp [fmath.signed_power, hz0, hzf, hl]⟩
        · have ht : fmath.true_div [1] [0] [1] [0] = .ok ([1], [0]) := by decide!
          exact ⟨([1], [0]), by simp [fmath.signed_power, hz0, hzf, hl, ht]⟩
    · obtain ⟨P, p1, p2, p3, p4, p5, p6, p7⟩ := signed_power_pos hx hfx hy nx ny nfx.1 hbz
        (Nat.pos_of_ne_zero hez) hf sb
      cases se
      · exact ⟨P, p1⟩
      · rw [p2]
        refine true_div_one_ok p3 p4 p5 p6 ?_
        rw [p7]
        have hm : mag2 x fx ≠ 0 := by
          intro h
          obtain ⟨a1, a2⟩ := mag2_eq_zero_iff.mp h
          exact hbz ⟨intNorm_val_zero nx a1, fracNorm_val_zero nfx a2⟩
        exact pow_ne_zero _ hm

end mnum

/-! ### The fraction digits of true division -/

/-- The fraction loop of `true_div` for a divisor `D` with `D * 10 ≤ 2 ^ 53`: at most `n`
digits in `0..9`, which are the first digits of `rem / D`; it stops early only on a zero
remainder. -/
theorem fracLoop_spec {D : Nat} (hD : 0 < D) (hs : D * 10 ≤ 2 ^ 53) :
    ∀ (n rem : Nat), rem < D →
    ∃ r, (fracLoop (Dbl.ofNat D) n (Dbl.ofNat rem)).2 = Dbl.ofNat r ∧ r < D ∧
      IsDigits (fracLoop (Dbl.ofNat D) n (Dbl.ofNat rem)).1 ∧
      (fracLoop (Dbl.ofNat D) n (Dbl.ofNat rem)).1.length ≤ n ∧
      val (fracLoop (Dbl.ofNat D) n (Dbl.ofNat rem)).1 * D + r
        = rem * 10 ^ (fracLoop (Dbl.ofNat D) n (Dbl.ofNat rem)).1.length ∧
      (r ≠ 0 → (fracLoop (Dbl.ofNat D) n (Dbl.ofNat rem)).1.length = n) ∧
      (rem ≠ 0 → 0 < n → (fracLoop (Dbl.ofNat D) n (Dbl.ofNat rem)).1 ≠ []) := by
  intro n
  induction n with
  | zero =>
    intro rem hr
    simp only [fracLoop, List.length_nil, val_nil, pow_zero]
    exact ⟨rem, rfl, hr, isDigits_nil, by omega, by omega, fun _ => trivial,
      fun _ h => absurd h (by omega)⟩
  | succ n ih =>
    intro rem hr
    unfold fracLoop
    have hz : (Dbl.ofNat rem).isZero = decide (rem = 0) := Dbl.isZero_ofNat (by omega)
    by_cases h0 : rem = 0
    · rw [hz, if_pos (decide_eq_true h0)]
      simp only [List.length_nil, val_nil, pow_zero]
      exact ⟨rem, rfl, hr, isDigits_nil, by omega, by omega, fun h => absurd h0 h,
        fun h => absurd h0 h⟩
    · rw [hz, if_neg (by simpa using h0)]
      have ht : rem * 10 < 10 * D := by omega
      have e1 : Dbl.mul (Dbl.ofNat rem) (Dbl.ofNat 10) = Dbl.ofNat (rem * 10) :=
        Dbl.mul_nat (by omega) (by norm_num) (by omega)
      obtain ⟨e2, e3⟩ := divStep_exact hD hs ht
      have hq : rem * 10 / D < 10 := (Nat.div_lt_iff_lt_mul hD).mpr ht
      obtain ⟨r, i0, i3, i1, i2, i4, i5, _⟩ := ih (rem * 10 % D) (Nat.mod_lt _ hD)
      simp only [e1, e2, e3]
      refine ⟨r, i0, i3, isDigits_cons.mpr ⟨by omega, i1⟩,
        by simp only [List.length_cons]; omega, ?_,
        fun h => by simp only [List.length_cons]; rw [i5 h], fun _ _ => by simp⟩
      rw [val_cons, List.length_cons, pow_succ]
      have e := Nat.div_add_mod (rem * 10) D
      generalize rem * 10 / D = q at *
      generalize rem * 10 % D = r' at *
      generalize fracLoop (Dbl.ofNat D) n (Dbl.ofNat r') = res at *
      generalize 10 ^ res.1.length = P at *
      calc (q * P + val res.1) * D + r = q * P * D + (val res.1 * D + r) := by ring
        _ = q * P * D + r' * P := by rw [i4]
        _ = (D * q + r') * P := by ring
        _ = rem * (P * 10) := by rw [e]; ring

namespace imath

/-- The size of an integer sum: the longer size, or one more exactly on a final carry. -/
theorem iadd_length {x y : List Nat} (hx : IsDigits x) (hy : IsDigits y) :
    (val x + val y < 10 ^ max x.length y.length →
        (iadd x y).length = max x.length y.length) ∧
      (10 ^ max x.length y.length ≤ val x + val y →
        (iadd x y).length = max x.length y.length + 1 ∧ front (iadd x y) = 1) := by
  obtain ⟨i1, i2, i3, i4⟩ := addLoop_spec (max x.length y.length) x.reverse y.reverse 0
    hx.reverse hy.reverse (by omega) (by rw [List.length_reverse]; omega)
    (by rw [List.length_reverse]; omega)
  rw [valR_reverse, valR_reverse] at i4
  have hb := valR_lt i2
  rw [i1] at hb
  unfold iadd
  simp only []
  generalize addLoop (max x.length y.length) x.reverse y.reverse 0 = r at *
  have hc : r.2 = 0 ∨ r.2 = 1 := by omega
  constructor
  · intro h
    rcases hc with hc | hc
    · rw [if_pos hc, List.length_reverse, i1]
    · rw [hc] at i4; omega
  · intro h
    rcases hc with hc | hc
    · rw [hc] at i4; omega
    · rw [if_neg (by omega), List.length_cons, List.length_reverse, i1, hc]
      exact ⟨rfl, rfl⟩

/-- What `true_div` returns for a divisor with `val y * 10 ≤ 2 ^ 53`. The integer part is
the normalized floor quotient. The fraction has between one and 20 digits; it is exact
when the expansion ends within 20 digits, and otherwise it is the 20-digit truncation
plus one unit in the last place (the 20 digits cannot all be `9` for such a divisor). -/
theorem true_div_spec {x y : List Nat} (hx : IsDigits x) (hy : 0 < val y)
    (hs : val y * 10 ≤ 2 ^ 53) :
    ∃ q f, true_div x y = .ok (q, f) ∧ IsDigits q ∧ IntNorm q ∧ val q = val x / val y ∧
      IsDigits f ∧ f ≠ [] ∧ f.length ≤ 20 ∧
      (val x % val y * 10 ^ 20 % val y = 0 → mag2 q f = (val x : ℚ) / (val y : ℚ)) ∧
      (val x % val y * 10 ^ 20 % val y ≠ 0 →
        f.length = 20 ∧
          mag2 q f = ((val x * 10 ^ 20 / val y + 1 : ℕ) : ℚ) / (10 : ℚ) ^ 20) := by
  obtain ⟨r, h0, hr, _, h2, hqr0⟩ := divLoop_spec hy hs x 0 hx hy
  have hqr : val (lstrip_zeros (divLoop (Dbl.ofNat (val y)) x (Dbl.ofNat 0)).1) * val y + r
      = val x := by
    rw [val_lstrip_zeros, hqr0]; simp
  have dq := isDigits_lstrip_zeros h2
  have nq := intNorm_lstrip_zeros (divLoop (Dbl.ofNat (val y)) x (Dbl.ofNat 0)).1
  have hz : (Dbl.ofNat (val y)).isZero = false := by
    rw [Dbl.isZero_ofNat (by omega)]
    exact decide_eq_false (by omega)
  have hrz : (Dbl.ofNat r).isZero = decide (r = 0) := Dbl.isZero_ofNat (by omega)
  have htd0 : true_div x y
      = if (Dbl.ofNat r).isZero
        then .ok (lstrip_zeros (divLoop (Dbl.ofNat (val y)) x (Dbl.ofNat 0)).1, [0])
        else if !(fracLoop (Dbl.ofNat (val y)) 20 (Dbl.ofNat r)).2.isZero
          then .ok (lstrip_zeros (divLoop (Dbl.ofNat (val y)) x (Dbl.ofNat 0)).1,
            iadd (fracLoop (Dbl.ofNat (val y)) 20 (Dbl.ofNat r)).1 [1])
          else .ok (lstrip_zeros (divLoop (Dbl.ofNat (val y)) x (Dbl.ofNat 0)).1,
            (fracLoop (Dbl.ofNat (val y)) 20 (Dbl.ofNat r)).1) := by
    unfold true_div
    simp only [divisorOf_exact (show val y ≤ 2 ^ 53 by omega), hz, h0, Bool.false_eq_true,
      if_false]
  generalize lstrip_zeros (divLoop (Dbl.ofNat (val y)) x (Dbl.ofNat 0)).1 = q at *
  have hqv : val q = val x / val y := by
    rw [← hqr, Nat.mul_comm, Nat.mul_add_div hy, Nat.div_eq_of_lt hr]; rfl
  have hrv : val x % val y = r := by
    rw [← hqr, Nat.mul_comm, Nat.mul_add_mod, Nat.mod_eq_of_lt hr]
  have hyq : (0 : ℚ) < (val y : ℚ) := by exact_mod_cast hy
  have hxq : (val x : ℚ) = (val q : ℚ) * (val y : ℚ) + (r : ℚ) := by exact_mod_cast hqr.symm
  rw [hrv]
  by_cases hr0 : r = 0
  · refine ⟨q, [0], ?_, dq, nq, hqv, isDigits_zero, by simp, by simp, fun _ => ?_, ?_⟩
    · rw [htd0, hrz, if_pos (decide_eq_true hr0)]
    · rw [mag2_zero_frac, hxq, hr0]
      field_simp
    · intro h; rw [hr0] at h; simp at h
  · obtain ⟨r2, g0, f3, f1, f2, f4, f5, f6⟩ := fracLoop_spec hy hs 20 r hr
    have hr2z : (Dbl.ofNat r2).isZero = decide (r2 = 0) := Dbl.isZero_ofNat (by omega)
    rw [hrz, if_neg (by simpa using hr0), g0, hr2z] at htd0
    generalize (fracLoop (Dbl.ofNat (val y)) 20 (Dbl.ofNat r)).1 = fl at *
    by_cases hfr : r2 = 0
    · -- the expansion ends within 20 digits
      rw [if_neg (by simpa using hfr)] at htd0
      rw [hfr, Nat.add_zero] at f4
      have hdvd : r * 10 ^ 20 % val y = 0 := by
        have e : r * 10 ^ 20 = val y * (val fl * 10 ^ (20 - fl.length)) := by
          have hp : (10 : Nat) ^ 20 = 10 ^ fl.length * 10 ^ (20 - fl.length) := by
            rw [← pow_add, Nat.add_sub_of_le f2]
          rw [hp, ← Nat.mul_assoc, ← f4]; ring
        rw [e, Nat.mul_mod_right]
      refine ⟨q, fl, htd0, dq, nq, hqv, f1, f6 hr0 (by omega), f2, fun _ => ?_,
        fun h => absurd hdvd h⟩
      have f4q : (val fl : ℚ) * (val y : ℚ) = (r : ℚ) * (10 : ℚ) ^ fl.length := by
        exact_mod_cast f4
      unfold mag2
      rw [hxq]
      have hp := pow10_pos fl.length
      field_simp
      linear_combination f4q
    · -- twenty digits and a remainder: round up
      rw [if_pos (by simpa using hfr)] at htd0
      have hl : fl.length = 20 := f5 hfr
      rw [hl] at f4
      have hF : r * 10 ^ 20 / val y = val fl := by
        rw [← f4, Nat.mul_comm, Nat.mul_add_div hy, Nat.div_eq_of_lt f3]; rfl
      have hM : r * 10 ^ 20 % val y = r2 := by
        rw [← f4, Nat.mul_comm, Nat.mul_add_mod, Nat.mod_eq_of_lt f3]
      obtain ⟨a1, a2, _⟩ := iadd_spec f1 isDigits_one
      obtain ⟨l1, _⟩ := iadd_length f1 isDigits_one
      rw [val_singleton] at a2 l1
      have hmax : max fl.length [1].length = 20 := by rw [hl]; rfl
      rw [hmax] at l1
      -- the twenty digits are not all nines: that needs a divisor of at least 10 ^ 20
      have hlt : val fl + 1 < 10 ^ 20 := by
        by_contra hc
        have hfl := val_lt f1
        rw [hl] at hfl
        have e9 : val fl = 10 ^ 20 - 1 := by omega
        rw [e9] at f4
        have hy20 : val y < 10 ^ 20 := by
          have : (2 : Nat) ^ 53 < 10 ^ 20 := by norm_num
          omega
        have hry : r + 1 ≤ val y := hr
        have := Nat.mul_le_mul_right (10 ^ 20) hry
        have e10 : (10 ^ 20 - 1) * val y = 10 ^ 20 * val y - val y := by
          rw [Nat.sub_mul, Nat.one_mul]
        have e11 : (r + 1) * 10 ^ 20 = r * 10 ^ 20 + 10 ^ 20 := by ring
        have e12 : val y * 10 ^ 20 = 10 ^ 20 * val y := Nat.mul_comm _ _
        have hpos : val y ≤ 10 ^ 20 * val y := Nat.le_mul_of_pos_left _ (by norm_num)
        omega
      have hlen := l1 hlt
      refine ⟨q, iadd fl [1], htd0, dq, nq, hqv, a1, ?_, by omega, fun h => ?_, fun _ => ?_⟩
      · intro h
        have hlen2 := congrArg List.length h
        rw [hlen] at hlen2; simp at hlen2
      · rw [hM] at h; exact absurd h hfr
      · refine ⟨hlen, ?_⟩
        have hfloor : val x * 10 ^ 20 / val y = val q * 10 ^ 20 + val fl := by
          rw [← hqr, Nat.add_mul, ← hF]
          rw [show val q * val y * 10 ^ 20 = val y * (val q * 10 ^ 20) by ring]
          rw [Nat.mul_add_div hy]
        rw [hfloor]
        unfold mag2
        rw [hlen, a2]
        push_cast
        field_simp
        ring

end imath

/-! ## The search loops -/

theorem findLoop_none {v : Nat} {l : List Nat} {k : Nat} : findLoop v l k = none ↔ v ∉ l := by
  induction l generalizing k with
  | nil => simp [findLoop]
  | cons d t ih =>
    unfold findLoop
    by_cases h : d = v
    · simp [h]
    · simp only [h, if_false, ih, List.mem_cons, not_or]
      exact ⟨fun h2 => ⟨fun e => h e.symm, h2⟩, fun h2 => h2.2⟩

theorem findLoop_some {v : Nat} {l : List Nat} {k i : Nat} (h : findLoop v l k = some i) :
    k ≤ i ∧ l[i - k]? = some v ∧ ∀ j, j < i - k → l[j]? ≠ some v := by
  induction l generalizing k with
  | nil => simp [findLoop] at h
  | cons d t ih =>
    unfold findLoop at h
    by_cases hd : d = v
    · simp only [hd, if_true, Option.some.injEq] at h
      subst h
      simp [hd]
    · simp only [hd, if_false] at h
      obtain ⟨h1, h2, h3⟩ := ih h
      have e : i - k = (i - (k + 1)) + 1 := by omega
      refine ⟨by omega, ?_, ?_⟩
      · rw [e, List.getElem?_cons_succ]; exact h2
      · intro j hj
        cases j with
        | zero => simp [hd]
        | succ j => rw [List.getElem?_cons_succ]; exact h3 j (by omega)

theorem rfindLoop_none {v : Nat} {r : List Nat} {k : Int} : rfindLoop v r k = none ↔ v ∉ r := by
  induction r generalizing k with
  | nil => simp [rfindLoop]
  | cons d t ih =>
    unfold rfindLoop
    by_cases h : d = v
    · simp [h]
    · simp only [h, if_false, ih, List.mem_cons, not_or]
      exact ⟨fun h2 => ⟨fun e => h e.symm, h2⟩, fun h2 => h2.2⟩

theorem rfindLoop_some {v : Nat} {l : List Nat} {k i : Int}
    (h : rfindLoop v l.reverse k = some i) :
    ∃ p : Nat, p < l.length ∧ i = k - ((l.length : Int) - 1) + p ∧ l[p]? = some v ∧
      ∀ q, p < q → l[q]? ≠ some v := by
  induction l using List.reverseRecOn generalizing k with
  | nil => simp [rfindLoop] at h
  | append_singleton t d ih =>
    rw [List.reverse_append, List.reverse_singleton, List.singleton_append] at h
    unfold rfindLoop at h
    by_cases hd : d = v
    · simp only [hd, if_true, Option.some.injEq] at h
      refine ⟨t.length, by simp, ?_, by simp [hd], ?_⟩
      · rw [← h, List.length_append, List.length_singleton]; push_cast; ring
      · intro q hq
        rw [List.getElem?_eq_none (by simp; omega)]
        simp
    · simp only [hd, if_false] at h
      obtain ⟨p, h1, h2, h3, h4⟩ := ih h
      refine ⟨p, by simp; omega, ?_, ?_, ?_⟩
      · rw [h2, List.length_append, List.length_singleton]; push_cast; ring
      · rw [List.getElem?_append_left h1]; exact h3
      · intro q hq
        by_cases hq2 : q < t.length
        · rw [List.getElem?_append_left hq2]; exact h4 q hq
        · by_cases hq3 : q = t.length
          · subst hq3
            simp [hd]
          · rw [List.getElem?_eq_none (by simp; omega)]
            simp

theorem countLoop_eq (v : Nat) (l : List Nat) (c : Nat) : countLoop v l c = c + l.count v := by
  induction l generalizing c with
  | nil => simp [countLoop]
  | cons d t ih =>
    unfold countLoop
    rw [ih, List.count_cons]
    by_cases h : d = v
    · simp [h]; omega
    · simp [h]

namespace mnum

theorem digits_eq (a : mnum) :
    a.digits = a.integer ++ (if is_zero a.fraction = true then [] else a.fraction) := by
  unfold digits
  by_cases h : a.fraction = [0]
  · rw [if_pos h, if_pos (is_zero_iff.mpr h)]
  · rw [if_neg h, if_neg (fun e => h (is_zero_iff.mp e))]

theorem find_spec (a : mnum) (v : Nat) :
    -1 ≤ a.find v ∧ (a.find v = -1 ↔ v ∉ a.digits) ∧
      ∀ i : Nat, a.find v = (i : Int) →
        a.digits[i]? = some v ∧ ∀ j, j < i → a.digits[j]? ≠ some v := by
  rw [digits_eq]
  unfold find
  cases h1 : findLoop v a.integer 0 with
  | some i0 =>
    obtain ⟨_, e2, e3⟩ := findLoop_some h1
    have hm : v ∈ a.integer := by
      by_contra hc
      rw [findLoop_none.mpr hc] at h1
      exact Option.noConfusion h1
    have hlt : i0 < a.integer.length := by
      by_contra hc
      rw [List.getElem?_eq_none (by omega)] at e2
      exact Option.noConfusion e2
    refine ⟨by simp only []; omega, ?_, ?_⟩
    · simp only []
      constructor
      · intro h; omega
      · intro h; exact absurd (List.mem_append_left _ hm) h
    · intro i hi
      simp only [Nat.cast_inj] at hi
      subst hi
      refine ⟨?_, ?_⟩
      · rw [List.getElem?_append_left hlt]; simpa using e2
      · intro j hj
        rw [List.getElem?_append_left (by omega)]
        exact e3 j (by omega)
  | none =>
    have hni := findLoop_none.mp h1
    simp only []
    by_cases hz : is_zero a.fraction = true
    · simp only [hz, if_true, List.append_nil]
      refine ⟨le_refl _, ⟨fun _ => hni, fun _ => trivial⟩, ?_⟩
      intro i hi
      omega
    · simp only [hz, if_false, Bool.false_eq_true]
      cases h2 : findLoop v a.fraction a.integer.length with
      | some i1 =>
        obtain ⟨e1, e2, e3⟩ := findLoop_some h2
        have hm : v ∈ a.fraction := by
          by_contra hc
          rw [findLoop_none.mpr hc] at h2
          exact Option.noConfusion h2
        refine ⟨by simp only []; omega, ?_, ?_⟩
        · simp only []
          constructor
          · intro h; omega
          · intro h; exact absurd (List.mem_append_right _ hm) h
        · intro i hi
          simp only [Nat.cast_inj] at hi
          subst hi
          refine ⟨?_, ?_⟩
          · rw [List.getElem?_append_right e1]; exact e2
          · intro j hj
            by_cases hj2 : j < a.integer.length
            · rw [List.getElem?_append_left hj2]
              intro hc
              exact hni ((List.mem_iff_getElem?.mpr ⟨_, hc⟩))
            · rw [List.getElem?_append_right (by omega)]
              exact e3 _ (by omega)
      | none =>
        have hnf := findLoop_none.mp h2
        simp only []
        refine ⟨le_refl _, ⟨fun _ => ?_, fun _ => trivial⟩, ?_⟩
        · intro hc
          rcases List.mem_append.mp hc with h | h
          · exact hni h
          · exact hnf h
        · intro i hi
          omega

theorem count_eq (a : mnum) (v : Nat) : a.count v = a.digits.count v := by
  rw [digits_eq]
  unfold count
  by_cases hz : is_zero a.fraction = true
  · simp [hz, countLoop_eq]
  · simp [hz, countLoop_eq]

end mnum

namespace mnum

theorem rfindLoop_mem {v : Nat} {l : List Nat} {k i : Int}
    (h : rfindLoop v l.reverse k = some i) : v ∈ l := by
  by_contra hc
  rw [rfindLoop_none.mpr (by simpa using hc)] at h
  exact Option.noConfusion h

theorem rfind_spec (a : mnum) (v : Nat) :
    -1 ≤ a.rfind v ∧ (a.rfind v = -1 ↔ v ∉ a.digits) ∧
      ∀ i : Nat, a.rfind v = (i : Int) →
        a.digits[i]? = some v ∧ ∀ j, i < j → a.digits[j]? ≠ some v := by
  rw [digits_eq]
  unfold rfind
  simp only []
  have hint : ∀ i0 : Int, rfindLoop v a.integer.reverse ((a.integer.length : Int) - 1) = some i0 →
      ∃ p : Nat, i0 = p ∧ p < a.integer.length ∧ a.integer[p]? = some v ∧
        ∀ q, p < q → a.integer[q]? ≠ some v := by
    intro i0 h
    obtain ⟨p, h1, h2, h3, h4⟩ := rfindLoop_some h
    exact ⟨p, by omega, h1, h3, h4⟩
  by_cases hz : is_zero a.fraction = true
  · simp only [hz, if_true, List.append_nil]
    cases h1 : rfindLoop v a.integer.reverse ((a.integer.length : Int) - 1) with
    | some i0 =>
      obtain ⟨p, e0, e1, e2, e3⟩ := hint i0 h1
      have hm := rfindLoop_mem h1
      subst e0
      simp only []
      refine ⟨by omega, ⟨fun h => by omega, fun h => absurd hm h⟩, ?_⟩
      intro i hi
      simp only [Nat.cast_inj] at hi
      subst hi
      exact ⟨e2, e3⟩
    | none =>
      have hn : v ∉ a.integer := by simpa using rfindLoop_none.mp h1
      simp only []
      exact ⟨le_refl _, ⟨fun _ => hn, fun _ => trivial⟩, fun i hi => by omega⟩
  · simp only [hz, if_false, Bool.false_eq_true]
    cases h2 : rfindLoop v a.fraction.reverse
        ((a.integer.length : Int) - 1 + (a.fraction.length : Int)) with
    | some i1 =>
      obtain ⟨p, f1, f2, f3, f4⟩ := rfindLoop_some h2
      have hm := rfindLoop_mem h2
      have e : i1 = ((a.integer.length + p : Nat) : Int) := by push_cast; omega
      subst e
      simp only []
      refine ⟨by omega, ⟨fun h => by omega, fun h => absurd (List.mem_append_right _ hm) h⟩, ?_⟩
      intro i hi
      simp only [Nat.cast_inj] at hi
      subst hi
      refine ⟨?_, ?_⟩
      · rw [List.getElem?_append_right (by omega)]
        simpa using f3
      · intro j hj
        rw [List.getElem?_append_right (by omega)]
        exact f4 _ (by omega)
    | none =>
      have hnf : v ∉ a.fraction := by simpa using rfindLoop_none.mp h2
      simp only []
      cases h1 : rfindLoop v a.integer.reverse ((a.integer.length : Int) - 1) with
      | some i0 =>
        obtain ⟨p, e0, e1, e2, e3⟩ := hint i0 h1
        have hm := rfindLoop_mem h1
        subst e0
        simp only []
        refine ⟨by omega, ⟨fun h => by omega, fun h => absurd (List.mem_append_left _ hm) h⟩, ?_⟩
        intro i hi
        simp only [Nat.cast_inj] at hi
        subst hi
        refine ⟨?_, ?_⟩
        · rw [List.getElem?_append_left e1]; exact e2
        · intro j hj
          by_cases hj2 : j < a.integer.length
          · rw [List.getElem?_append_left hj2]; exact e3 j hj
          · rw [List.getElem?_append_right (by omega)]
            intro hc
            exact hnf (List.mem_iff_getElem?.mpr ⟨_, hc⟩)
      | none =>
        have hn : v ∉ a.integer := by simpa using rfindLoop_none.mp h1
        simp only []
        refine ⟨le_refl _, ⟨fun _ => ?_, fun _ => trivial⟩, fun i hi => by omega⟩
        intro hc
        rcases List.mem_append.mp hc with h | h
        · exact hn h
        · exact hnf h

end mnum

theorem rstrip_zeros_idem (l : List Nat) : rstrip_zeros (rstrip_zeros l) = rstrip_zeros l := by
  rw [rstrip_zeros_eq (rstrip_zeros l), rstrip_zeros_eq l, List.reverse_reverse,
    lstrip_zeros_of_intNorm (intNorm_lstrip_zeros _)]

theorem lstrip_zeros_idem (l : List Nat) : lstrip_zeros (lstrip_zeros l) = lstrip_zeros l :=
  lstrip_zeros_of_intNorm (intNorm_lstrip_zeros l)

theorem rstrip_zeros_of_fracNorm {fx : List Nat} (hn : FracNorm fx) : rstrip_zeros fx = fx := by
  obtain ⟨k, hk⟩ := rstrip_zeros_decomp fx hn.1
  cases k with
  | zero => simpa using hk.symm
  | succ k =>
    have h0 : fx.getLast? = some 0 := by
      rw [hk, List.replicate_succ', ← List.append_assoc]
      simp
    have e := hn.2 h0
    rw [e]
    decide

theorem sorted_lstrip_zeros {s : List Nat} (hs : s.Sorted (fun p q => p ≤ q)) :
    (lstrip_zeros s).Sorted (fun p q => p ≤ q) := by
  rw [lstrip_zeros_eq]
  split
  · exact List.sorted_singleton 0
  · exact hs.sublist (List.dropWhile_suffix _).sublist

theorem sorted_rstrip_zeros {s : List Nat} (hs : s.Sorted (fun p q => p ≤ q)) :
    (rstrip_zeros s).Sorted (fun p q => p ≤ q) := by
  rw [rstrip_zeros_eq, lstrip_zeros_eq]
  split
  · exact List.sorted_singleton 0
  · refine hs.sublist ?_
    have h := (List.dropWhile_suffix (fun d => d == 0) (l := s.reverse)).sublist
    simpa using h.reverse

namespace mnum

theorem sort_idem (a : mnum) : a.sort.sort = a.sort := by
  unfold sort
  simp only []
  rw [(sorted_lstrip_zeros (List.sorted_insertionSort _ a.integer)).insertionSort_eq,
    (sorted_rstrip_zeros (List.sorted_insertionSort _ a.fraction)).insertionSort_eq,
    lstrip_zeros_idem, rstrip_zeros_idem]

end mnum

namespace pybind

theorem check_index_out_of_range {m : mnum} {i : Int} (hlo : -2 ^ 63 ≤ i)
    (h : (m.size : Int) ≤ i ∨ i < -(m.size : Int)) :
    check_index m i = .error Err.index_out_of_range ∧
      ¬ ((if i < 0 then ((i + (m.size : Int)) % 2 ^ 64).toNat else i.toNat) < m.size) := by
  have key : m.size ≤ (if i < 0 then ((i + (m.size : Int)) % 2 ^ 64).toNat else i.toNat) := by
    by_cases hi : i < 0
    · rw [if_pos hi]
      have h2 : i < -(m.size : Int) := by
        rcases h with h | h
        · omega
        · exact h
      have e : (i + (m.size : Int)) % 2 ^ 64 = i + (m.size : Int) + 2 ^ 64 := by
        omega
      rw [e]
      omega
    · rw [if_neg hi]
      rcases h with h | h
      · omega
      · omega
  refine ⟨?_, by omega⟩
  unfold check_index
  simp only []
  rw [if_pos key]

end pybind

theorem lstrip_zeros_zero_cons (r : List Nat) : lstrip_zeros (0 :: r) = lstrip_zeros r := by
  rw [lstrip_zeros_eq, lstrip_zeros_eq r]
  simp [List.dropWhile_cons]

theorem rstrip_zeros_append_zero {fx : List Nat} (hn : FracNorm fx) :
    rstrip_zeros (fx ++ [0]) = fx := by
  rw [rstrip_zeros_eq, List.reverse_append, List.reverse_singleton, List.singleton_append,
    lstrip_zeros_zero_cons, ← rstrip_zeros_eq, rstrip_zeros_of_fracNorm hn]

theorem imul_norm (x fx y fy : List Nat) :
    IntNorm (fmath.imul x fx y fy).1 ∧ FracNorm (fmath.imul x fx y fy).2 := by
  unfold fmath.imul
  by_cases h1 : (is_zero fx && is_zero fy) = true
  · rw [if_pos h1]
    have hfx : fx = [0] := is_zero_iff.mp (by simp at h1; exact h1.1)
    refine ⟨intNorm_lstrip_zeros _, ?_⟩
    simp only [hfx]
    exact fracNorm_zero
  · rw [if_neg h1]
    by_cases h2 : ((front x == 0 && is_zero fx) || (front y == 0 && is_zero fy)) = true
    · rw [if_pos h2]
      exact ⟨intNorm_zero, fracNorm_zero⟩
    · rw [if_neg h2]
      exact ⟨intNorm_lstrip_zeros _, fracNorm_rstrip_zeros _⟩

namespace imath

theorem iadd_carry {x y : List Nat} (hx : IsDigits x) (hy : IsDigits y) :
    (addLoop (max x.length y.length) x.reverse y.reverse 0).2
      = if 10 ^ max x.length y.length ≤ val x + val y then 1 else 0 := by
  obtain ⟨i1, i2, i3, i4⟩ := addLoop_spec (max x.length y.length) x.reverse y.reverse 0
    hx.reverse hy.reverse (by omega) (by rw [List.length_reverse]; omega)
    (by rw [List.length_reverse]; omega)
  rw [valR_reverse, valR_reverse] at i4
  have hb := valR_lt i2
  rw [i1] at hb
  generalize addLoop (max x.length y.length) x.reverse y.reverse 0 = r at *
  have hc : r.2 = 0 ∨ r.2 = 1 := by omega
  rcases hc with hc | hc
  · rw [hc] at i4
    rw [hc, if_neg (by omega)]
  · rw [hc] at i4
    rw [hc, if_pos (by omega)]

end imath

/-! ### Ranges inside the schoolbook multiplication -/

theorem mulRowInRange_spec {xd : Nat} (hxd : xd ≤ 9) : ∀ (ys lo t : List Nat) (c : Nat),
    IsDigits ys → IsDigits lo → lo.length = ys.length → c ≤ 9 →
    mulRowInRange xd ys (lo ++ 0 :: t) c = true := by
  intro ys
  induction ys with
  | nil =>
    intro lo t c _ _ hl hc
    have : lo = [] := List.length_eq_zero.mp hl
    subst this
    simp only [List.nil_append, mulRowInRange]
    exact decide_eq_true (by omega)
  | cons yd ys ih =>
    intro lo t c hys hlo hl hc
    cases lo with
    | nil => simp at hl
    | cons r lo =>
      have hyd := (isDigits_cons.mp hys).1
      have hr := (isDigits_cons.mp hlo).1
      have hm : xd * yd ≤ 9 * 9 := Nat.mul_le_mul hxd hyd
      have hp : u8 (xd * yd + c + r) = xd * yd + c + r := u8_of_lt (by omega)
      have hq : u8 ((xd * yd + c + r) / 10) = (xd * yd + c + r) / 10 := u8_of_lt (by omega)
      have hl2 : lo.length = ys.length := by simpa using hl
      have hrec := ih lo t ((xd * yd + c + r) / 10)
        (isDigits_cons.mp hys).2 (isDigits_cons.mp hlo).2 hl2 (by omega)
      rw [List.cons_append, mulRowInRange]
      simp only [hp, hq, hrec, Bool.and_true, Bool.and_eq_true, decide_eq_true_eq]
      omega

theorem mulLoopInRange_spec {yr : List Nat} (hyr : IsDigits yr) :
    ∀ (xs lo : List Nat) (k : Nat),
    IsDigits xs → IsDigits lo → lo.length = yr.length → xs.length ≤ k →
    mulLoopInRange yr xs (lo ++ List.replicate k 0) = true := by
  intro xs
  induction xs with
  | nil =>
    intro lo k _ _ _ _
    rfl
  | cons xd xs ih =>
    intro lo k hxs hlo hl hk
    obtain ⟨k', rfl⟩ : ∃ k', k = k' + 1 := ⟨k - 1, by simp at hk; omega⟩
    have hxd := (isDigits_cons.mp hxs).1
    obtain ⟨lo', c', h1, h2, h3, h4, _⟩ := mulRow_spec hxd yr lo (List.replicate k' 0) 0
      hyr hlo hl (by omega)
    have hin := mulRowInRange_spec hxd yr lo (List.replicate k' 0) 0 hyr hlo hl (by omega)
    have hd : IsDigits (lo' ++ [c']) :=
      isDigits_append.mpr ⟨h3, by intro d hd; simp at hd; omega⟩
    have hlen : (lo' ++ [c']).length = yr.length + 1 := by simp [h2]
    obtain ⟨r, lo'', hrl⟩ : ∃ r lo'', lo' ++ [c'] = r :: lo'' := by
      cases hc : lo' ++ [c'] with
      | nil => rw [hc] at hlen; simp at hlen
      | cons r lo'' => exact ⟨r, lo'', rfl⟩
    have hrow : mulRow xd yr (lo ++ List.replicate (k' + 1) 0) 0
        = r :: (lo'' ++ List.replicate k' 0) := by
      rw [List.replicate_succ, h1, ← List.cons_append, ← hrl]
      simp
    rw [hrl] at hd hlen
    have hl'' : lo''.length = yr.length := by simpa using hlen
    have i1 := ih lo'' k' (isDigits_cons.mp hxs).2 (isDigits_cons.mp hd).2 hl''
      (by simp at hk; omega)
    rw [← List.replicate_succ] at hin
    simp only [mulLoopInRange, hrow, hin, i1, Bool.and_true]

theorem mulInRange_spec {x y : List Nat} (hx : IsDigits x) (hy : IsDigits y) :
    mulInRange x y = true := by
  have e : List.replicate (x.length + y.length) 0
      = List.replicate y.reverse.length 0 ++ List.replicate x.length 0 := by
    rw [List.length_reverse, Nat.add_comm, List.replicate_add]
  unfold mulInRange
  rw [e]
  exact mulLoopInRange_spec hy.reverse x.reverse (List.replicate y.reverse.length 0)
    x.length hx.reverse (isDigits_replicate_zero _) (by simp) (by simp)

/-! ### Subtraction and comparison in terms of magnitudes -/

/-- Decimal `isub` with the comparison results computed as in `signed_iadd` and
`signed_isub`: neither assertion fires and the result is the distance of the magnitudes. -/
theorem fmath_isub_mag {x fx y fy : List Nat} (hx : IsDigits x) (hfx : IsDigits fx)
    (hy : IsDigits y) (hfy : IsDigits fy) (nx : IntNorm x) (ny : IntNorm y) :
    ∃ x' fx', fmath.isub x fx y fy (cmp x y) (if cmp x y = 0 then fcmp fx fy else cmp x y)
        = .ok (x', fx') ∧
      IsDigits x' ∧ IsDigits fx' ∧ IntNorm x' ∧
      mag2 x' fx' = |mag2 x fx - mag2 y fy| := by
  obtain ⟨x', fx', hok, d1, d2, n1, hz, hnz⟩ := fmath_isub_spec hx hfx hy hfy nx ny
  have lx : fx.length ≤ max fx.length fy.length := le_max_left _ _
  have ly : fy.length ≤ max fx.length fy.length := le_max_right _ _
  have cA := sv_cast x lx
  have cB := sv_cast y ly
  have hp := pow10_pos (max fx.length fy.length)
  by_cases he : sv (max fx.length fy.length) x fx = sv (max fx.length fy.length) y fy
  · obtain ⟨e1, e2⟩ := hz he
    refine ⟨x', fx', hok, d1, d2, n1, ?_⟩
    rw [e1, e2, mag2_zero_zero, (sv_eq_iff lx ly).mp he, sub_self, abs_zero]
  · obtain ⟨hl, hv⟩ := hnz he
    have cR := scaled_cast x' hl
    have hvq : ((val x' * 10 ^ max fx.length fy.length + val fx' : Nat) : ℚ)
        + ((min (sv (max fx.length fy.length) x fx) (sv (max fx.length fy.length) y fy) : Nat) : ℚ)
        = ((max (sv (max fx.length fy.length) x fx) (sv (max fx.length fy.length) y fy) : Nat) : ℚ) := by
      rw [← hv]; push_cast; ring
    rw [cR] at hvq
    have key : mag2 x' fx' = |mag2 x fx - mag2 y fy| := by
      rcases Nat.lt_or_ge (sv (max fx.length fy.length) x fx)
          (sv (max fx.length fy.length) y fy) with h | h
      · rw [Nat.min_eq_left (le_of_lt h), Nat.max_eq_right (le_of_lt h), cA, cB] at hvq
        have hlt := (sv_lt_iff lx ly).mp h
        rw [abs_of_neg (by linarith)]
        have : (mag2 x' fx' - (mag2 y fy - mag2 x fx)) * (10 : ℚ) ^ max fx.length fy.length = 0 := by
          linarith
        rcases mul_eq_zero.mp this with h1 | h1
        · linarith
        · exact absurd h1 (ne_of_gt hp)
      · have h' : sv (max fx.length fy.length) y fy < sv (max fx.length fy.length) x fx :=
          lt_of_le_of_ne h (fun e => he e.symm)
        rw [Nat.min_eq_right h, Nat.max_eq_left h, cA, cB] at hvq
        have hlt := (sv_lt_iff ly lx).mp h'
        rw [abs_of_pos (by linarith)]
        have : (mag2 x' fx' - (mag2 x fx - mag2 y fy)) * (10 : ℚ) ^ max fx.length fy.length = 0 := by
          linarith
        rcases mul_eq_zero.mp this with h1 | h1
        · linarith
        · exact absurd h1 (ne_of_gt hp)
    exact ⟨x', fx', hok, d1, d2, n1, key⟩

/-- The four-argument `cmp` orders the magnitudes. -/
theorem cmp4_numeric {x fx y fy : List Nat} (hx : IsDigits x) (hfx : IsDigits fx)
    (hy : IsDigits y) (hfy : IsDigits fy) (nx : IntNorm x) (ny : IntNorm y) :
    cmp4 x fx y fy
      = if mag2 x fx < mag2 y fy then -1 else if mag2 x fx = mag2 y fy then 0 else 1 := by
  have h := comp_spec hx hfx hy hfy nx ny
  have lx : fx.length ≤ max fx.length fy.length := le_max_left _ _
  have ly : fy.length ≤ max fx.length fy.length := le_max_right _ _
  unfold cmp4
  simp only []
  rw [h]
  unfold ord3
  simp only [sv_lt_iff lx ly, sv_eq_iff lx ly]

theorem mag2_append_zeros (x fx : List Nat) (k : Nat) :
    mag2 x (fx ++ List.replicate k 0) = mag2 x fx := by
  unfold mag2
  rw [val_append, val_replicate_zero, List.length_append, List.length_replicate, pow_add]
  push_cast
  have h1 : (10 : ℚ) ^ fx.length ≠ 0 := ne_of_gt (pow10_pos _)
  have h2 : (10 : ℚ) ^ k ≠ 0 := ne_of_gt (pow10_pos _)
  field_simp
  ring

/-- The fraction compare orders the fractions as numbers. -/
theorem fcmp_numeric {fx fy : List Nat} (hfx : IsDigits fx) (hfy : IsDigits fy) :
    fcmp fx fy
      = if mag2 [0] fx < mag2 [0] fy then -1 else if mag2 [0] fx = mag2 [0] fy then 0 else 1 := by
  rw [← cmp4_numeric isDigits_zero hfx isDigits_zero hfy intNorm_zero intNorm_zero]
  rfl

theorem fcmp_append_zeros {fx fy : List Nat} (hfx : IsDigits fx) (hfy : IsDigits fy)
    (k : Nat) :
    fcmp (fx ++ List.replicate k 0) fy = fcmp fx fy ∧
      fcmp fx (fy ++ List.replicate k 0) = fcmp fx fy := by
  have hz := isDigits_replicate_zero k
  rw [fcmp_numeric (isDigits_append.mpr ⟨hfx, hz⟩) hfy,
    fcmp_numeric hfx (isDigits_append.mpr ⟨hfy, hz⟩), fcmp_numeric hfx hfy,
    mag2_append_zeros, mag2_append_zeros]
  exact ⟨rfl, rfl⟩

/-! ### Division by a divisor of zero magnitude, whatever the dividend -/

theorem scaled_divisor_zero (x fx : List Nat) :
    val (fmath.scaleOperands x fx [0] [0]).2 = 0 := by
  unfold fmath.scaleOperands
  have hz : is_zero [0] = true := by decide
  simp only [hz, if_true]
  have hv : ∀ k, val ([0] ++ List.replicate k 0) = 0 := by
    intro k
    rw [val_append, val_replicate_zero]; simp [val]
  split_ifs <;> first | rfl | exact hv _

namespace mnum

theorem division_by_zero_any {a b : mnum} (hz : ZeroMag b) :
    fmath.true_div a.integer a.fraction b.integer b.fraction = .error Err.division_by_zero ∧
      fmath.divmod a.integer a.fraction b.integer b.fraction = .error Err.division_by_zero ∧
      fmath.signed_floor_div a.integer a.fraction b.integer b.fraction a.sign b.sign
        = .error Err.division_by_zero := by
  obtain ⟨h1, h2⟩ := hz
  have h0 := scaled_divisor_zero a.integer a.fraction
  have e2 : fmath.divmod a.integer a.fraction [0] [0] = .error Err.division_by_zero :=
    imath.divmod_zero h0
  rw [h1, h2]
  refine ⟨imath.true_div_zero h0, e2, ?_⟩
  simp only [fmath.signed_floor_div, e2]

end mnum

/-! ### The exponent loop: one decrement per iteration -/

namespace imath

end imath

namespace fmath

end fmath

/-! ### Parsing a rendered value -/

theorem digit_char_facts : ∀ d, d < 10 →
    (Char.ofNat ((d + 48) % 256)).toNat = d + 48 ∧ Char.ofNat ((d + 48) % 256) ≠ '.' ∧
      Char.ofNat ((d + 48) % 256) ≠ '-' ∧ Char.ofNat ((d + 48) % 256) ≠ '+' := by
  decide

theorem convertLoop_convert_digits {l : List Nat} (h : IsDigits l) :
    convertLoop (convert_digits l) = .ok l := by
  induction l with
  | nil => rfl
  | cons d t ih =>
    have hd := (isDigits_cons.mp h).1
    obtain ⟨e1, _, _, _⟩ := digit_char_facts d (by omega)
    rw [convert_digits, List.map_cons, convertLoop, e1]
    rw [if_neg (by omega)]
    have ih' := ih (isDigits_cons.mp h).2
    rw [convert_digits] at ih'
    rw [ih']
    simp only [Nat.add_sub_cancel]
    rw [u8_of_lt (by omega)]

theorem point_not_mem_convert_digits {l : List Nat} (h : IsDigits l) :
    '.' ∉ convert_digits l := by
  intro hm
  rw [convert_digits, List.mem_map] at hm
  obtain ⟨d, hd, e⟩ := hm
  exact (digit_char_facts d (by have := h d hd; omega)).2.1 e

theorem head_convert_digits {l : List Nat} (h : IsDigits l) :
    (convert_digits l).head? ≠ some '-' ∧ (convert_digits l).head? ≠ some '+' := by
  cases l with
  | nil => simp [convert_digits]
  | cons d t =>
    have hd := (isDigits_cons.mp h).1
    obtain ⟨_, _, e2, e3⟩ := digit_char_facts d (by omega)
    simp only [convert_digits, List.map_cons, List.head?_cons, ne_eq, Option.some.injEq]
    exact ⟨e2, e3⟩

theorem indexOf_point_append {I rest : List Char} (hdot : '.' ∉ I)
    (hrest : rest = [] ∨ ∃ FR, rest = '.' :: FR) :
    (I ++ rest).indexOf '.' = I.length := by
  rw [List.indexOf_append_of_not_mem hdot]
  rcases hrest with h | ⟨FR, h⟩
  · rw [h]; rfl
  · rw [h, List.indexOf_cons_self]; rfl

/-- The parser on an unsigned or `-`-signed string whose integer bytes `I` contain no
`.` and do not begin with a sign, without and with a fraction. -/
theorem parse_core (sign : Bool) {I FR : List Char} {x fr : List Nat}
    (hI : convertLoop I = .ok x) (hF : convertLoop FR = .ok fr) (hne : I ≠ [])
    (hdot : '.' ∉ I) (hhead : I.head? ≠ some '-' ∧ I.head? ≠ some '+') :
    convert_num_str ((if sign then ['-'] else []) ++ I) = .ok (sign, x, [0]) ∧
      convert_num_str ((if sign then ['-'] else []) ++ I ++ '.' :: FR)
        = .ok (sign, lstrip_zeros x, rstrip_zeros fr) := by
  obtain ⟨c, I', rfl⟩ : ∃ c I', I = c :: I' := by
    cases I with
    | nil => exact absurd rfl hne
    | cons c I' => exact ⟨c, I', rfl⟩
  have hc1 : c ≠ '-' := by
    intro h; exact hhead.1 (by rw [h]; rfl)
  have hc2 : c ≠ '+' := by
    intro h; exact hhead.2 (by rw [h]; rfl)
  have hc3 : c ≠ '.' := by
    intro h; exact hdot (by rw [h]; exact List.mem_cons_self _ _)
  have p1 := @indexOf_point_append (c :: I') [] hdot (Or.inl rfl)
  have p2 := @indexOf_point_append (c :: I') ('.' :: FR) hdot (Or.inr ⟨FR, rfl⟩)
  rw [List.append_nil] at p1
  cases sign with
  | false =>
    constructor
    · show convert_num_str (c :: I') = _
      unfold convert_num_str
      simp only [List.head?_cons, Option.some.injEq, hc1, hc2, decide_False, Bool.or_self,
        Bool.false_eq_true, if_false, p1, List.take_length, hI]
      simp
    · show convert_num_str (c :: I' ++ '.' :: FR) = _
      unfold convert_num_str
      have hh : (c :: I' ++ '.' :: FR).head? = some c := rfl
      simp only [hh, Option.some.injEq, hc1, hc2, decide_False, Bool.or_self,
        Bool.false_eq_true, if_false, p2, List.take_left, hI]
      simp [hF]
  | true =>
    have q1 : ('-' :: c :: I').indexOf '.' = (c :: I').length + 1 := by
      rw [List.indexOf_cons_ne _ (by decide), p1]
    have q2 : ('-' :: (c :: I' ++ '.' :: FR)).indexOf '.' = (c :: I').length + 1 := by
      rw [List.indexOf_cons_ne _ (by decide), p2]
    constructor
    · show convert_num_str ('-' :: c :: I') = _
      unfold convert_num_str
      simp only [List.head?_cons, decide_True, Bool.true_or, if_true, List.tail_cons, q1,
        Nat.add_sub_cancel, List.take_length, hI]
      simp
    · show convert_num_str ('-' :: (c :: I' ++ '.' :: FR)) = _
      unfold convert_num_str
      simp only [List.head?_cons, decide_True, Bool.true_or, if_true, List.tail_cons, q2,
        Nat.add_sub_cancel, List.take_left, hI]
      simp [hF]

namespace mnum

/-- Rendering a normalized value with `str` or `float_str` and parsing the string gives
the value back. -/
theorem render_parse {v : mnum} (hv : Normalized v) :
    from_string v.str = .ok v ∧ from_string v.float_str = .ok v := by
  obtain ⟨dx, dfx, nx, nfx⟩ := hv
  obtain ⟨sign, x, fx⟩ := v
  simp only [] at dx dfx nx nfx
  have hne : convert_digits x ≠ [] := by
    intro h
    rw [convert_digits, List.map_eq_nil_iff] at h
    exact nx.1 h
  obtain ⟨p1, p2⟩ := parse_core sign (convertLoop_convert_digits dx)
    (convertLoop_convert_digits dfx) hne (point_not_mem_convert_digits dx)
    (head_convert_digits dx)
  rw [lstrip_zeros_of_intNorm nx, rstrip_zeros_of_fracNorm nfx] at p2
  constructor
  · unfold from_string str
    simp only []
    by_cases hz : is_zero fx = true
    · rw [if_pos hz, List.append_nil, p1, is_zero_iff.mp hz]
    · rw [if_neg hz, p2]
  · unfold from_string float_str
    simp only []
    rw [List.append_assoc _ ['.'] _, List.singleton_append, p2]

end mnum

/-! ### Cells of a product whose multiplicand holds arbitrary bytes -/

/-- Cells of one multiplication row, for any multiplicand cell: because `prod` is stored
in a `udigit`, the cells written are digits and the carry is at most 25. -/
theorem mulRow_cells (xd : Nat) : ∀ (ys lo t : List Nat) (c : Nat),
    lo.length = ys.length → c ≤ 25 →
    ∃ lo' c', mulRow xd ys (lo ++ 0 :: t) c = lo' ++ c' :: t ∧ lo'.length = ys.length ∧
      IsDigits lo' ∧ c' ≤ 25 := by
  intro ys
  induction ys with
  | nil =>
    intro lo t c hl hc
    have : lo = [] := List.length_eq_zero.mp hl
    subst this
    refine ⟨[], c, ?_, rfl, by intro d hd; simp at hd, hc⟩
    simp only [List.nil_append, mulRow, Nat.zero_add]
    rw [u8_of_lt (by omega)]
  | cons yd ys ih =>
    intro lo t c hl _
    cases lo with
    | nil => simp at hl
    | cons r lo =>
      have hl2 : lo.length = ys.length := by simpa using hl
      have hp : u8 (xd * yd + c + r) < 256 := Nat.mod_lt _ (by norm_num)
      have hc2 : u8 (u8 (xd * yd + c + r) / 10) ≤ 25 := by
        rw [u8_of_lt (by omega)]; omega
      have hd2 : u8 (u8 (xd * yd + c + r) % 10) ≤ 9 := by
        rw [u8_of_lt (by omega)]; omega
      obtain ⟨lo', c', h1, h2, h3, h4⟩ := ih lo t (u8 (u8 (xd * yd + c + r) / 10)) hl2 hc2
      refine ⟨u8 (u8 (xd * yd + c + r) % 10) :: lo', c', ?_, by simp [h2],
        isDigits_cons.mpr ⟨hd2, h3⟩, h4⟩
      rw [List.cons_append, mulRow, h1]
      rfl

/-- Cells of the multiplication loops for any multiplicand: all cells written are digits,
except the most significant one, which is the last carry and at most 25. -/
theorem mulLoop_cells {yr : List Nat} (hy : yr ≠ []) : ∀ (xs body : List Nat) (top : Nat),
    (body ++ [top]).length = yr.length → IsDigits body → top ≤ 25 →
    ∃ body' top',
      mulLoop yr xs ((body ++ [top]) ++ List.replicate xs.length 0) = body' ++ [top'] ∧
      IsDigits body' ∧ top' ≤ 25 ∧ body'.length + 1 = yr.length + xs.length := by
  intro xs
  induction xs with
  | nil =>
    intro body top hl hb ht
    exact ⟨body, top, by simp [mulLoop], hb, ht, by simpa using hl⟩
  | cons xd xs ih =>
    intro body top hl hb ht
    obtain ⟨lo', c', h1, h2, h3, h4⟩ := mulRow_cells xd yr (body ++ [top])
      (List.replicate xs.length 0) 0 hl (by omega)
    cases lo' with
    | nil =>
      exfalso
      exact hy (List.length_eq_zero.mp h2.symm)
    | cons r lo'' =>
      have hrow : mulRow xd yr ((body ++ [top]) ++ List.replicate (xs.length + 1) 0) 0
          = r :: ((lo'' ++ [c']) ++ List.replicate xs.length 0) := by
        rw [List.replicate_succ, h1]
        simp
      obtain ⟨body', top', i1, i2, i3, i4⟩ := ih lo'' c' (by simpa using h2)
        (isDigits_cons.mp h3).2 h4
      refine ⟨r :: body', top', ?_, isDigits_cons.mpr ⟨(isDigits_cons.mp h3).1, i2⟩, i3, ?_⟩
      · simp only [List.length_cons, mulLoop, hrow]
        rw [i1]
        rfl
      · simp only [List.length_cons]
        omega

/-- The product buffer for a non-empty multiplier and any multiplicand: the front cell is
at most 25, all others are digits. -/
theorem schoolbook_cells (x : List Nat) {y : List Nat} (hy : y ≠ []) :
    ∃ top body, schoolbook x y = top :: body ∧ top ≤ 25 ∧ IsDigits body ∧
      body.length + 1 = x.length + y.length := by
  have hyl : 0 < y.length := List.length_pos.mpr hy
  have e : List.replicate (x.length + y.length) 0
      = (List.replicate (y.length - 1) 0 ++ [0]) ++ List.replicate x.reverse.length 0 := by
    have e1 : List.replicate (y.length - 1) 0 ++ [(0 : Nat)] = List.replicate y.length 0 := by
      have : y.length = (y.length - 1) + 1 := by omega
      rw [this, List.replicate_succ', Nat.add_sub_cancel]
    rw [e1, List.length_reverse, Nat.add_comm, List.replicate_add]
  obtain ⟨body', top', h1, h2, h3, h4⟩ := @mulLoop_cells y.reverse
    (by simpa using hy) x.reverse (List.replicate (y.length - 1) 0) 0
    (by simp; omega) (isDigits_replicate_zero _) (by omega)
  refine ⟨top', body'.reverse, ?_, h3, h2.reverse, ?_⟩
  · unfold schoolbook
    rw [e, h1]
    simp
  · rw [List.length_reverse, h4, List.length_reverse, List.length_reverse]
    omega

theorem cells_lstrip_zeros {l : List Nat} {B : Nat} (h : ∀ d ∈ l, d ≤ B) :
    ∀ d ∈ lstrip_zeros l, d ≤ B := by
  rw [lstrip_zeros_eq]
  split
  · intro d hd; simp at hd; omega
  · intro d hd; exact h d ((List.dropWhile_sublist _).subset hd)

/-- The product `imul(q, [0], y, fy)` of the modulus, for quotient cells `q` of any
content: integer cells at most 25 without leading zero, fraction cells digits. -/
theorem imul_cells (q : List Nat) {y fy : List Nat} (hy : y ≠ []) :
    (∀ d ∈ (fmath.imul q [0] y fy).1, d ≤ 25) ∧ IntNorm (fmath.imul q [0] y fy).1 ∧
      IsDigits (fmath.imul q [0] y fy).2 ∧ (fmath.imul q [0] y fy).2 ≠ [] := by
  unfold fmath.imul
  split_ifs with h1 h2
  · obtain ⟨top, body, e, ht, hb, _⟩ := schoolbook_cells q hy
    refine ⟨?_, intNorm_lstrip_zeros _, isDigits_zero, by simp⟩
    unfold imath.mul
    apply cells_lstrip_zeros
    rw [e]
    intro d hd
    rcases List.mem_cons.mp hd with rfl | hd
    · exact ht
    · exact le_trans (hb d hd) (by omega)
  · exact ⟨by intro d hd; simp at hd; omega, intNorm_zero, isDigits_zero, by simp⟩
  · obtain ⟨top, body, e, ht, hb, hl⟩ := schoolbook_cells (q ++ [0]) (y := y ++ fy)
      (by simp [hy])
    simp only []
    rw [e]
    have hdp : (top :: body).length - (([0] : List Nat).length + fy.length)
        = (q.length + y.length - 1) + 1 := by
      have hyl : 0 < y.length := List.length_pos.mpr hy
      simp only [List.length_cons, List.length_append, List.length_nil] at hl ⊢
      omega
    rw [hdp]
    refine ⟨?_, intNorm_lstrip_zeros _, ?_, rstrip_zeros_ne_nil _⟩
    · apply cells_lstrip_zeros
      intro d hd
      have hd2 := List.mem_of_mem_take hd
      rcases List.mem_cons.mp hd2 with rfl | hd3
      · exact ht
      · exact le_trans (hb d hd3) (by omega)
    · apply isDigits_rstrip_zeros
      rw [List.drop_succ_cons]
      exact hb.drop _

/-! ### The final borrow of a subtraction follows the digit-by-digit comparison -/

/-- The borrow of one column for cells small enough for the signed 8-bit temporary. -/
theorem subStep_borrow {nx ny b : Nat} (hx : nx ≤ 100) (hy : ny ≤ 100) (hb : b ≤ 1) :
    (subStep nx ny b).2 = if nx < ny + b then 1 else 0 := by
  unfold subStep i8
  simp only []
  split_ifs <;> first | rfl | omega

theorem subStep_borrow_le (nx ny b : Nat) : (subStep nx ny b).2 ≤ 1 := by
  unfold subStep
  simp only []
  split_ifs <;> first | exact Nat.zero_le _ | exact le_refl _

theorem subLoop_borrow_le : ∀ (n : Nat) (xr yr : List Nat) (b : Nat), b ≤ 1 →
    (subLoop n xr yr b).2 ≤ 1 := by
  intro n
  induction n with
  | zero => intro xr yr b hb; exact hb
  | succ n ih =>
    intro xr yr b _
    simp only [subLoop]
    exact ih _ _ _ (subStep_borrow_le _ _ _)

/-- The last column of the subtraction loop, split off. -/
theorem subLoop_snoc : ∀ (n : Nat) (xr yr : List Nat) (b xt yt : Nat),
    xr.length = n → yr.length = n →
    (subLoop (n + 1) (xr ++ [xt]) (yr ++ [yt]) b).2
      = (subStep xt yt (subLoop n xr yr b).2).2 := by
  intro n
  induction n with
  | zero =>
    intro xr yr b xt yt hx hy
    have hx0 : xr = [] := List.length_eq_zero.mp hx
    have hy0 : yr = [] := List.length_eq_zero.mp hy
    subst hx0 hy0
    rfl
  | succ n ih =>
    intro xr yr b xt yt hx hy
    cases xr with
    | nil => simp at hx
    | cons x0 xr =>
      cases yr with
      | nil => simp at hy
      | cons y0 yr =>
        have h := ih xr yr (subStep x0 y0 b).2 xt yt (by simpa using hx) (by simpa using hy)
        rw [subLoop]
        simp only [List.cons_append, List.headD_cons, List.tail_cons]
        rw [h]
        rfl

/-- Reading past the end of the subtrahend gives `0`, as if it were padded. -/
theorem subLoop_pad : ∀ (n : Nat) (xr yr : List Nat) (b k : Nat),
    subLoop n xr (yr ++ List.replicate k 0) b = subLoop n xr yr b := by
  intro n
  induction n with
  | zero => intro xr yr b k; rfl
  | succ n ih =>
    intro xr yr b k
    cases yr with
    | cons y0 yr =>
      simp only [subLoop, List.cons_append, List.headD_cons, List.tail_cons]
      rw [ih]
    | nil =>
      cases k with
      | zero => rfl
      | succ k =>
        simp only [subLoop, List.nil_append, List.replicate_succ, List.headD_cons,
          List.tail_cons, List.headD_nil, List.tail_nil]
        have := ih xr.tail [] (subStep (xr.headD 0) 0 b).2 k
        rw [List.nil_append] at this
        rw [this]

theorem cmpLoop_swap : ∀ (x y : List Nat), cmpLoop y x = -cmpLoop x y := by
  intro x
  induction x with
  | nil => intro y; cases y <;> rfl
  | cons vx xs ih =>
    intro y
    cases y with
    | nil => rfl
    | cons vy ys =>
      simp only [cmpLoop]
      by_cases h : vx = vy
      · rw [if_pos h, if_pos h.symm]; exact ih ys
      · rw [if_neg h, if_neg (fun e => h e.symm)]
        split_ifs <;> first | rfl | omega

theorem cmpLoop_eq_zero : ∀ (x y : List Nat), x.length = y.length → cmpLoop x y = 0 → x = y := by
  intro x
  induction x with
  | nil =>
    intro y hl _
    exact (List.length_eq_zero.mp hl.symm).symm
  | cons vx xs ih =>
    intro y hl h
    cases y with
    | nil => simp at hl
    | cons vy ys =>
      simp only [cmpLoop] at h
      by_cases e : vx = vy
      · rw [if_pos e] at h
        rw [e, ih ys (by simpa using hl) h]
      · rw [if_neg e] at h
        split_ifs at h
        exact absurd h (by decide)

/-- The final borrow of the subtraction loop over two vectors of the same size follows
the comparison from the most significant cell: no borrow when the minuend compares
greater, a borrow when it compares less, the incoming borrow when they are equal. -/
theorem subLoop_lex : ∀ (big small : List Nat), big.length = small.length →
    (∀ d ∈ big, d ≤ 100) → (∀ d ∈ small, d ≤ 100) → ∀ b, b ≤ 1 →
    (subLoop big.length big.reverse small.reverse b).2
      = if cmpLoop big small = 1 then 0 else if cmpLoop big small = -1 then 1 else b := by
  intro big
  induction big with
  | nil =>
    intro small hl _ _ b _
    have : small = [] := List.length_eq_zero.mp hl.symm
    subst this
    rfl
  | cons bh bt ih =>
    intro small hl hb hs b hb1
    cases small with
    | nil => simp at hl
    | cons sh st =>
      have hl2 : bt.length = st.length := by simpa using hl
      have hbh : bh ≤ 100 := hb bh (List.mem_cons_self _ _)
      have hsh : sh ≤ 100 := hs sh (List.mem_cons_self _ _)
      have i := ih st hl2 (fun d hd => hb d (List.mem_cons_of_mem _ hd))
        (fun d hd => hs d (List.mem_cons_of_mem _ hd)) b hb1
      have hB := subLoop_borrow_le bt.length bt.reverse st.reverse b hb1
      rw [List.reverse_cons, List.reverse_cons, List.length_cons,
        subLoop_snoc bt.length bt.reverse st.reverse b bh sh (List.length_reverse _)
          (by rw [List.length_reverse, hl2]),
        subStep_borrow hbh hsh hB]
      by_cases e : bh = sh
      · subst e
        simp only [cmpLoop, if_true]
        rw [← i]
        generalize (subLoop bt.length bt.reverse st.reverse b).2 = B at hB ⊢
        split_ifs <;> omega
      · by_cases g : bh > sh
        · simp only [cmpLoop, if_neg e, if_pos g, if_true]
          rw [if_neg (by omega)]
        · have hne : ¬ ((-1 : Int) = 1) := by decide
          simp only [cmpLoop, if_neg e, if_neg g, if_neg hne, if_true]
          rw [if_pos (by omega)]

/-- No borrow is left when the minuend compares greater under the two-argument `cmp` and
has no leading zero, for cells of at most 100 and any incoming borrow. -/
theorem subLoop_no_borrow {big small : List Nat} (hb : ∀ d ∈ big, d ≤ 100)
    (hs : ∀ d ∈ small, d ≤ 100) (nb : IntNorm big) (hsm : small ≠ [])
    (hc : cmp big small = 1) {b : Nat} (hb1 : b ≤ 1) :
    (subLoop (max big.length small.length) big.reverse small.reverse b).2 = 0 := by
  unfold cmp at hc
  by_cases hl : big.length = small.length
  · rw [if_neg (by simpa using hl)] at hc
    rw [← hl, max_self, subLoop_lex big small hl hb hs b hb1, if_pos hc]
  · rw [if_pos hl] at hc
    have hgt : big.length > small.length := by
      by_contra h
      rw [if_neg h] at hc
      exact absurd hc (by decide)
    have hsl : 0 < small.length := List.length_pos.mpr hsm
    have hmax : max big.length small.length = big.length := max_eq_left (by omega)
    obtain ⟨k, hk⟩ : ∃ k, big.length = small.length + (k + 1) :=
      ⟨big.length - small.length - 1, by omega⟩
    have hpad : small.reverse ++ List.replicate (k + 1) 0
        = (List.replicate (k + 1) 0 ++ small).reverse := by
      rw [List.reverse_append, List.reverse_replicate]
    rw [hmax, ← subLoop_pad big.length big.reverse small.reverse b (k + 1), hpad,
      subLoop_lex big (List.replicate (k + 1) 0 ++ small) (by simp; omega) hb
        (by
          intro d hd
          rcases List.mem_append.mp hd with h | h
          · rw [List.eq_of_mem_replicate h]; omega
          · exact hs d h) b hb1]
    cases big with
    | nil => simp at hgt
    | cons bh bt =>
      have hbh : bh ≠ 0 := by
        intro h0
        have := nb.2 (by rw [front_cons]; exact h0)
        rw [this] at hk
        simp at hk
        omega
      rw [List.replicate_succ, List.cons_append]
      simp only [cmpLoop, if_neg hbh, if_pos (Nat.pos_of_ne_zero hbh), if_true]

theorem cmp_cases (x y : List Nat) : cmp x y = 0 ∨ cmp x y = 1 ∨ cmp x y = -1 := by
  have hcl : ∀ (x y : List Nat), cmpLoop x y = 0 ∨ cmpLoop x y = 1 ∨ cmpLoop x y = -1 := by
    intro x
    induction x with
    | nil => intro y; left; cases y <;> rfl
    | cons vx xs ih =>
      intro y
      cases y with
      | nil => left; rfl
      | cons vy ys =>
        simp only [cmpLoop]
        split_ifs
        · exact ih ys
        · right; left; rfl
        · right; right; rfl
  unfold cmp
  split_ifs
  · right; left; rfl
  · right; right; rfl
  · exact hcl x y

theorem cmp_swap {x y : List Nat} (h : cmp x y = -1) : cmp y x = 1 := by
  unfold cmp at h ⊢
  by_cases hl : x.length = y.length
  · rw [if_neg (by simpa using hl)] at h
    rw [if_neg (by simpa using hl.symm), cmpLoop_swap x y, h]
    rfl
  · rw [if_pos hl] at h
    rw [if_pos (fun e => hl e.symm)]
    by_cases g : x.length > y.length
    · rw [if_pos g] at h
      exact absurd h (by decide)
    · rw [if_pos (by omega)]

theorem cmp_eq_zero {x y : List Nat} (h : cmp x y = 0) : x = y := by
  unfold cmp at h
  by_cases hl : x.length = y.length
  · rw [if_neg (by simpa using hl)] at h
    exact cmpLoop_eq_zero x y hl h
  · rw [if_pos hl] at h
    split_ifs at h
    exact absurd h (by decide)

/-! ### The modulus returns a value -/

/-- Decimal `isub` of a digit minuend and a subtrahend whose integer cells are at most 25
(a product by quotient cells of any content), with the comparison results computed as in
`signed_isub`: neither assertion fires. -/
theorem fmath_isub_cells_ok {x fx p fp : List Nat} (hx : IsDigits x) (hfx : IsDigits fx)
    (nx : IntNorm x) (hp : ∀ d ∈ p, d ≤ 25) (np : IntNorm p) (hfp : IsDigits fp) :
    ∃ r, fmath.isub x fx p fp (cmp x p) (if cmp x p = 0 then fcmp fx fp else cmp x p)
      = .ok r := by
  have hx100 : ∀ d ∈ x, d ≤ 100 := fun d hd => le_trans (hx d hd) (by omega)
  have hp100 : ∀ d ∈ p, d ≤ 100 := fun d hd => le_trans (hp d hd) (by omega)
  rcases cmp_cases x p with h0 | h1 | h1
  · have e := cmp_eq_zero h0
    subst e
    obtain ⟨x', fx', h, _⟩ := fmath_isub_spec hx hfx hx hfp nx nx
    exact ⟨_, h⟩
  · have hne : ¬ ((1 : Int) = 0) := by decide
    have hne2 : ¬ ((1 : Int) = -1) := by decide
    have hb := subLoop_borrow_le (max fx.length fp.length)
      (padRight fx (max fx.length fp.length)).reverse
      (padRight fp (max fx.length fp.length)).reverse 0 (by omega)
    have hz := subLoop_no_borrow hx100 hp100 nx np.1 h1 hb
    unfold fmath.isub
    simp only [h1, hne, hne2, false_and, if_false, decide_False, Bool.false_eq_true]
    rw [if_neg (by rw [hz]; exact fun h => h rfl)]
    exact ⟨_, rfl⟩
  · have hne : ¬ ((-1 : Int) = 0) := by decide
    have hb := subLoop_borrow_le (max fx.length fp.length)
      (padRight fp (max fx.length fp.length)).reverse
      (padRight fx (max fx.length fp.length)).reverse 0 (by omega)
    have hz := subLoop_no_borrow hp100 hx100 np nx.1 (cmp_swap h1) hb
    rw [max_comm] at hz
    unfold fmath.isub
    simp only [h1, hne, false_and, if_false, decide_True, if_true]
    rw [if_neg (by rw [hz]; exact fun h => h rfl)]
    exact ⟨_, rfl⟩

namespace mnum

/-- Floor division returns a value on every divisor of non-zero magnitude. -/
theorem floor_div_ok {a b : mnum} (ha : WeakNorm a) (hb : WeakNorm b) (hz : ¬ ZeroMag b) :
    ∃ q, fmath.signed_floor_div a.integer a.fraction b.integer b.fraction a.sign b.sign
      = .ok q := by
  have h0 : val (fmath.scaleOperands a.integer a.fraction b.integer b.fraction).2 ≠ 0 :=
    fun h => hz ((scaled_divisor_eq_zero_iff ha hb).mp h)
  obtain ⟨k, _, d2, _, _⟩ := scaleOperands_spec ha.1 ha.2.1 hb.1 hb.2.1
  obtain ⟨r, hq⟩ := imath.divmod_ok
    (fmath.scaleOperands a.integer a.fraction b.integer b.fraction).1 d2 h0
  have h2 : fmath.divmod a.integer a.fraction b.integer b.fraction = .ok r := hq
  unfold fmath.signed_floor_div
  rw [h2]
  simp only []
  split_ifs <;> exact ⟨_, rfl⟩

/-- The modulus `a % b` returns a value on every divisor of non-zero magnitude: whatever
cells the quotient holds, the subtraction `a - b * quotient` leaves no borrow. -/
theorem operator_mod_ok {a b : mnum} (ha : WeakNorm a) (hb : WeakNorm b) (hz : ¬ ZeroMag b) :
    ∃ r, operator_mod a b = .ok r := by
  obtain ⟨q, hq⟩ := floor_div_ok ha hb hz
  obtain ⟨c1, c2, c3, _⟩ := @imul_cells q.1 b.integer b.fraction hb.2.2.1.1
  obtain ⟨r, hr⟩ := fmath_isub_cells_ok ha.1 ha.2.1 ha.2.2.1 c1 c2 c3
  unfold operator_mod fmath.signed_imod
  rw [hq]
  simp only []
  unfold fmath.signed_isub
  split_ifs
  · exact ⟨_, rfl⟩
  · simp only [hr]
    split_ifs <;> exact ⟨_, rfl⟩

end mnum

/-! ## The claims -/

namespace mnum

/-- C1: add/subtract inverse. For all normalized `a` and `b` (any signs, any fraction
lengths), `(a + b) - b == a` and `(a - b) + b == a` under `operator+`, `operator-` and
`operator==`, and no step of either chain trips the residual-borrow assertion. -/
theorem C1_add_sub_inverse (a b : mnum) (ha : a.Normalized) (hb : b.Normalized) :
    (∃ c d, a.operator_plus b = .ok c ∧ c.operator_minus b = .ok d ∧ d.operator_eq a = true) ∧
      (∃ c d, a.operator_minus b = .ok c ∧ c.operator_plus b = .ok d ∧
        d.operator_eq a = true) := by
  have wa := ha.weakNorm
  have wb := hb.weakNorm
  constructor
  · obtain ⟨c, hc, wc, vc, _⟩ := operator_plus_spec wa wb
    obtain ⟨d, hd, wd, vd⟩ := operator_minus_spec wc wb
    exact ⟨c, d, hc, hd, operator_eq_of_value_eq wd wa (by rw [vd, vc]; ring)⟩
  · obtain ⟨c, hc, wc, vc⟩ := operator_minus_spec wa wb
    obtain ⟨d, hd, wd, vd, _⟩ := operator_plus_spec wc wb
    exact ⟨c, d, hc, hd, operator_eq_of_value_eq wd wa (by rw [vd, vc]; ring)⟩

/-- Witness for C1 at `a = -1.5`, `b = 2.75`. -/
theorem C1_add_sub_inverse_witness :
    Normalized ⟨true, [1], [5]⟩ ∧ Normalized ⟨false, [2], [7, 5]⟩ ∧
      ((∃ c d, operator_plus ⟨true, [1], [5]⟩ ⟨false, [2], [7, 5]⟩ = .ok c ∧
          c.operator_minus ⟨false, [2], [7, 5]⟩ = .ok d ∧
          d.operator_eq ⟨true, [1], [5]⟩ = true) ∧
        (∃ c d, operator_minus ⟨true, [1], [5]⟩ ⟨false, [2], [7, 5]⟩ = .ok c ∧
          c.operator_plus ⟨false, [2], [7, 5]⟩ = .ok d ∧
          d.operator_eq ⟨true, [1], [5]⟩ = true)) :=
  ⟨by decide, by decide,
    C1_add_sub_inverse ⟨true, [1], [5]⟩ ⟨false, [2], [7, 5]⟩ (by decide) (by decide)⟩

/-- C2: signed addition is exact. For all normalized `a` and `b`, `a + b` returns a value
whose signed rational value `sign * (int + frac / 10 ^ len(frac))` is
`value(a) + value(b)`; for opposite signs the result takes the sign of the operand with
the larger magnitude and is the non-negative zero `[0].[0]` when the magnitudes are equal;
and `123.45 + 1.6 = 125.05`. -/
theorem C2_signed_add_exact (a b : mnum) (ha : a.Normalized) (hb : b.Normalized) :
    (∃ c, a.operator_plus b = .ok c ∧ c.value = a.value + b.value ∧
      (a.sign ≠ b.sign →
        (b.mag < a.mag → c.sign = a.sign) ∧ (a.mag < b.mag → c.sign = b.sign) ∧
        (a.mag = b.mag → c = ⟨false, [0], [0]⟩))) ∧
      operator_plus ⟨false, [1, 2, 3], [4, 5]⟩ ⟨false, [1], [6]⟩
        = .ok ⟨false, [1, 2, 5], [0, 5]⟩ := by
  obtain ⟨c, hc, _, vc, _, hs⟩ := operator_plus_spec ha.weakNorm hb.weakNorm
  exact ⟨⟨c, hc, vc, hs⟩, by decide⟩

/-- Witness for C2 at `a = 9.95`, `b = -0.05`. -/
theorem C2_signed_add_exact_witness :
    Normalized ⟨false, [9], [9, 5]⟩ ∧ Normalized ⟨true, [0], [0, 5]⟩ ∧
      ((∃ c, operator_plus ⟨false, [9], [9, 5]⟩ ⟨true, [0], [0, 5]⟩ = .ok c ∧
        c.value = value ⟨false, [9], [9, 5]⟩ + value ⟨true, [0], [0, 5]⟩ ∧
        ((⟨false, [9], [9, 5]⟩ : mnum).sign ≠ (⟨true, [0], [0, 5]⟩ : mnum).sign →
          (mag ⟨true, [0], [0, 5]⟩ < mag ⟨false, [9], [9, 5]⟩ →
            c.sign = (⟨false, [9], [9, 5]⟩ : mnum).sign) ∧
          (mag ⟨false, [9], [9, 5]⟩ < mag ⟨true, [0], [0, 5]⟩ →
            c.sign = (⟨true, [0], [0, 5]⟩ : mnum).sign) ∧
          (mag ⟨false, [9], [9, 5]⟩ = mag ⟨true, [0], [0, 5]⟩ → c = ⟨false, [0], [0]⟩))) ∧
        operator_plus ⟨false, [1, 2, 3], [4, 5]⟩ ⟨false, [1], [6]⟩
          = .ok ⟨false, [1, 2, 5], [0, 5]⟩) :=
  ⟨by decide, by decide,
    C2_signed_add_exact ⟨false, [9], [9, 5]⟩ ⟨true, [0], [0, 5]⟩ (by decide) (by decide)⟩

/-- C3: multiplication is exact. For all normalized `a` and `b` the magnitude of `a * b`
(`imul`: integer-only product, multiply-by-zero, or the schoolbook product of the
concatenated digits re-split at `productLength - (fracLenX + fracLenY)`) is
`|value(a)| * |value(b)|` as a rational, the sign is `a.sign XOR b.sign`, and
`2 * 0.5 = 1`. -/
theorem C3_mul_exact (a b : mnum) (ha : a.Normalized) (hb : b.Normalized) :
    (a.operator_mul b).mag = a.mag * b.mag ∧ (a.operator_mul b).sign = xor a.sign b.sign ∧
      operator_mul ⟨false, [2], [0]⟩ ⟨false, [0], [5]⟩ = ⟨false, [1], [0]⟩ := by
  obtain ⟨_, h2, h3, _⟩ := operator_mul_spec ha.weakNorm hb.weakNorm
  exact ⟨h2, h3, by decide⟩

/-- Witness for C3 at `a = -12.5`, `b = 0.04`. -/
theorem C3_mul_exact_witness :
    Normalized ⟨true, [1, 2], [5]⟩ ∧ Normalized ⟨false, [0], [0, 4]⟩ ∧
      (operator_mul ⟨true, [1, 2], [5]⟩ ⟨false, [0], [0, 4]⟩).mag
        = mag ⟨true, [1, 2], [5]⟩ * mag ⟨false, [0], [0, 4]⟩ ∧
      (operator_mul ⟨true, [1, 2], [5]⟩ ⟨false, [0], [0, 4]⟩).sign
        = xor (⟨true, [1, 2], [5]⟩ : mnum).sign (⟨false, [0], [0, 4]⟩ : mnum).sign ∧
      operator_mul ⟨false, [2], [0]⟩ ⟨false, [0], [5]⟩ = ⟨false, [1], [0]⟩ :=
  ⟨by decide, by decide,
    C3_mul_exact ⟨true, [1, 2], [5]⟩ ⟨false, [0], [0, 4]⟩ (by decide) (by decide)⟩

/-- C4 fails on the code: `0.25 + 0.75` leaves the fraction `[0, 0]`, which has a trailing
zero and is not `[0]`; neither `iadd` nor `isub` strips the fraction they produce. -/
theorem C4_sum_fraction_keeps_trailing_zeros :
    Normalized ⟨false, [0], [2, 5]⟩ ∧ Normalized ⟨false, [0], [7, 5]⟩ ∧
      operator_plus ⟨false, [0], [2, 5]⟩ ⟨false, [0], [7, 5]⟩ = .ok ⟨false, [1], [0, 0]⟩ ∧
      ¬ FracNorm [0, 0] ∧
      operator_minus ⟨false, [1], [2, 5]⟩ ⟨false, [0], [0, 5]⟩ = .ok ⟨false, [1], [2, 0]⟩ ∧
      ¬ FracNorm [2, 0] := by decide

/-- C5 fails on the code: for `a = -1`, `b = -2` both `a < b` and `a > b` are true, and for
`a = -0.5`, `b = 0.5` none of `a < b`, `a == b`, `a > b` is. -/
theorem C5_trichotomy_fails :
    Normalized ⟨true, [1], [0]⟩ ∧ Normalized ⟨true, [2], [0]⟩ ∧
      operator_lt ⟨true, [1], [0]⟩ ⟨true, [2], [0]⟩ = true ∧
      operator_gt ⟨true, [1], [0]⟩ ⟨true, [2], [0]⟩ = true ∧
      operator_eq ⟨true, [1], [0]⟩ ⟨true, [2], [0]⟩ = false ∧
      Normalized ⟨true, [0], [5]⟩ ∧ Normalized ⟨false, [0], [5]⟩ ∧
      operator_lt ⟨true, [0], [5]⟩ ⟨false, [0], [5]⟩ = false ∧
      operator_eq ⟨true, [0], [5]⟩ ⟨false, [0], [5]⟩ = false ∧
      operator_gt ⟨true, [0], [5]⟩ ⟨false, [0], [5]⟩ = false := by decide

/-- C6 fails on the code: `-1 < -2` is true and `-2 < -1` is false (the both-negative
branch of `operator<` tests `comp == -1`), and `-0.5 < 0.5` is false. -/
theorem C6_operator_lt_not_numeric :
    operator_lt ⟨true, [1], [0]⟩ ⟨true, [2], [0]⟩ = true ∧
      operator_lt ⟨true, [2], [0]⟩ ⟨true, [1], [0]⟩ = false ∧
      ¬ (value ⟨true, [1], [0]⟩ < value ⟨true, [2], [0]⟩) ∧
      operator_lt ⟨true, [0], [5]⟩ ⟨false, [0], [5]⟩ = false := by
  refine ⟨by decide, by decide, ?_, by decide⟩
  norm_num [value, mag, mag2, val]

/-- C7 fails on the code: against `v = -5` the sign bit of a zero changes the result of
`<` and of `<=`, in both argument orders; `0 == -0` does hold. -/
theorem C7_zero_sign_changes_lt :
    operator_lt ⟨true, [0], [0]⟩ ⟨true, [5], [0]⟩ = true ∧
      operator_lt ⟨false, [0], [0]⟩ ⟨true, [5], [0]⟩ = false ∧
      operator_lt ⟨true, [5], [0]⟩ ⟨true, [0], [0]⟩ = false ∧
      operator_lt ⟨true, [5], [0]⟩ ⟨false, [0], [0]⟩ = true ∧
      operator_le ⟨true, [0], [0]⟩ ⟨true, [5], [0]⟩ = true ∧
      operator_le ⟨false, [0], [0]⟩ ⟨true, [5], [0]⟩ = false ∧
      operator_eq ⟨false, [0], [0]⟩ (operator_neg ⟨false, [0], [0]⟩) = true := by decide

/-- C9 as stated fails: the accumulator of the long division is a `double`. For `a = 1`
and the positive divisor `b = 0.33333333333333333334` the scaled divisor is rounded, the
quotient digit comes out as `3`, and `a % b` is `-0.00000000000000000002`: not of zero
magnitude and negative. For `b = 8633005438261322` and `a = 33 * b` (both integers, `b`
below `2 ^ 53`) `a % b` is `b`, whose magnitude is not less than that of `b`. -/
theorem C9_mod_sign_and_size_fail_on_double_accumulator :
    Normalized ⟨false, [1], [0]⟩ ∧
      Normalized ⟨false, [0], [3, 3, 3, 3, 3, 3, 3, 3, 3, 3, 3, 3, 3, 3, 3, 3, 3, 3, 3, 4]⟩ ∧
      operator_mod ⟨false, [1], [0]⟩
          ⟨false, [0], [3, 3, 3, 3, 3, 3, 3, 3, 3, 3, 3, 3, 3, 3, 3, 3, 3, 3, 3, 4]⟩
        = .ok ⟨true, [0], [0, 0, 0, 0, 0, 0, 0, 0, 0, 0, 0, 0, 0, 0, 0, 0, 0, 0, 0, 2]⟩ ∧
      ¬ ZeroMag ⟨true, [0], [0, 0, 0, 0, 0, 0, 0, 0, 0, 0, 0, 0, 0, 0, 0, 0, 0, 0, 0, 2]⟩ ∧
      Normalized ⟨false, [2, 8, 4, 8, 8, 9, 1, 7, 9, 4, 6, 2, 6, 2, 3, 6, 2, 6], [0]⟩ ∧
      Normalized ⟨false, [8, 6, 3, 3, 0, 0, 5, 4, 3, 8, 2, 6, 1, 3, 2, 2], [0]⟩ ∧
      val [2, 8, 4, 8, 8, 9, 1, 7, 9, 4, 6, 2, 6, 2, 3, 6, 2, 6]
        = 33 * val [8, 6, 3, 3, 0, 0, 5, 4, 3, 8, 2, 6, 1, 3, 2, 2] ∧
      operator_mod ⟨false, [2, 8, 4, 8, 8, 9, 1, 7, 9, 4, 6, 2, 6, 2, 3, 6, 2, 6], [0]⟩
          ⟨false, [8, 6, 3, 3, 0, 0, 5, 4, 3, 8, 2, 6, 1, 3, 2, 2], [0]⟩
        = .ok ⟨false, [8, 6, 3, 3, 0, 0, 5, 4, 3, 8, 2, 6, 1, 3, 2, 2], [0]⟩ := by decide!

/-- C9 amended: for every normalized `a` and every normalized `b` of non-zero magnitude
such that ten times the divisor, scaled to a whole number together with the dividend, is
at most `2 ^ 53`, `a % b` returns a value that is either of zero magnitude or has the sign
of `b`, and whose magnitude is strictly less than that of `b`; `-7 % 2 = 1` and
`7 % -2 = -1`. -/
theorem C9_mod_follows_divisor (a b : mnum) (ha : a.Normalized) (hb : b.Normalized)
    (hb0 : ¬ b.ZeroMag)
    (hex : val (fmath.scaleOperands a.integer a.fraction b.integer b.fraction).2 * 10
      ≤ 2 ^ 53) :
    (∃ r, a.operator_mod b = .ok r ∧ (r.ZeroMag ∨ r.sign = b.sign) ∧ r.mag < b.mag) ∧
      operator_mod ⟨true, [7], [0]⟩ ⟨false, [2], [0]⟩ = .ok ⟨false, [1], [0]⟩ ∧
      operator_mod ⟨false, [7], [0]⟩ ⟨true, [2], [0]⟩ = .ok ⟨true, [1], [0]⟩ := by
  refine ⟨?_, by decide!, by decide!⟩
  have wa := ha.weakNorm
  have wb := hb.weakNorm
  obtain ⟨q, r, _, _, _, h4, h5, h6, h7⟩ := operator_mod_spec wa wb hb0 hex
  refine ⟨r, h5, ?_⟩
  have hbm : b.mag ≠ 0 := fun h => hb0 (wb.mag_eq_zero_iff.mp h)
  have hbp : 0 < b.mag := lt_of_le_of_ne (mag_nonneg b) (Ne.symm hbm)
  have hv0 : b.value ≠ 0 := by
    unfold value; cases b.sign <;> simp [hbm]
  have hfl := Int.floor_le (a.value / b.value)
  have hfu := Int.lt_floor_add_one (a.value / b.value)
  obtain ⟨f, hf0, hf1, hrv⟩ : ∃ f : ℚ, 0 ≤ f ∧ f < 1 ∧ r.value = b.value * f :=
    ⟨a.value / b.value - ((⌊a.value / b.value⌋ : ℤ) : ℚ), by linarith, by linarith, by
      rw [h7, h4]; field_simp⟩
  have hzero : r.mag = 0 → r.ZeroMag := h6.mag_eq_zero_iff.mp
  have hrm := abs_value r
  cases hbs : b.sign
  · have hbv : b.value = b.mag := by unfold value; rw [hbs]; rfl
    rw [hbv] at hrv
    have h0 : 0 ≤ r.value := by rw [hrv]; exact mul_nonneg hbp.le hf0
    have h1 : r.value < b.mag := by
      rw [hrv]; calc b.mag * f < b.mag * 1 := mul_lt_mul_of_pos_left hf1 hbp
        _ = b.mag := mul_one _
    rw [abs_of_nonneg h0] at hrm
    refine ⟨?_, by rw [← hrm]; exact h1⟩
    by_cases hr0 : r.mag = 0
    · exact Or.inl (hzero hr0)
    · right
      cases hrs : r.sign
      · rfl
      · have := value_neg_of_sign_true hrs
        exact absurd (by rw [← hrm]; linarith) hr0
  · have hbv : b.value = -b.mag := by unfold value; rw [hbs]; rfl
    rw [hbv] at hrv
    have h0 : r.value ≤ 0 := by
      rw [hrv]; exact mul_nonpos_of_nonpos_of_nonneg (by linarith) hf0
    have h1 : -b.mag < r.value := by
      rw [hrv]; calc -b.mag = -b.mag * 1 := (mul_one _).symm
        _ < -b.mag * f := mul_lt_mul_of_neg_left hf1 (by linarith)
    rw [abs_of_nonpos h0] at hrm
    refine ⟨?_, by rw [← hrm]; linarith⟩
    by_cases hr0 : r.mag = 0
    · exact Or.inl (hzero hr0)
    · right
      cases hrs : r.sign
      · have := value_pos_of_sign_false hrs
        exact absurd (by rw [← hrm]; linarith) hr0
      · rfl

/-- Witness for C9 at `a = 7.5`, `b = -2`. -/
theorem C9_mod_follows_divisor_witness :
    Normalized ⟨false, [7], [5]⟩ ∧ Normalized ⟨true, [2], [0]⟩ ∧ ¬ ZeroMag ⟨true, [2], [0]⟩ ∧
      val (fmath.scaleOperands [7] [5] [2] [0]).2 * 10 ≤ 2 ^ 53 ∧
      ((∃ r, operator_mod ⟨false, [7], [5]⟩ ⟨true, [2], [0]⟩ = .ok r ∧
          (r.ZeroMag ∨ r.sign = (⟨true, [2], [0]⟩ : mnum).sign) ∧
          r.mag < mag ⟨true, [2], [0]⟩) ∧
        operator_mod ⟨true, [7], [0]⟩ ⟨false, [2], [0]⟩ = .ok ⟨false, [1], [0]⟩ ∧
        operator_mod ⟨false, [7], [0]⟩ ⟨true, [2], [0]⟩ = .ok ⟨true, [1], [0]⟩) :=
  ⟨by decide, by decide, by decide, by decide,
    C9_mod_follows_divisor ⟨false, [7], [5]⟩ ⟨true, [2], [0]⟩ (by decide) (by decide)
      (by decide) (by decide)⟩

/-- C10 as stated fails: the accumulator of the long division is a `double`. For `a = 1`
and `b = 0.33333333333333333334` the quotient `a / b` lies strictly between `2` and `3`,
so its floor is `2`, and `a.floor_div(b)` returns `3`. -/
theorem C10_floor_div_too_large_on_double_accumulator :
    Normalized ⟨false, [1], [0]⟩ ∧
      Normalized ⟨false, [0], [3, 3, 3, 3, 3, 3, 3, 3, 3, 3, 3, 3, 3, 3, 3, 3, 3, 3, 3, 4]⟩ ∧
      floor_div ⟨false, [1], [0]⟩
          ⟨false, [0], [3, 3, 3, 3, 3, 3, 3, 3, 3, 3, 3, 3, 3, 3, 3, 3, 3, 3, 3, 4]⟩
        = .ok ⟨false, [3], [0]⟩ ∧
      ⌊value ⟨false, [1], [0]⟩
          / value ⟨false, [0], [3, 3, 3, 3, 3, 3, 3, 3, 3, 3, 3, 3, 3, 3, 3, 3, 3, 3, 3, 4]⟩⌋
        = 2 := by
  refine ⟨by decide, by decide, by decide!, ?_⟩
  have hv : val [3, 3, 3, 3, 3, 3, 3, 3, 3, 3, 3, 3, 3, 3, 3, 3, 3, 3, 3, 4]
      = 33333333333333333334 := by decide
  have hl : ([3, 3, 3, 3, 3, 3, 3, 3, 3, 3, 3, 3, 3, 3, 3, 3, 3, 3, 3, 4] : List Nat).length
      = 20 := rfl
  have ha : value ⟨false, [1], [0]⟩ = 1 := by norm_num [value, mag, mag2, val]
  have hb : value ⟨false, [0], [3, 3, 3, 3, 3, 3, 3, 3, 3, 3, 3, 3, 3, 3, 3, 3, 3, 3, 3, 4]⟩
      = 33333333333333333334 / 10 ^ 20 := by
    unfold value mag mag2
    simp only [hv, hl, val_singleton]
    norm_num
  rw [ha, hb, Int.floor_eq_iff]
  constructor <;> norm_num

/-- C10 amended: for every normalized `a` and every normalized `b` of non-zero magnitude
such that ten times the divisor, scaled to a whole number together with the dividend, is
at most `2 ^ 53`, `a.floor_div(b)` returns a value with fraction part `[0]` whose signed
integer value is `floor(value(a) / value(b))`; `7 // 2 = 3` and `-7 // 2 = -4`. -/
theorem C10_floor_div_rounds_down (a b : mnum) (ha : a.Normalized) (hb : b.Normalized)
    (hb0 : ¬ b.ZeroMag)
    (hex : val (fmath.scaleOperands a.integer a.fraction b.integer b.fraction).2 * 10
      ≤ 2 ^ 53) :
    (∃ q, a.floor_div b = .ok q ∧ q.fraction = [0] ∧ q.int_value = ⌊a.value / b.value⌋) ∧
      floor_div ⟨false, [7], [0]⟩ ⟨false, [2], [0]⟩ = .ok ⟨false, [3], [0]⟩ ∧
      floor_div ⟨true, [7], [0]⟩ ⟨false, [2], [0]⟩ = .ok ⟨true, [4], [0]⟩ := by
  refine ⟨?_, by decide!, by decide!⟩
  obtain ⟨q, h1, _, h3, h4⟩ := floor_div_spec ha.weakNorm hb.weakNorm hb0 hex
  refine ⟨q, h1, h3, ?_⟩
  rw [value_of_frac_zero h3] at h4
  exact_mod_cast h4

/-- Witness for C10 at `a = -7.5`, `b = 0.25`. -/
theorem C10_floor_div_rounds_down_witness :
    Normalized ⟨true, [7], [5]⟩ ∧ Normalized ⟨false, [0], [2, 5]⟩ ∧
      ¬ ZeroMag ⟨false, [0], [2, 5]⟩ ∧
      val (fmath.scaleOperands [7] [5] [0] [2, 5]).2 * 10 ≤ 2 ^ 53 ∧
      ((∃ q, floor_div ⟨true, [7], [5]⟩ ⟨false, [0], [2, 5]⟩ = .ok q ∧ q.fraction = [0] ∧
          q.int_value = ⌊value ⟨true, [7], [5]⟩ / value ⟨false, [0], [2, 5]⟩⌋) ∧
        floor_div ⟨false, [7], [0]⟩ ⟨false, [2], [0]⟩ = .ok ⟨false, [3], [0]⟩ ∧
        floor_div ⟨true, [7], [0]⟩ ⟨false, [2], [0]⟩ = .ok ⟨true, [4], [0]⟩) :=
  ⟨by decide, by decide, by decide, by decide,
    C10_floor_div_rounds_down ⟨true, [7], [5]⟩ ⟨false, [0], [2, 5]⟩ (by decide) (by decide)
      (by decide) (by decide)⟩

/-- C11: division by zero is raised exactly when the divisor is zero. For all normalized
`a` and `b`: if `b` is `[0].[0]` (either sign) each of `a / b`, `a.div(b)`,
`a.floor_div(b)` and `a % b` fails with the division-by-zero error, and otherwise each of
them returns a value, whatever the `double` accumulator of the long division rounds to. -/
theorem C11_division_by_zero_iff (a b : mnum) (ha : a.Normalized) (hb : b.Normalized) :
    (b.ZeroMag →
        a.operator_div b = .error Err.division_by_zero ∧
        a.div b = .error Err.division_by_zero ∧
        a.floor_div b = .error Err.division_by_zero ∧
        a.operator_mod b = .error Err.division_by_zero) ∧
      (¬ b.ZeroMag →
        (∃ c, a.operator_div b = .ok c) ∧ (∃ c, a.div b = .ok c) ∧
        (∃ c, a.floor_div b = .ok c) ∧ (∃ c, a.operator_mod b = .ok c)) := by
  have wa := ha.weakNorm
  have wb := hb.weakNorm
  refine ⟨fun hz => division_by_zero_of_zeroMag wa wb hz, fun hz => ?_⟩
  obtain ⟨h1, h2⟩ := division_ok_of_not_zeroMag wa wb hz
  obtain ⟨q, h3⟩ := floor_div_ok wa wb hz
  exact ⟨h1, h2, ⟨⟨q.2, q.1, [0]⟩, by simp only [floor_div, h3]⟩, operator_mod_ok wa wb hz⟩

/-- Witness for C11 at `a = 7.5` and the sign-flagged zero `b = -0`. -/
theorem C11_division_by_zero_iff_witness :
    Normalized ⟨false, [7], [5]⟩ ∧ Normalized ⟨true, [0], [0]⟩ ∧
      ((ZeroMag ⟨true, [0], [0]⟩ →
          operator_div ⟨false, [7], [5]⟩ ⟨true, [0], [0]⟩ = .error Err.division_by_zero ∧
          div ⟨false, [7], [5]⟩ ⟨true, [0], [0]⟩ = .error Err.division_by_zero ∧
          floor_div ⟨false, [7], [5]⟩ ⟨true, [0], [0]⟩ = .error Err.division_by_zero ∧
          operator_mod ⟨false, [7], [5]⟩ ⟨true, [0], [0]⟩ = .error Err.division_by_zero) ∧
        (¬ ZeroMag ⟨true, [0], [0]⟩ →
          (∃ c, operator_div ⟨false, [7], [5]⟩ ⟨true, [0], [0]⟩ = .ok c) ∧
          (∃ c, div ⟨false, [7], [5]⟩ ⟨true, [0], [0]⟩ = .ok c) ∧
          (∃ c, floor_div ⟨false, [7], [5]⟩ ⟨true, [0], [0]⟩ = .ok c) ∧
          (∃ c, operator_mod ⟨false, [7], [5]⟩ ⟨true, [0], [0]⟩ = .ok c))) :=
  ⟨by decide, by decide,
    C11_division_by_zero_iff ⟨false, [7], [5]⟩ ⟨true, [0], [0]⟩ (by decide) (by decide)⟩

/-- C12 as stated fails: the accumulator of the long division is a `double`. For the
integers `b = 8633005438261322` (below `2 ^ 53`) and `a = 33 * b` the quotient
`value(a) / value(b)` is the integer `33`, and `a / b` returns
`32.99999999999999542840`: integer part `[3, 2]` and a fraction that is not `[0]`. -/
theorem C12_exact_quotient_missed_on_double_accumulator :
    Normalized ⟨false, [2, 8, 4, 8, 8, 9, 1, 7, 9, 4, 6, 2, 6, 2, 3, 6, 2, 6], [0]⟩ ∧
      Normalized ⟨false, [8, 6, 3, 3, 0, 0, 5, 4, 3, 8, 2, 6, 1, 3, 2, 2], [0]⟩ ∧
      value ⟨false, [2, 8, 4, 8, 8, 9, 1, 7, 9, 4, 6, 2, 6, 2, 3, 6, 2, 6], [0]⟩
          / value ⟨false, [8, 6, 3, 3, 0, 0, 5, 4, 3, 8, 2, 6, 1, 3, 2, 2], [0]⟩
        = ((33 : ℤ) : ℚ) ∧
      operator_div ⟨false, [2, 8, 4, 8, 8, 9, 1, 7, 9, 4, 6, 2, 6, 2, 3, 6, 2, 6], [0]⟩
          ⟨false, [8, 6, 3, 3, 0, 0, 5, 4, 3, 8, 2, 6, 1, 3, 2, 2], [0]⟩
        = .ok ⟨false, [3, 2],
            [9, 9, 9, 9, 9, 9, 9, 9, 9, 9, 9, 9, 9, 9, 5, 4, 2, 8, 4, 0]⟩ := by
  refine ⟨by decide, by decide, ?_, by decide!⟩
  have hA : val [2, 8, 4, 8, 8, 9, 1, 7, 9, 4, 6, 2, 6, 2, 3, 6, 2, 6]
      = 284889179462623626 := by decide
  have hB : val [8, 6, 3, 3, 0, 0, 5, 4, 3, 8, 2, 6, 1, 3, 2, 2] = 8633005438261322 := by
    decide
  unfold value mag
  simp only [mag2_zero_frac, hA, hB]
  norm_num

/-- C12 amended: for all normalized `a` and normalized `b` of non-zero magnitude such
that `value(a) / value(b)` is an integer and ten times the divisor, scaled to a whole
number together with the dividend, is at most `2 ^ 53`, `a / b` returns a value with
fraction `[0]`, an integer part that is the normalized digit sequence of
`|value(a)| / |value(b)|`, and sign `a.sign XOR b.sign`. -/
theorem C12_exact_true_division (a b : mnum) (ha : a.Normalized) (hb : b.Normalized)
    (hb0 : ¬ b.ZeroMag)
    (hex : val (fmath.scaleOperands a.integer a.fraction b.integer b.fraction).2 * 10
      ≤ 2 ^ 53)
    (hn : ∃ n : ℤ, a.value / b.value = (n : ℚ)) :
    ∃ c, a.operator_div b = .ok c ∧ c.fraction = [0] ∧ IsDigits c.integer ∧
      IntNorm c.integer ∧ (val c.integer : ℚ) = a.mag / b.mag ∧
      c.sign = xor a.sign b.sign := by
  obtain ⟨c, h1, h2, h3, h4, h5, _⟩ := operator_div_exact ha.weakNorm hb.weakNorm hb0 hex hn
  exact ⟨c, h1, h3, h2.1, h2.2.2.1, h5, h4⟩

/-- Witness for C12 at `a = -7.5`, `b = 2.5`, quotient `-3`. -/
theorem C12_exact_true_division_witness :
    Normalized ⟨true, [7], [5]⟩ ∧ Normalized ⟨false, [2], [5]⟩ ∧
      ¬ ZeroMag ⟨false, [2], [5]⟩ ∧
      val (fmath.scaleOperands [7] [5] [2] [5]).2 * 10 ≤ 2 ^ 53 ∧
      (∃ n : ℤ, value ⟨true, [7], [5]⟩ / value ⟨false, [2], [5]⟩ = (n : ℚ)) ∧
      ∃ c, operator_div ⟨true, [7], [5]⟩ ⟨false, [2], [5]⟩ = .ok c ∧ c.fraction = [0] ∧
        IsDigits c.integer ∧ IntNorm c.integer ∧
        (val c.integer : ℚ) = mag ⟨true, [7], [5]⟩ / mag ⟨false, [2], [5]⟩ ∧
        c.sign = xor (⟨true, [7], [5]⟩ : mnum).sign (⟨false, [2], [5]⟩ : mnum).sign :=
  ⟨by decide, by decide, by decide, by decide, ⟨-3, by norm_num [value, mag, mag2, val]⟩,
    C12_exact_true_division ⟨true, [7], [5]⟩ ⟨false, [2], [5]⟩ (by decide) (by decide)
      (by decide) (by decide) ⟨-3, by norm_num [value, mag, mag2, val]⟩⟩

/-- C13 as stated fails: the accumulator of the long division is a `double`. For
`x = 10 ^ 20` and `y = 33333333333333333334` the divisor is rounded, and `true_div`
returns `3.00000000000000049153`, although `floor(x / y)` is `2` and the claim's value
`floor(x/y * 10^20) / 10^20 + 10^-20` is `2.99999999999999999995`. -/
theorem C13_rounding_formula_fails_on_double_accumulator :
    IsDigits [1, 0, 0, 0, 0, 0, 0, 0, 0, 0, 0, 0, 0, 0, 0, 0, 0, 0, 0, 0, 0] ∧
      IsDigits [3, 3, 3, 3, 3, 3, 3, 3, 3, 3, 3, 3, 3, 3, 3, 3, 3, 3, 3, 4] ∧
      imath.true_div [1, 0, 0, 0, 0, 0, 0, 0, 0, 0, 0, 0, 0, 0, 0, 0, 0, 0, 0, 0, 0]
          [3, 3, 3, 3, 3, 3, 3, 3, 3, 3, 3, 3, 3, 3, 3, 3, 3, 3, 3, 4]
        = .ok ([3], [0, 0, 0, 0, 0, 0, 0, 0, 0, 0, 0, 0, 0, 0, 0, 4, 9, 1, 5, 3]) ∧
      val [1, 0, 0, 0, 0, 0, 0, 0, 0, 0, 0, 0, 0, 0, 0, 0, 0, 0, 0, 0, 0]
          / val [3, 3, 3, 3, 3, 3, 3, 3, 3, 3, 3, 3, 3, 3, 3, 3, 3, 3, 3, 4] = 2 ∧
      val [1, 0, 0, 0, 0, 0, 0, 0, 0, 0, 0, 0, 0, 0, 0, 0, 0, 0, 0, 0, 0] * 10 ^ 20
          / val [3, 3, 3, 3, 3, 3, 3, 3, 3, 3, 3, 3, 3, 3, 3, 3, 3, 3, 3, 4] + 1
        = 299999999999999999995 ∧
      val [3] * 10 ^ 20 + val [0, 0, 0, 0, 0, 0, 0, 0, 0, 0, 0, 0, 0, 0, 0, 4, 9, 1, 5, 3]
        = 300000000000000049153 := by
  refine ⟨by decide, by decide, by decide!, by decide, by decide, by decide⟩

/-- C13 amended: for all digit sequences `x` and `y` with `value(y) > 0` and
`10 * value(y) ≤ 2 ^ 53`, `true_div(x, y)` returns `(q, f)`; when `x / y` has an exact
expansion within 20 fractional digits the value `q.f` equals `x / y`; otherwise `f` has
20 digits, `q.f` equals `floor(x/y * 10^20) / 10^20 + 10^-20`, and the result exceeds the
exact quotient by less than `10^-20`; `7 / 2` gives `3.5`. -/
theorem C13_true_div_rounding (x y : List Nat) (hx : IsDigits x) (hy : 0 < val y)
    (hs : val y * 10 ≤ 2 ^ 53) :
    (∃ q f, imath.true_div x y = .ok (q, f) ∧
      (val x % val y * 10 ^ 20 % val y = 0 → mag2 q f = (val x : ℚ) / (val y : ℚ)) ∧
      (val x % val y * 10 ^ 20 % val y ≠ 0 →
        f.length = 20 ∧
        mag2 q f = ((val x * 10 ^ 20 / val y + 1 : ℕ) : ℚ) / (10 : ℚ) ^ 20 ∧
        (val x : ℚ) / (val y : ℚ) < mag2 q f ∧
        mag2 q f - (val x : ℚ) / (val y : ℚ) < 1 / (10 : ℚ) ^ 20)) ∧
      imath.true_div [7] [2] = .ok ([3], [5]) := by
  refine ⟨?_, by decide!⟩
  obtain ⟨q, f, h1, _, _, _, _, _, _, h8, h9⟩ := imath.true_div_spec hx hy hs
  refine ⟨q, f, h1, h8, fun hne => ?_⟩
  obtain ⟨hl, hm⟩ := h9 hne
  refine ⟨hl, hm, ?_, ?_⟩
  · rw [hm]
    have hyq : (0 : ℚ) < (val y : ℚ) := by exact_mod_cast hy
    have hlt : val x * 10 ^ 20 < (val x * 10 ^ 20 / val y + 1) * val y := by
      have := Nat.lt_succ_self (val x * 10 ^ 20 / val y)
      exact (Nat.div_lt_iff_lt_mul hy).mp this
    have hq : ((val x * 10 ^ 20 : ℕ) : ℚ)
        < ((val x * 10 ^ 20 / val y + 1 : ℕ) : ℚ) * (val y : ℚ) := by exact_mod_cast hlt
    rw [div_lt_div_iff₀ hyq (by positivity)]
    push_cast at hq ⊢
    linarith
  · rw [hm]
    have hyq : (0 : ℚ) < (val y : ℚ) := by exact_mod_cast hy
    have hmod : val x * 10 ^ 20 % val y ≠ 0 := by
      rw [← Nat.mod_mul_mod]; exact hne
    have hle : val x * 10 ^ 20 / val y * val y < val x * 10 ^ 20 := by
      have := Nat.div_add_mod (val x * 10 ^ 20) (val y)
      rw [Nat.mul_comm] at this
      omega
    have hq : ((val x * 10 ^ 20 / val y : ℕ) : ℚ) * (val y : ℚ)
        < ((val x * 10 ^ 20 : ℕ) : ℚ) := by exact_mod_cast hle
    have h20 : (0 : ℚ) < (10 : ℚ) ^ 20 := by positivity
    rw [div_sub_div _ _ (ne_of_gt h20) (ne_of_gt hyq), div_lt_div_iff₀ (by positivity) h20]
    push_cast at hq ⊢
    nlinarith

/-- Witness for C13 at `x = 1`, `y = 3`. -/
theorem C13_true_div_rounding_witness :
    IsDigits [1] ∧ 0 < val [3] ∧ val [3] * 10 ≤ 2 ^ 53 ∧
      ((∃ q f, imath.true_div [1] [3] = .ok (q, f) ∧
        (val [1] % val [3] * 10 ^ 20 % val [3] = 0 →
          mag2 q f = (val [1] : ℚ) / (val [3] : ℚ)) ∧
        (val [1] % val [3] * 10 ^ 20 % val [3] ≠ 0 →
          f.length = 20 ∧
          mag2 q f = ((val [1] * 10 ^ 20 / val [3] + 1 : ℕ) : ℚ) / (10 : ℚ) ^ 20 ∧
          (val [1] : ℚ) / (val [3] : ℚ) < mag2 q f ∧
          mag2 q f - (val [1] : ℚ) / (val [3] : ℚ) < 1 / (10 : ℚ) ^ 20)) ∧
        imath.true_div [7] [2] = .ok ([3], [5])) :=
  ⟨by decide, by decide, by decide, C13_true_div_rounding [1] [3] (by decide) (by decide)
    (by decide)⟩

/-- C14 as stated fails: the accumulator of the long division is a `double`. For
`x = 55005667755482033` and `y = 55005667755482041` the remainder of the fraction loop
turns negative, the quotient cells stop being digits, `iadd(fquot, {1})` carries out of
the twentieth cell, and the fraction returned has 21 cells. -/
theorem C14_fraction_of_21_cells_on_double_accumulator :
    IsDigits [5, 5, 0, 0, 5, 6, 6, 7, 7, 5, 5, 4, 8, 2, 0, 3, 3] ∧
      IsDigits [5, 5, 0, 0, 5, 6, 6, 7, 7, 5, 5, 4, 8, 2, 0, 4, 1] ∧
      imath.true_div [5, 5, 0, 0, 5, 6, 6, 7, 7, 5, 5, 4, 8, 2, 0, 3, 3]
          [5, 5, 0, 0, 5, 6, 6, 7, 7, 5, 5, 4, 8, 2, 0, 4, 1]
        = .ok ([0], [1, 0, 0, 0, 0, 0, 0, 0, 0, 0, 0, 0, 0, 0, 0, 1, 245, 0, 241, 244, 242]) ∧
      ([1, 0, 0, 0, 0, 0, 0, 0, 0, 0, 0, 0, 0, 0, 0, 1, 245, 0, 241, 244, 242]
        : List Nat).length = 21 := by
  refine ⟨by decide, by decide, by decide!, by decide⟩

/-- C14 amended: for all digit sequences `x` and `y` with `value(y) > 0` and
`10 * value(y) ≤ 2 ^ 53`, the fraction part returned by `true_div(x, y)` is non-empty,
consists of digits and has at most 20 of them. -/
theorem C14_fraction_at_most_20_digits (x y : List Nat) (hx : IsDigits x) (hy : 0 < val y)
    (hs : val y * 10 ≤ 2 ^ 53) :
    ∃ q f, imath.true_div x y = .ok (q, f) ∧ f ≠ [] ∧ IsDigits f ∧ f.length ≤ 20 := by
  obtain ⟨q, f, h1, _, _, _, h5, h6, h7, _⟩ := imath.true_div_spec hx hy hs
  exact ⟨q, f, h1, h6, h5, h7⟩

/-- Witness for C14 at `1 / 7`. -/
theorem C14_fraction_at_most_20_digits_witness :
    IsDigits [1] ∧ 0 < val [7] ∧ val [7] * 10 ≤ 2 ^ 53 ∧
      ∃ q f, imath.true_div [1] [7] = .ok (q, f) ∧ f ≠ [] ∧ IsDigits f ∧ f.length ≤ 20 :=
  ⟨by decide, by decide, by decide, C14_fraction_at_most_20_digits [1] [7] (by decide)
    (by decide) (by decide)⟩

/-- C15 as stated fails: the accumulator of the long division is a `double`. For
`b = 8633005438261322` and `a = -33 * b` the modulus `a % b` is `0`, `a / b` returns
`-32.99999999999999542840`, and `(a / b) * b == a` is false. -/
theorem C15_inverse_fails_on_double_accumulator :
    Normalized ⟨true, [2, 8, 4, 8, 8, 9, 1, 7, 9, 4, 6, 2, 6, 2, 3, 6, 2, 6], [0]⟩ ∧
      Normalized ⟨false, [8, 6, 3, 3, 0, 0, 5, 4, 3, 8, 2, 6, 1, 3, 2, 2], [0]⟩ ∧
      operator_mod ⟨true, [2, 8, 4, 8, 8, 9, 1, 7, 9, 4, 6, 2, 6, 2, 3, 6, 2, 6], [0]⟩
          ⟨false, [8, 6, 3, 3, 0, 0, 5, 4, 3, 8, 2, 6, 1, 3, 2, 2], [0]⟩
        = .ok ⟨false, [0], [0]⟩ ∧
      operator_div ⟨true, [2, 8, 4, 8, 8, 9, 1, 7, 9, 4, 6, 2, 6, 2, 3, 6, 2, 6], [0]⟩
          ⟨false, [8, 6, 3, 3, 0, 0, 5, 4, 3, 8, 2, 6, 1, 3, 2, 2], [0]⟩
        = .ok ⟨true, [3, 2],
            [9, 9, 9, 9, 9, 9, 9, 9, 9, 9, 9, 9, 9, 9, 5, 4, 2, 8, 4, 0]⟩ ∧
      operator_eq
          (operator_mul
            ⟨true, [3, 2], [9, 9, 9, 9, 9, 9, 9, 9, 9, 9, 9, 9, 9, 9, 5, 4, 2, 8, 4, 0]⟩
            ⟨false, [8, 6, 3, 3, 0, 0, 5, 4, 3, 8, 2, 6, 1, 3, 2, 2], [0]⟩)
          ⟨true, [2, 8, 4, 8, 8, 9, 1, 7, 9, 4, 6, 2, 6, 2, 3, 6, 2, 6], [0]⟩ = false := by
  decide!

/-- C15 amended: for all normalized `a` and normalized `b` of non-zero magnitude such
that `a % b` is zero and ten times the divisor, scaled to a whole number together with
the dividend, is at most `2 ^ 53`, `a / b` returns a value and `(a / b) * b == a` under
`operator*` and `operator==`. -/
theorem C15_mul_div_inverse (a b : mnum) (ha : a.Normalized) (hb : b.Normalized)
    (hb0 : ¬ b.ZeroMag)
    (hex : val (fmath.scaleOperands a.integer a.fraction b.integer b.fraction).2 * 10
      ≤ 2 ^ 53)
    (hr : ∃ r, a.operator_mod b = .ok r ∧ r.ZeroMag) :
    ∃ c, a.operator_div b = .ok c ∧ (c.operator_mul b).operator_eq a = true := by
  have wa := ha.weakNorm
  have wb := hb.weakNorm
  obtain ⟨r, hr1, hr2⟩ := hr
  obtain ⟨q, r', _, _, _, h4, h5, h6, h7⟩ := operator_mod_spec wa wb hb0 hex
  have hrr : r' = r := by
    rw [hr1] at h5
    exact (Except.ok.inj h5).symm
  subst hrr
  have hbm : b.mag ≠ 0 := fun h => hb0 (wb.mag_eq_zero_iff.mp h)
  have hbv : b.value ≠ 0 := by
    unfold value; cases b.sign <;> simp [hbm]
  have hrv : r'.value = 0 := by
    have : r'.mag = 0 := h6.mag_eq_zero_iff.mpr hr2
    unfold value; rw [this]; simp
  have hint : a.value / b.value = ((⌊a.value / b.value⌋ : ℤ) : ℚ) := by
    rw [h4] at h7
    rw [hrv] at h7
    rw [div_eq_iff hbv]
    linarith
  obtain ⟨c, c1, c2, _, _, _, c6⟩ := operator_div_exact wa wb hb0 hex ⟨_, hint⟩
  obtain ⟨m1, _, _, m4⟩ := operator_mul_spec c2.weakNorm wb
  refine ⟨c, c1, operator_eq_of_value_eq m1.weakNorm wa ?_⟩
  rw [m4, c6, div_mul_cancel₀ _ hbv]

/-- Witness for C15 at `a = -7.5`, `b = 2.5`. -/
theorem C15_mul_div_inverse_witness :
    Normalized ⟨true, [7], [5]⟩ ∧ Normalized ⟨false, [2], [5]⟩ ∧
      ¬ ZeroMag ⟨false, [2], [5]⟩ ∧
      val (fmath.scaleOperands [7] [5] [2] [5]).2 * 10 ≤ 2 ^ 53 ∧
      (∃ r, operator_mod ⟨true, [7], [5]⟩ ⟨false, [2], [5]⟩ = .ok r ∧ r.ZeroMag) ∧
      ∃ c, operator_div ⟨true, [7], [5]⟩ ⟨false, [2], [5]⟩ = .ok c ∧
        (c.operator_mul ⟨false, [2], [5]⟩).operator_eq ⟨true, [7], [5]⟩ = true :=
  ⟨by decide, by decide, by decide, by decide, ⟨⟨false, [0], [0]⟩, by decide!, by decide⟩,
    C15_mul_div_inverse ⟨true, [7], [5]⟩ ⟨false, [2], [5]⟩ (by decide) (by decide)
      (by decide) (by decide) ⟨⟨false, [0], [0]⟩, by decide!, by decide⟩⟩

/-- C16 fails on the code: for an integer base the zero-exponent branch of the integer
`signed_power` returns `{{1}, base}`, so `3 ** 0` has integer part `[1]` and fraction
part `[3]` (it renders as `1.3`) and `10 ** 0` has fraction `[1, 0]`; only a base with a
fractional part gives `[1].[0]`. -/
theorem C16_zero_exponent_returns_base_as_fraction :
    Normalized ⟨false, [3], [0]⟩ ∧ ¬ ZeroMag ⟨false, [3], [0]⟩ ∧
      ZeroMag ⟨false, [0], [0]⟩ ∧
      (∀ fuel, pow fuel ⟨false, [3], [0]⟩ ⟨false, [0], [0]⟩ = .ok ⟨false, [1], [3]⟩) ∧
      (∀ fuel, pow fuel ⟨false, [1, 0], [0]⟩ ⟨false, [0], [0]⟩ = .ok ⟨false, [1], [1, 0]⟩) ∧
      pow 1 ⟨false, [3], [5]⟩ ⟨false, [0], [0]⟩ = .ok ⟨false, [1], [0]⟩ :=
  ⟨by decide, by decide, by decide, fun _ => rfl, fun _ => rfl, by decide⟩

/-- C17: positive integer power. For every normalized base `b` and every normalized
exponent `n` with fraction `[0]`, non-negative sign and value at least one, `b.pow(n)`
returns (once the loop is given more than `value(n)` iterations) a value of magnitude
`|value(b)| ^ n` whose sign is `b.sign`, whatever the parity of `n`; and `0 ** 5 = 0`. -/
theorem C17_positive_integer_power (b n : mnum) (fuel : Nat) (hb : b.Normalized)
    (hn : n.Normalized) (hnf : n.fraction = [0]) (hns : n.sign = false)
    (h1 : 1 ≤ val n.integer) (hf : val n.integer < fuel) :
    (∃ c, b.pow fuel n = .ok c ∧ c.mag = b.mag ^ val n.integer ∧ c.sign = b.sign) ∧
      pow 6 ⟨false, [0], [0]⟩ ⟨false, [5], [0]⟩ = .ok ⟨false, [0], [0]⟩ := by
  refine ⟨?_, by decide⟩
  obtain ⟨sb, x, fx⟩ := b
  obtain ⟨sn, y, fy⟩ := n
  simp only at hnf hns h1 hf
  subst hnf hns
  by_cases hbz : x = [0] ∧ fx = [0]
  · obtain ⟨rfl, rfl⟩ := hbz
    refine ⟨⟨sb, [0], [0]⟩, ?_, ?_, rfl⟩
    · have hz0 : is_zero [0] = true := rfl
      simp [pow, fmath.signed_power, imath.signed_power, hz0]
    · have hm : mag ⟨sb, [0], [0]⟩ = 0 := mag2_zero_zero
      rw [hm]
      exact (zero_pow (Nat.pos_iff_ne_zero.mp h1)).symm
  · obtain ⟨P, p1, _, _, _, _, _, p7⟩ := signed_power_pos hb.1 hb.2.1 hn.1 hb.2.2.1 hn.2.2.1
      hb.2.2.2.1 hbz h1 hf sb
    exact ⟨⟨sb, P.1, P.2⟩, by simp only [pow, p1], p7, rfl⟩

/-- Witness for C17 at `b = -1.5`, `n = 12`, with 13 iterations. -/
theorem C17_positive_integer_power_witness :
    Normalized ⟨true, [1], [5]⟩ ∧ Normalized ⟨false, [1, 2], [0]⟩ ∧
      (⟨false, [1, 2], [0]⟩ : mnum).fraction = [0] ∧
      (⟨false, [1, 2], [0]⟩ : mnum).sign = false ∧
      1 ≤ val (⟨false, [1, 2], [0]⟩ : mnum).integer ∧
      val (⟨false, [1, 2], [0]⟩ : mnum).integer < 13 ∧
      ((∃ c, pow 13 ⟨true, [1], [5]⟩ ⟨false, [1, 2], [0]⟩ = .ok c ∧
          c.mag = mag ⟨true, [1], [5]⟩ ^ val (⟨false, [1, 2], [0]⟩ : mnum).integer ∧
          c.sign = (⟨true, [1], [5]⟩ : mnum).sign) ∧
        pow 6 ⟨false, [0], [0]⟩ ⟨false, [5], [0]⟩ = .ok ⟨false, [0], [0]⟩) :=
  ⟨by decide, by decide, rfl, rfl, by decide, by decide,
    C17_positive_integer_power ⟨true, [1], [5]⟩ ⟨false, [1, 2], [0]⟩ 13 (by decide)
      (by decide) rfl rfl (by decide) (by decide)⟩

/-- C18: fractional exponents are rejected, and nothing else is. For all normalized `b`
and `e` (and more iterations than the integer part of `e`), `b.pow(e)` fails with the
fractional-exponent error iff the fraction part of `e` is not `[0]`; when it is `[0]` the
call returns a value, also for a zero base and for negative exponents. -/
theorem C18_fractional_exponent_rejected (b e : mnum) (fuel : Nat) (hb : b.Normalized)
    (he : e.Normalized) (hf : val e.integer < fuel) :
    (b.pow fuel e = .error Err.fractional_exponent ↔ e.fraction ≠ [0]) ∧
      (e.fraction = [0] → ∃ c, b.pow fuel e = .ok c) := by
  have hok : e.fraction = [0] → ∃ c, b.pow fuel e = .ok c := by
    intro hef
    obtain ⟨r, hr⟩ := signed_power_ok hb he hef hf
    exact ⟨⟨b.sign, r.1, r.2⟩, by simp only [pow, hr]⟩
  refine ⟨⟨fun h hef => ?_, fun hne => ?_⟩, hok⟩
  · obtain ⟨c, hc⟩ := hok hef
    rw [hc] at h
    cases h
  · have hz : is_zero e.fraction = false := is_zero_eq_false hne
    simp [pow, fmath.signed_power, hz]

/-- Witness for C18 at `b = 0`, `e = -2.5`. -/
theorem C18_fractional_exponent_rejected_witness :
    Normalized ⟨false, [0], [0]⟩ ∧ Normalized ⟨true, [2], [5]⟩ ∧
      val (⟨true, [2], [5]⟩ : mnum).integer < 3 ∧
      ((pow 3 ⟨false, [0], [0]⟩ ⟨true, [2], [5]⟩ = .error Err.fractional_exponent ↔
          (⟨true, [2], [5]⟩ : mnum).fraction ≠ [0]) ∧
        ((⟨true, [2], [5]⟩ : mnum).fraction = [0] →
          ∃ c, pow 3 ⟨false, [0], [0]⟩ ⟨true, [2], [5]⟩ = .ok c)) :=
  ⟨by decide, by decide, by decide,
    C18_fractional_exponent_rejected ⟨false, [0], [0]⟩ ⟨true, [2], [5]⟩ 3 (by decide)
      (by decide) (by decide)⟩

/-- C19: a negative exponent is the reciprocal. For every normalized base `b` of non-zero
magnitude and every normalized integer exponent `n` at least one (and more than `n`
iterations), `b.pow(n)` and `b.pow(-n)` return values, and the integer and fraction parts
of `b.pow(-n)` are those of the true division of `1` by `abs(b.pow(n))`; `2 ** -1` is
`0.5`. -/
theorem C19_negative_exponent_reciprocal (b n : mnum) (fuel : Nat) (hb : b.Normalized)
    (hb0 : ¬ b.ZeroMag) (hn : n.Normalized) (hnf : n.fraction = [0]) (hns : n.sign = false)
    (h1 : 1 ≤ val n.integer) (hf : val n.integer < fuel) :
    (∃ p c d, b.pow fuel n = .ok p ∧ b.pow fuel n.operator_neg = .ok c ∧
        operator_div ⟨false, [1], [0]⟩ p.abs = .ok d ∧
        c.integer = d.integer ∧ c.fraction = d.fraction) ∧
      pow 3 ⟨false, [2], [0]⟩ ⟨true, [1], [0]⟩ = .ok ⟨false, [0], [5]⟩ := by
  refine ⟨?_, by decide!⟩
  obtain ⟨sb, x, fx⟩ := b
  obtain ⟨sn, y, fy⟩ := n
  simp only at hnf hns h1 hf
  subst hnf hns
  obtain ⟨P, p1, p2, p3, p4, p5, p6, p7⟩ := signed_power_pos hb.1 hb.2.1 hn.1 hb.2.2.1
    hn.2.2.1 hb.2.2.2.1 hb0 h1 hf sb
  have hm : mag2 x fx ≠ 0 := by
    intro h
    obtain ⟨a1, a2⟩ := mag2_eq_zero_iff.mp h
    exact hb0 ⟨intNorm_val_zero hb.2.2.1 a1, fracNorm_val_zero hb.2.2.2 a2⟩
  obtain ⟨r, hr⟩ := true_div_one_ok p3 p4 p5 p6 (by rw [p7]; exact pow_ne_zero _ hm)
  refine ⟨⟨sb, P.1, P.2⟩, ⟨sb, r.1, r.2⟩, ⟨false, r.1, r.2⟩, by simp only [pow, p1], ?_, ?_,
    rfl, rfl⟩
  · simp only [pow, operator_neg, Bool.not_false, p2, hr]
  · simp only [operator_div, abs, hr, Bool.false_xor]

/-- Witness for C19 at `b = -1.5`, `n = 3`, with 4 iterations. -/
theorem C19_negative_exponent_reciprocal_witness :
    Normalized ⟨true, [1], [5]⟩ ∧ ¬ ZeroMag ⟨true, [1], [5]⟩ ∧
      Normalized ⟨false, [3], [0]⟩ ∧ (⟨false, [3], [0]⟩ : mnum).fraction = [0] ∧
      (⟨false, [3], [0]⟩ : mnum).sign = false ∧
      1 ≤ val (⟨false, [3], [0]⟩ : mnum).integer ∧
      val (⟨false, [3], [0]⟩ : mnum).integer < 4 ∧
      ((∃ p c d, pow 4 ⟨true, [1], [5]⟩ ⟨false, [3], [0]⟩ = .ok p ∧
          pow 4 ⟨true, [1], [5]⟩ (operator_neg ⟨false, [3], [0]⟩) = .ok c ∧
          operator_div ⟨false, [1], [0]⟩ p.abs = .ok d ∧
          c.integer = d.integer ∧ c.fraction = d.fraction) ∧
        pow 3 ⟨false, [2], [0]⟩ ⟨true, [1], [0]⟩ = .ok ⟨false, [0], [5]⟩) :=
  ⟨by decide, by decide, by decide, rfl, rfl, by decide, by decide,
    C19_negative_exponent_reciprocal ⟨true, [1], [5]⟩ ⟨false, [3], [0]⟩ 4 (by decide)
      (by decide) (by decide) rfl rfl (by decide) (by decide)⟩

/-- C20 fails on the code: the digit test is `*ptr < 48 || *ptr > 58`, so the byte `':'`
(58) passes; `"1:"` and `"0.:"` are accepted and store the non-digit `10`. Letters,
a second `.` and the empty string are rejected. -/
theorem C20_colon_is_accepted :
    from_string ['1', ':'] = .ok ⟨false, [1, 10], [0]⟩ ∧
      from_string ['0', '.', ':'] = .ok ⟨false, [0], [10]⟩ ∧
      ¬ IsDigits [1, 10] ∧
      from_string ['1', 'a'] = .error Err.invalid_number ∧
      from_string ['1', '.', '2', '.', '3'] = .error Err.invalid_number ∧
      from_string [] = .error Err.invalid_number := by decide

end mnum

namespace mnum

/-- C21 fails on the code: `convert_num_str` returns before `lstrip_zeros(integer)` when
the literal has no `.`, so `"007"` keeps the integer part `[0, 0, 7]` and the bare sign
`"-"` gives an empty integer part; with a `.` the same digits are normalized. -/
theorem C21_integer_not_normalized_without_point :
    convert_num_str ['0', '0', '7'] = .ok (false, [0, 0, 7], [0]) ∧ ¬ IntNorm [0, 0, 7] ∧
      convert_num_str ['-'] = .ok (true, [], [0]) ∧ ¬ IntNorm [] ∧
      convert_num_str ['0', '0', '7', '.', '5', '0'] = .ok (false, [7], [5]) ∧
      IntNorm [7] ∧ FracNorm [5] := by decide

/-- C22 fails on the code: the literal `"007"` is rendered back as `"007"`, not `"7"`,
because the parser keeps leading zeros when there is no `.`; `"007.50"` is rendered
`"7.5"` as claimed. -/
theorem C22_leading_zeros_rendered :
    (from_string ['0', '0', '7']).map str = .ok ['0', '0', '7'] ∧
      (from_string ['0', '0', '7', '.', '5', '0']).map str = .ok ['7', '.', '5'] ∧
      (from_string ['-', '0', '.', '0']).map str = .ok ['-', '0'] := by decide

/-- C23 as stated fails: joining `0.5` onto `12` leaves the integer part `[1, 2]` (the
claim gives `[1, 2, 0]`) and makes the fraction `[5]` (the claim gives `[0, 5]`). -/
theorem C23_join_skips_zero_parts :
    Normalized ⟨false, [1, 2], [0]⟩ ∧ Normalized ⟨false, [0], [5]⟩ ∧
      (join ⟨false, [1, 2], [0]⟩ ⟨false, [0], [5]⟩).integer = [1, 2] ∧
      lstrip_zeros ([1, 2] ++ [0]) = [1, 2, 0] ∧
      (join ⟨false, [1, 2], [0]⟩ ⟨false, [0], [5]⟩).fraction = [5] ∧
      rstrip_zeros ([0] ++ [5]) = [0, 5] := by decide

/-- C23 amended: for normalized `x` and `y`, after `x.join(y)` the sign is the OR of the
signs; the integer part is the leading-zero-normalized concatenation of the integer
parts, except that it is unchanged when `y.integer` is `[0]` and `y.fraction` is not;
the fraction part is the trailing-zero-normalized concatenation of the fraction parts,
except that it is `y.fraction` when the old fraction is `[0]` and `y.fraction` is not; the
result is normalized. -/
theorem C23_join_concatenates_nonzero_parts (x y : mnum) (hx : Normalized x)
    (hy : Normalized y) :
    (x.join y).sign = (x.sign || y.sign) ∧
      (x.join y).integer
        = (if y.integer = [0] ∧ y.fraction ≠ [0] then x.integer
            else lstrip_zeros (x.integer ++ y.integer)) ∧
      (x.join y).fraction
        = (if x.fraction = [0] ∧ y.fraction ≠ [0] then y.fraction
            else rstrip_zeros (x.fraction ++ y.fraction)) ∧
      Normalized (x.join y) := by
  obtain ⟨dx, dfx, nx, nfx⟩ := hx
  obtain ⟨dy, dfy, ny, nfy⟩ := hy
  have hdi : IsDigits (x.integer ++ y.integer) := by
    intro d hd
    rcases List.mem_append.mp hd with h | h
    · exact dx d h
    · exact dy d h
  have e1 : (x.join y).integer
      = (if y.integer = [0] ∧ y.fraction ≠ [0] then x.integer
          else lstrip_zeros (x.integer ++ y.integer)) := by
    unfold join
    simp only []
    by_cases hi : y.integer = [0] <;> by_cases hf : y.fraction = [0] <;>
      simp [hi, hf, is_zero_iff, is_zero_eq_false]
  have e2 : (x.join y).fraction
      = (if x.fraction = [0] ∧ y.fraction ≠ [0] then y.fraction
          else rstrip_zeros (x.fraction ++ y.fraction)) := by
    unfold join
    simp only []
    by_cases hf : y.fraction = [0]
    · have hz : is_zero y.fraction = true := is_zero_iff.mpr hf
      simp only [hz, Bool.not_true, Bool.false_eq_true, if_false]
      rw [if_neg (fun h => h.2 hf), hf, rstrip_zeros_append_zero nfx]
    · have hz : ¬ is_zero y.fraction = true := fun h => hf (is_zero_iff.mp h)
      simp only [hz, Bool.not_false, if_true, Bool.not_eq_true, Bool.not_eq_false]
      by_cases hxf : x.fraction = [0]
      · rw [if_pos (is_zero_iff.mpr hxf), if_pos ⟨hxf, hf⟩, List.nil_append,
          rstrip_zeros_of_fracNorm nfy]
      · rw [if_neg (fun h => hxf (is_zero_iff.mp h)), if_neg (fun h => hxf h.1)]
  refine ⟨rfl, e1, e2, ?_, ?_, ?_, ?_⟩
  · rw [e1]
    split
    · exact dx
    · exact isDigits_lstrip_zeros hdi
  · rw [e2]
    split
    · exact dfy
    · refine isDigits_rstrip_zeros ?_
      intro d hd
      rcases List.mem_append.mp hd with h | h
      · exact dfx d h
      · exact dfy d h
  · rw [e1]
    split
    · exact nx
    · exact intNorm_lstrip_zeros _
  · rw [e2]
    split
    · exact nfy
    · exact fracNorm_rstrip_zeros _

/-- Witness for C23 amended: `12.5` joined with `3.25` is `123.525`. -/
theorem C23_join_concatenates_nonzero_parts_witness :
    Normalized ⟨false, [1, 2], [5]⟩ ∧ Normalized ⟨true, [3], [2, 5]⟩ ∧
      join ⟨false, [1, 2], [5]⟩ ⟨true, [3], [2, 5]⟩ = ⟨true, [1, 2, 3], [5, 2, 5]⟩ ∧
      Normalized (join ⟨false, [1, 2], [5]⟩ ⟨true, [3], [2, 5]⟩) :=
  ⟨by decide, by decide, by decide,
    (C23_join_concatenates_nonzero_parts ⟨false, [1, 2], [5]⟩ ⟨true, [3], [2, 5]⟩
      (by decide) (by decide)).2.2.2⟩

end mnum

namespace mnum

/-- C24: over the logical sequence `digits m` (integer digits, then the fraction digits
unless the fraction is `[0]`), `find` returns the least and `rfind` the greatest index
holding `d`; each returns `-1` exactly when `d` does not occur, and `count` is zero
exactly when `find` is `-1`. -/
theorem C24_find_rfind_first_last (m : mnum) (d : Nat) :
    (-1 ≤ m.find d ∧ -1 ≤ m.rfind d) ∧
      (m.find d = -1 ↔ d ∉ m.digits) ∧ (m.rfind d = -1 ↔ d ∉ m.digits) ∧
      (∀ i : Nat, m.find d = (i : Int) →
        m.digits[i]? = some d ∧ ∀ j, j < i → m.digits[j]? ≠ some d) ∧
      (∀ i : Nat, m.rfind d = (i : Int) →
        m.digits[i]? = some d ∧ ∀ j, i < j → m.digits[j]? ≠ some d) ∧
      m.count d = m.digits.count d ∧ (m.count d = 0 ↔ m.find d = -1) := by
  obtain ⟨f1, f2, f3⟩ := find_spec m d
  obtain ⟨r1, r2, r3⟩ := rfind_spec m d
  refine ⟨⟨f1, r1⟩, f2, r2, f3, r3, count_eq m d, ?_⟩
  rw [count_eq, f2, List.count_eq_zero]

/-- C25: `index` and `remove` fail with "value not found" exactly when `find` is `-1`,
and then the object is unchanged; otherwise `index` returns the index found and `remove`
erases the digit at that logical index and strips the part it was taken from. -/
theorem C25_index_remove_fail_iff_absent (m : mnum) (d : Nat) :
    (m.index d = .error Err.value_not_found ↔ m.find d = -1) ∧
      ((m.remove d).1 = .error Err.value_not_found ↔ m.find d = -1) ∧
      (m.find d = -1 → (m.remove d).2 = m) ∧
      (∀ i : Nat, m.find d = (i : Int) →
        m.digits[i]? = some d ∧ m.index d = .ok i ∧ (m.remove d).1 = .ok () ∧
        (m.remove d).2
          = (if i < m.integer.length then
              ⟨m.sign, lstrip_zeros (m.integer.eraseIdx i), m.fraction⟩
            else
              ⟨m.sign, m.integer,
                rstrip_zeros (m.fraction.eraseIdx (i - m.integer.length))⟩)) ∧
      (m.find d = -1 ∨ ∃ i : Nat, m.find d = (i : Int)) := by
  obtain ⟨f1, _, f3⟩ := find_spec m d
  unfold index remove
  simp only []
  refine ⟨?_, ?_, ?_, ?_, ?_⟩
  · by_cases h : m.find d = -1
    · simp [h]
    · simp [h]
  · by_cases h : m.find d = -1
    · simp [h]
    · simp [h]
  · intro h
    rw [if_pos h]
  · intro i hi
    have hne : ¬ m.find d = -1 := by omega
    rw [if_neg hne, if_neg hne, hi]
    refine ⟨(f3 i hi).1, by simp, rfl, ?_⟩
    simp only [Int.toNat_ofNat]
    rfl
  · by_cases h : m.find d = -1
    · exact Or.inl h
    · exact Or.inr ⟨(m.find d).toNat, by omega⟩

/-- C26 as stated fails for `insert`: on `12` (logical length 2) inserting `3` at index
`2` appends it and at index `-3` puts it in front; neither call fails. -/
theorem C26_insert_out_of_range_succeeds :
    size ⟨false, [1, 2], [0]⟩ = 2 ∧
      pybind.insert ⟨false, [1, 2], [0]⟩ 2 3 false = (.ok (), ⟨false, [1, 2, 3], [0]⟩) ∧
      pybind.insert ⟨false, [1, 2], [0]⟩ (-3) 3 false = (.ok (), ⟨false, [3, 1, 2], [0]⟩) ∧
      pybind.insert ⟨false, [1, 2], [5]⟩ 7 3 false = (.ok (), ⟨false, [1, 2], [5, 3]⟩) := by
  decide

/-- C26 amended: for an index `i` of the 64-bit signed range with `i ≥ n` or `i < -n`,
`n` the logical length, the bindings get, set, delete and pop fail with "index out of
range" and leave the object unchanged; `insert` does not fail: for `i ≥ n` it appends
the digit (to the integer part when the fraction is `[0]`, else to the fraction part),
for `i < -n` it inserts the digit at position `0`, and it toggles the sign by the
digit's sign. -/
theorem C26_out_of_range_index (m : mnum) (i : Int) (v : Nat) (s : Bool)
    (hlo : -2 ^ 63 ≤ i) (hhi : i < 2 ^ 63)
    (h : (m.size : Int) ≤ i ∨ i < -(m.size : Int)) :
    pybind.getitem m i = .error Err.index_out_of_range ∧
      pybind.setitem m i v s = (.error Err.index_out_of_range, m) ∧
      pybind.delitem m i = (.error Err.index_out_of_range, m) ∧
      pybind.pop m i = (.error Err.index_out_of_range, m) ∧
      (pybind.insert m i v s).1 = .ok () ∧
      ((m.size : Int) ≤ i → (pybind.insert m i v s).2
          = ⟨xor m.sign s, if m.fraction = [0] then m.integer ++ [v] else m.integer,
              if m.fraction = [0] then m.fraction else m.fraction ++ [v]⟩) ∧
      (i < -(m.size : Int) → (pybind.insert m i v s).2
          = ⟨xor (m.insert 0 v).sign s, (m.insert 0 v).integer, (m.insert 0 v).fraction⟩) := by
  obtain ⟨hc, hidx⟩ := pybind.check_index_out_of_range hlo h
  refine ⟨?_, ?_, ?_, ?_, rfl, ?_, ?_⟩
  · unfold pybind.getitem; rw [hc]
  · unfold pybind.setitem; rw [hc]
  · unfold pybind.delitem; rw [hc]
  · unfold pybind.pop; rw [hc]
  · intro h1
    have hn : ¬ i < 0 := by omega
    unfold pybind.insert
    simp only []
    rw [if_neg hidx, if_neg hn]
    by_cases hz : m.fraction = [0]
    · rw [if_pos (is_zero_iff.mpr hz), if_pos hz, if_pos hz]
    · rw [if_neg (fun e => hz (is_zero_iff.mp e)), if_neg hz, if_neg hz]
  · intro h1
    have hn : i < 0 := by omega
    unfold pybind.insert
    simp only []
    rw [if_neg hidx, if_pos hn]

/-- Witness for C26 amended: index `5` on `12.5`, of logical length 3. -/
theorem C26_out_of_range_index_witness :
    size ⟨false, [1, 2], [5]⟩ = 3 ∧
      pybind.getitem ⟨false, [1, 2], [5]⟩ 5 = .error Err.index_out_of_range ∧
      pybind.pop ⟨false, [1, 2], [5]⟩ 5
        = (.error Err.index_out_of_range, ⟨false, [1, 2], [5]⟩) ∧
      (pybind.insert ⟨false, [1, 2], [5]⟩ 5 7 true).1 = .ok () :=
  have h := C26_out_of_range_index ⟨false, [1, 2], [5]⟩ 5 7 true (by decide) (by decide)
    (Or.inl (by decide))
  ⟨by decide, h.1, h.2.2.2.1, h.2.2.2.2.1⟩

/-- C27: `sort` leaves in the integer part the ascending arrangement of its digits with
leading zeros stripped, in the fraction part the ascending arrangement of its digits with
trailing zeros stripped, keeps the sign, and is idempotent; `31` becomes `13`. -/
theorem C27_sort_ascending_idempotent (m : mnum) :
    (∃ s : List Nat, s.Sorted (fun p q => p ≤ q) ∧ s.Perm m.integer ∧
        m.sort.integer = lstrip_zeros s) ∧
      (∃ t : List Nat, t.Sorted (fun p q => p ≤ q) ∧ t.Perm m.fraction ∧
        m.sort.fraction = rstrip_zeros t) ∧
      m.sort.sign = m.sign ∧ m.sort.sort = m.sort ∧
      sort ⟨false, [3, 1], [0]⟩ = ⟨false, [1, 3], [0]⟩ := by
  refine ⟨⟨_, List.sorted_insertionSort _ m.integer, List.perm_insertionSort _ _, rfl⟩,
    ⟨_, List.sorted_insertionSort _ m.fraction, List.perm_insertionSort _ _, rfl⟩, rfl,
    sort_idem m, by decide⟩

end mnum

namespace mnum

/-- C28: in every branch of `imul` the integer part of a product is non-empty with no
leading zero unless it is `[0]`, and the fraction part is non-empty with no trailing zero
unless it is `[0]`; this holds for all operands. -/
theorem C28_product_normalized (a b : mnum) :
    IntNorm (operator_mul a b).integer ∧ FracNorm (operator_mul a b).fraction ∧
      IntNorm (fmath.imul a.integer a.fraction b.integer b.fraction).1 ∧
      FracNorm (fmath.imul a.integer a.fraction b.integer b.fraction).2 :=
  ⟨(imul_norm _ _ _ _).1, (imul_norm _ _ _ _).2, (imul_norm _ _ _ _).1, (imul_norm _ _ _ _).2⟩

/-- C29: `signed_isub(x, fx, y, fy, xs, ys)` gives the same outcome (integer digits,
fraction digits and sign) as `signed_iadd(x, fx, y, fy, xs, not ys)`, for all digit
sequences and sign bits. -/
theorem C29_signed_isub_is_signed_iadd_negated (x fx y fy : List Nat) (xs ys : Bool) :
    fmath.signed_isub x fx y fy xs ys = fmath.signed_iadd x fx y fy xs (!ys) :=
  signed_isub_eq_signed_iadd_not x fx y fy xs ys

/-- C30: for digit sequences `x` and `y` of any lengths, integer `iadd` gives digits of
value `val x + val y`; the length is the longer length plus the final carry of the loop,
which is `1` exactly when the sum reaches `10 ^ max`. -/
theorem C30_iadd_value_and_length (x y : List Nat) (hx : IsDigits x) (hy : IsDigits y) :
    IsDigits (imath.iadd x y) ∧ val (imath.iadd x y) = val x + val y ∧
      (imath.iadd x y).length
        = max x.length y.length
          + (addLoop (max x.length y.length) x.reverse y.reverse 0).2 ∧
      (addLoop (max x.length y.length) x.reverse y.reverse 0).2
        = (if 10 ^ max x.length y.length ≤ val x + val y then 1 else 0) := by
  obtain ⟨s1, s2, _⟩ := imath.iadd_spec hx hy
  obtain ⟨l1, l2⟩ := imath.iadd_length hx hy
  have hc := imath.iadd_carry hx hy
  refine ⟨s1, s2, ?_, hc⟩
  rw [hc]
  by_cases h : 10 ^ max x.length y.length ≤ val x + val y
  · rw [if_pos h, (l2 h).1]
  · rw [if_neg h, l1 (by omega), Nat.add_zero]

/-- Witness for C30: `95 + 7 = 102` grows by one digit, `12 + 345 = 357` does not. -/
theorem C30_iadd_value_and_length_witness :
    IsDigits [9, 5] ∧ IsDigits [7] ∧ imath.iadd [9, 5] [7] = [1, 0, 2] ∧
      imath.iadd [1, 2] [3, 4, 5] = [3, 5, 7] ∧
      val (imath.iadd [9, 5] [7]) = val [9, 5] + val [7] :=
  ⟨by decide, by decide, by decide, by decide,
    (C30_iadd_value_and_length [9, 5] [7] (by decide) (by decide)).2.1⟩

end mnum

namespace mnum

/-- C31: for normalized digit sequences `x` and `y`, integer `isub` with
`comp = cmp(x, y)` passes its assertion (the final borrow is 0) and leaves in `x` the
normalized digits of `|val x - val y|`: `[0]` when `comp = 0`, `y - x` when `comp = -1`.
The subtrahend is a const argument. -/
theorem C31_integer_isub_distance (x y : List Nat) (hx : IsDigits x) (hy : IsDigits y)
    (nx : IntNorm x) (ny : IntNorm y) :
    ∃ x', imath.isub x y (cmp x y) = .ok x' ∧ IsDigits x' ∧ IntNorm x' ∧
      (val x' : Int) = |(val x : Int) - (val y : Int)| ∧
      (cmp x y = 0 → x' = [0]) ∧ (cmp x y = -1 → val x' + val x = val y) ∧
      (cmp x y = 1 → val x' + val y = val x) ∧
      (cmp x y ≠ 0 →
        (subLoop (max x.length y.length)
          (if decide (cmp x y = -1) = true then y else x).reverse
          (if decide (cmp x y = -1) = true then x else y).reverse 0).2 = 0) := by
  obtain ⟨x', h1, h2, h3, h4⟩ := imath.isub_spec hx hy nx ny
  have hc := cmp_spec hx hy nx ny
  refine ⟨x', h1, h2, h3, ?_, ?_, ?_, ?_, ?_⟩
  · rcases le_total (val x) (val y) with h | h
    · rw [Nat.min_eq_left h, Nat.max_eq_right h] at h4
      rw [abs_of_nonpos (by omega)]; omega
    · rw [Nat.min_eq_right h, Nat.max_eq_left h] at h4
      rw [abs_of_nonneg (by omega)]; omega
  · intro h0
    simp only [imath.isub, h0, if_true] at h1
    exact (Except.ok.inj h1).symm
  · intro hm
    rw [hc] at hm
    unfold ord3 at hm
    have hlt : val x < val y := by
      by_contra hn
      rw [if_neg hn] at hm
      split at hm <;> omega
    rw [Nat.min_eq_left (le_of_lt hlt), Nat.max_eq_right (le_of_lt hlt)] at h4
    exact h4
  · intro hm
    rw [hc] at hm
    unfold ord3 at hm
    have hlt : val y < val x := by
      by_contra hn
      split at hm
      · omega
      · split at hm <;> omega
    rw [Nat.min_eq_right (le_of_lt hlt), Nat.max_eq_left (le_of_lt hlt)] at h4
    exact h4
  · intro hne
    by_contra hb
    simp only [imath.isub, hne, if_false] at h1
    rw [if_pos hb] at h1
    exact Except.noConfusion h1

/-- Witness for C31: `100 - 1 = 99` and, with `comp = -1`, `7 - 12` leaves `5`. -/
theorem C31_integer_isub_distance_witness :
    IsDigits [1, 0, 0] ∧ IsDigits [1] ∧ IntNorm [1, 0, 0] ∧ IntNorm [1] ∧
      imath.isub [1, 0, 0] [1] (cmp [1, 0, 0] [1]) = .ok [9, 9] ∧
      imath.isub [7] [1, 2] (cmp [7] [1, 2]) = .ok [5] ∧
      ∃ x', imath.isub [1, 0, 0] [1] (cmp [1, 0, 0] [1]) = .ok x' ∧ IntNorm x' :=
  have h := C31_integer_isub_distance [1, 0, 0] [1] (by decide) (by decide) (by decide)
    (by decide)
  ⟨by decide, by decide, by decide, by decide, by decide, by decide,
    h.elim (fun x' hx' => ⟨x', hx'.1, hx'.2.2.1⟩)⟩

/-- C32: for normalized operands, with `icmp = cmp(x, y)` and `comp` computed as in
`signed_iadd` and `signed_isub`, decimal `isub` passes the borrow assertion of the path
it takes (the result is `.ok`), its result has magnitude `|x.fx - y.fy|`, and so neither
signed operation can fail. -/
theorem C32_borrow_assertions_unreachable (x fx y fy : List Nat) (hx : IsDigits x)
    (hfx : IsDigits fx) (hy : IsDigits y) (hfy : IsDigits fy) (nx : IntNorm x)
    (ny : IntNorm y) :
    (∃ x' fx', fmath.isub x fx y fy (cmp x y) (if cmp x y = 0 then fcmp fx fy else cmp x y)
        = .ok (x', fx') ∧
      IsDigits x' ∧ IsDigits fx' ∧ IntNorm x' ∧ mag2 x' fx' = |mag2 x fx - mag2 y fy|) ∧
      (∀ xs ys : Bool, ∃ r, fmath.signed_iadd x fx y fy xs ys = .ok r) ∧
      (∀ xs ys : Bool, ∃ r, fmath.signed_isub x fx y fy xs ys = .ok r) := by
  obtain ⟨x', fx', hok, d1, d2, n1, hm⟩ := fmath_isub_mag hx hfx hy hfy nx ny
  refine ⟨⟨x', fx', hok, d1, d2, n1, hm⟩, ?_, ?_⟩
  · intro xs ys
    unfold fmath.signed_iadd
    by_cases h : xs = ys
    · rw [if_pos h]; exact ⟨_, rfl⟩
    · rw [if_neg h]
      simp only [hok]
      split_ifs <;> exact ⟨_, rfl⟩
  · intro xs ys
    unfold fmath.signed_isub
    by_cases h : xs ≠ ys
    · rw [if_pos h]; exact ⟨_, rfl⟩
    · rw [if_neg h]
      simp only [hok]
      split_ifs <;> exact ⟨_, rfl⟩

/-- Witness for C32: the fraction-only path (`1.25 - 1.5`) and the full path
(`2.25 - 1.5`). -/
theorem C32_borrow_assertions_unreachable_witness :
    IsDigits [1] ∧ IsDigits [2, 5] ∧ IsDigits [5] ∧ IntNorm [1] ∧ IntNorm [2] ∧
      fmath.isub [1] [2, 5] [1] [5] (cmp [1] [1])
        (if cmp [1] [1] = 0 then fcmp [2, 5] [5] else cmp [1] [1]) = .ok ([0], [2, 5]) ∧
      fmath.isub [2] [2, 5] [1] [5] (cmp [2] [1])
        (if cmp [2] [1] = 0 then fcmp [2, 5] [5] else cmp [2] [1]) = .ok ([0], [7, 5]) ∧
      ∀ xs ys : Bool, ∃ r, fmath.signed_iadd [1] [2, 5] [1] [5] xs ys = .ok r :=
  ⟨by decide, by decide, by decide, by decide, by decide, by decide, by decide,
    (C32_borrow_assertions_unreachable [1] [2, 5] [1] [5] (by decide) (by decide)
      (by decide) (by decide) (by decide) (by decide)).2.1⟩

/-- C33: for digit sequences `x` and `y`, `mul(x, y)` has value `val x * val y`, is
non-empty with no leading zero unless it is `[0]`, consists of digits, and inside the
loops every `prod` is below 256, every carry and every cell at most 9. -/
theorem C33_mul_exact_in_range (x y : List Nat) (hx : IsDigits x) (hy : IsDigits y) :
    val (imath.mul x y) = val x * val y ∧ imath.mul x y ≠ [] ∧ IntNorm (imath.mul x y) ∧
      IsDigits (imath.mul x y) ∧ mulInRange x y = true := by
  obtain ⟨h1, h2, h3⟩ := imath.mul_spec hx hy
  exact ⟨h3, h2.1, h2, h1, mulInRange_spec hx hy⟩

/-- Witness for C33: `99 * 99 = 9801`. -/
theorem C33_mul_exact_in_range_witness :
    IsDigits [9, 9] ∧ imath.mul [9, 9] [9, 9] = [9, 8, 0, 1] ∧
      mulInRange [9, 9] [9, 9] = true :=
  ⟨by decide, by decide,
    (C33_mul_exact_in_range [9, 9] [9, 9] (by decide) (by decide)).2.2.2.2⟩

end mnum

namespace mnum

/-- C34 as stated fails: the divisor and the remainder of `divmod` are `double`s. The
divisor `2 ^ 53 + 1 = 9007199254740993` is rounded to `2 ^ 53`, so `divmod(2 ^ 53, 2 ^ 53 + 1)`
returns quotient `[1]` and remainder `0`, and `value(x) = value(q) * value(y) + r` is false.
For `x = 4858131500826744800`, `y = 4858131500826745` the loop produces the quotient cell
`10`, which is not a digit. -/
theorem C34_long_division_fails_on_double_accumulator :
    IsDigits [9, 0, 0, 7, 1, 9, 9, 2, 5, 4, 7, 4, 0, 9, 9, 2] ∧
      IsDigits [9, 0, 0, 7, 1, 9, 9, 2, 5, 4, 7, 4, 0, 9, 9, 3] ∧
      0 < val [9, 0, 0, 7, 1, 9, 9, 2, 5, 4, 7, 4, 0, 9, 9, 3] ∧
      imath.divmod [9, 0, 0, 7, 1, 9, 9, 2, 5, 4, 7, 4, 0, 9, 9, 2]
          [9, 0, 0, 7, 1, 9, 9, 2, 5, 4, 7, 4, 0, 9, 9, 3] = .ok ([1], Dbl.fin 0) ∧
      val [9, 0, 0, 7, 1, 9, 9, 2, 5, 4, 7, 4, 0, 9, 9, 2]
        ≠ val [1] * val [9, 0, 0, 7, 1, 9, 9, 2, 5, 4, 7, 4, 0, 9, 9, 3] + 0 ∧
      IsDigits [4, 8, 5, 8, 1, 3, 1, 5, 0, 0, 8, 2, 6, 7, 4, 4, 8, 0, 0] ∧
      IsDigits [4, 8, 5, 8, 1, 3, 1, 5, 0, 0, 8, 2, 6, 7, 4, 5] ∧
      imath.divmod [4, 8, 5, 8, 1, 3, 1, 5, 0, 0, 8, 2, 6, 7, 4, 4, 8, 0, 0]
          [4, 8, 5, 8, 1, 3, 1, 5, 0, 0, 8, 2, 6, 7, 4, 5] = .ok ([10, 0, 0], Dbl.fin 0) ∧
      ¬ IsDigits [10, 0, 0] := by
  refine ⟨by decide, by decide, by decide, by decide!, by decide, by decide, by decide,
    by decide!, by decide⟩

/-- C34 amended: for a digit sequence `x` and a divisor `y` with `value(y) > 0` and
`10 * value(y) ≤ 2 ^ 53` (every value of the `double` accumulator is then an exact
integer), `divmod(x, y)` returns `(q, r)` where `r` is the `double` of an integer with
`val x = val q * val y + r` and `r < val y`; every quotient digit the loop produces is in
`0..9`, and `q` is leading-zero-normalized. -/
theorem C34_long_division (x y : List Nat) (hx : IsDigits x) (hy : 0 < val y)
    (hs : val y * 10 ≤ 2 ^ 53) :
    ∃ q r, imath.divmod x y = .ok (q, Dbl.ofNat r) ∧ val x = val q * val y + r ∧
      r < val y ∧ IsDigits (divLoop (divisorOf y) x (Dbl.ofNat 0)).1 ∧ IsDigits q ∧
      IntNorm q := by
  obtain ⟨q, r, h1, h2, h3, h4, h5⟩ := imath.divmod_spec hx hy hs
  obtain ⟨_, _, _, _, hd, _⟩ := divLoop_spec hy hs x 0 hx hy
  rw [divisorOf_exact (show val y ≤ 2 ^ 53 by omega)]
  exact ⟨q, r, h1, h5.symm, h4, hd, h2, h3⟩

/-- Witness for C34: `1000 / 7` is `142` remainder `6`. -/
theorem C34_long_division_witness :
    IsDigits [1, 0, 0, 0] ∧ 0 < val [7] ∧ val [7] * 10 ≤ 2 ^ 53 ∧
      imath.divmod [1, 0, 0, 0] [7] = .ok ([1, 4, 2], Dbl.ofNat 6) ∧
      ∃ q r, imath.divmod [1, 0, 0, 0] [7] = .ok (q, Dbl.ofNat r) ∧ r < val [7] :=
  have h := C34_long_division [1, 0, 0, 0] [7] (by decide) (by decide) (by decide)
  ⟨by decide, by decide, by decide, by decide!,
    h.elim (fun q hq => hq.elim (fun r hr => ⟨q, r, hr.1, hr.2.2.1⟩))⟩

/-- C35: for integer parts without leading zeros and fraction digit sequences of any
lengths, trailing zeros allowed, the four-argument `cmp` is `-1`, `0` or `1` as the
magnitude `x.fx` is less than, equal to or greater than `y.fy`; `fcmp` does not change
when zeros are appended to either fraction. -/
theorem C35_cmp4_numeric (x fx y fy : List Nat) (hx : IsDigits x) (hfx : IsDigits fx)
    (hy : IsDigits y) (hfy : IsDigits fy) (nx : IntNorm x) (ny : IntNorm y) :
    cmp4 x fx y fy
        = (if mag2 x fx < mag2 y fy then -1 else if mag2 x fx = mag2 y fy then 0 else 1) ∧
      ∀ k, fcmp (fx ++ List.replicate k 0) fy = fcmp fx fy ∧
        fcmp fx (fy ++ List.replicate k 0) = fcmp fx fy :=
  ⟨cmp4_numeric hx hfx hy hfy nx ny, fun k => fcmp_append_zeros hfx hfy k⟩

/-- Witness for C35: `1.50` equals `1.5`, and `1.5` is greater than `1.25`. -/
theorem C35_cmp4_numeric_witness :
    IsDigits [1] ∧ IsDigits [5, 0] ∧ IsDigits [5] ∧ IntNorm [1] ∧
      cmp4 [1] [5, 0] [1] [5] = 0 ∧ cmp4 [1] [5] [1] [2, 5] = 1 ∧
      ∀ k, fcmp ([5, 0] ++ List.replicate k 0) [5] = fcmp [5, 0] [5] ∧
        fcmp [5, 0] ([5] ++ List.replicate k 0) = fcmp [5, 0] [5] :=
  ⟨by decide, by decide, by decide, by decide, by decide, by decide,
    (C35_cmp4_numeric [1] [5, 0] [1] [5] (by decide) (by decide) (by decide) (by decide)
      (by decide) (by decide)).2⟩

/-- C36: for every sequence `v`, the empty one included, `lstrip_zeros v` is non-empty
with no leading zero unless it is `[0]`, is `v` without its maximal run of leading zeros
(`[0]` when nothing remains), and has the value of `v`; `rstrip_zeros` is its mirror
image; both are idempotent. -/
theorem C36_normalizers (v : List Nat) :
    IntNorm (lstrip_zeros v) ∧
      lstrip_zeros v
        = (if v.dropWhile (fun d => d == 0) = [] then [0]
            else v.dropWhile (fun d => d == 0)) ∧
      val (lstrip_zeros v) = val v ∧ lstrip_zeros [] = [0] ∧
      rstrip_zeros v = (lstrip_zeros v.reverse).reverse ∧ FracNorm (rstrip_zeros v) ∧
      lstrip_zeros (lstrip_zeros v) = lstrip_zeros v ∧
      rstrip_zeros (rstrip_zeros v) = rstrip_zeros v :=
  ⟨intNorm_lstrip_zeros v, lstrip_zeros_eq v, val_lstrip_zeros v, rfl, rstrip_zeros_eq v,
    fracNorm_rstrip_zeros v, lstrip_zeros_idem v, rstrip_zeros_idem v⟩

/-- C37: for every normalized value `v`, of either sign bit, parsing `v.str()` and
parsing `v.float_str()` both succeed and give `v`: its sign, integer digits and
fraction digits. -/
theorem C37_render_then_parse (v : mnum) (hv : Normalized v) :
    from_string v.str = .ok v ∧ from_string v.float_str = .ok v :=
  render_parse hv

/-- Witness for C37: the sign-flagged zero, rendered `-0` and `-0.0`. -/
theorem C37_render_then_parse_witness :
    Normalized ⟨true, [0], [0]⟩ ∧ str ⟨true, [0], [0]⟩ = ['-', '0'] ∧
      float_str ⟨true, [0], [0]⟩ = ['-', '0', '.', '0'] ∧
      from_string (str ⟨true, [0], [0]⟩) = .ok ⟨true, [0], [0]⟩ ∧
      from_string (float_str ⟨true, [0], [0]⟩) = .ok ⟨true, [0], [0]⟩ :=
  have h := C37_render_then_parse ⟨true, [0], [0]⟩ (by decide)
  ⟨by decide, by decide, by decide, h.1, h.2⟩

/-- C38: for all values `x` and `y`, the value returned by `x.add(y)` has the sign,
integer digits and fraction digits that `x` has after `x.join(y)`; `add` is a const
method working on copies. -/
theorem C38_add_agrees_with_join (x y : mnum) :
    x.add y = x.join y ∧ (x.add y).sign = (x.join y).sign ∧
      (x.add y).integer = (x.join y).integer ∧ (x.add y).fraction = (x.join y).fraction :=
  ⟨rfl, rfl, rfl, rfl⟩

/-- C39: for every value `a` and every divisor `b` of zero magnitude, `a /= b`, `a %= b`,
`a.idiv(b)` and `a.ifloor_div(b)` fail with division by zero and leave `a` as it was. -/
theorem C39_inplace_division_atomic (a b : mnum) (hb : ZeroMag b) :
    operator_div_assign a b = (.error Err.division_by_zero, a) ∧
      operator_mod_assign a b = (.error Err.division_by_zero, a) ∧
      idiv a b = (.error Err.division_by_zero, a) ∧
      ifloor_div a b = (.error Err.division_by_zero, a) := by
  obtain ⟨h1, h2, h3⟩ := division_by_zero_any (a := a) hb
  refine ⟨?_, ?_, ?_, ?_⟩
  · simp only [operator_div_assign, h1]
  · simp only [operator_mod_assign, h3]
  · simp only [idiv, h2]
  · simp only [ifloor_div, h3]

/-- Witness for C39: `-12.5` divided in place by the sign-flagged zero. -/
theorem C39_inplace_division_atomic_witness :
    ZeroMag ⟨true, [0], [0]⟩ ∧
      operator_mod_assign ⟨true, [1, 2], [5]⟩ ⟨true, [0], [0]⟩
        = (.error Err.division_by_zero, ⟨true, [1, 2], [5]⟩) :=
  ⟨by decide,
    (C39_inplace_division_atomic ⟨true, [1, 2], [5]⟩ ⟨true, [0], [0]⟩ (by decide)).2.1⟩

end mnum

end Mnum
